import Mathlib

/-!
Verification of the simplefeatures geometry core.

Coordinates are modelled as exact rationals: the repository's scalar core
(`XY`, `Scalar`) wraps exact rational arithmetic, and the algorithmic files
are embedded over the same exact field.  Each definition mirrors one Go
function of the repository; definitions that embed code not included in the
source tree are marked `Modelled from the spec:` in their doc comment.
-/

set_option maxHeartbeats 1000000

namespace SF

/-- An (x, y) coordinate pair, as in the `XY` struct (exact scalars). -/
structure XY where
  x : ℚ
  y : ℚ
deriving DecidableEq, Repr

instance : Inhabited XY := ⟨⟨0, 0⟩⟩

/-- `XY.Sub` from the source. -/
def XY.sub (w o : XY) : XY := ⟨w.x - o.x, w.y - o.y⟩

/-- `XY.Add` from the source. -/
def XY.add (w o : XY) : XY := ⟨w.x + o.x, w.y + o.y⟩

/-- `XY.Scale` from the source. -/
def XY.scale (w : XY) (s : ℚ) : XY := ⟨w.x * s, w.y * s⟩

/-- `XY.Cross` from the source: `w.X*o.Y - w.Y*o.X`. -/
def XY.cross (w o : XY) : ℚ := w.x * o.y - w.y * o.x

/-- `XY.Dot`: `w.X*o.X + w.Y*o.Y`. -/
def XY.dot (w o : XY) : ℚ := w.x * o.x + w.y * o.y

/-- The `threePointOrientation` enum from the source. -/
inductive threePointOrientation where
  | rightTurn
  | collinear
  | leftTurn
deriving DecidableEq, Repr

open threePointOrientation

/-- `orientation(p, q, s)`: sign of `(q-p) × (s-q)`; positive cross product
is a left turn, negative a right turn, zero collinear. -/
def orientation (p q s : XY) : threePointOrientation :=
  let cp := (q.sub p).cross (s.sub q)
  if 0 < cp then leftTurn
  else if cp < 0 then rightTurn
  else collinear

/-- The cross-product quantity inside `orientation`. -/
def orient3 (p q s : XY) : ℚ := (q.sub p).cross (s.sub q)

theorem orient3_eq (p q s : XY) : orient3 p q s = (q.sub p).cross (s.sub p) := by
  simp only [orient3, XY.sub, XY.cross]
  ring

theorem orientation_eq_ifs (p q s : XY) :
    orientation p q s =
      if 0 < orient3 p q s then leftTurn
      else if orient3 p q s < 0 then rightTurn else collinear := rfl

theorem orientation_eq_collinear_iff (p q s : XY) :
    orientation p q s = collinear ↔ orient3 p q s = 0 := by
  rw [orientation_eq_ifs]
  rcases lt_trichotomy (orient3 p q s) 0 with h | h | h
  · simp [not_lt.mpr h.le, h, h.ne]
  · simp [h]
  · simp [h, not_lt.mpr h.le, h.ne.symm]

theorem orientation_ne_iff (p1 q1 s1 p2 q2 s2 : XY) :
    (orientation p1 q1 s1 ≠ orientation p2 q2 s2) ↔
      ¬(0 < orient3 p1 q1 s1 ∧ 0 < orient3 p2 q2 s2) ∧
      ¬(orient3 p1 q1 s1 < 0 ∧ orient3 p2 q2 s2 < 0) ∧
      ¬(orient3 p1 q1 s1 = 0 ∧ orient3 p2 q2 s2 = 0) := by
  rw [orientation_eq_ifs, orientation_eq_ifs]
  rcases lt_trichotomy (orient3 p1 q1 s1) 0 with h1 | h1 | h1 <;>
    rcases lt_trichotomy (orient3 p2 q2 s2) 0 with h2 | h2 | h2
  · simp [not_lt.mpr h1.le, not_lt.mpr h2.le, h1, h2, h1.ne, h2.ne]
  · simp [not_lt.mpr h1.le, h1, h2, h1.ne]
  · simp [not_lt.mpr h1.le, h1, h2, h1.ne, h2.ne.symm, h2.le]
  · simp [not_lt.mpr h2.le, h1, h2, h2.ne]
  · simp [h1, h2]
  · simp [h1, h2, h2.ne.symm]
  · simp [not_lt.mpr h2.le, h1, h2, h1.ne.symm, h2.ne, h1.le]
  · simp [h1, h2, h1.ne.symm]
  · simp [h1, h2, h1.ne.symm, h2.ne.symm]

/-- A line segment with two endpoints, as in the `Line` struct. -/
structure Line where
  a : XY
  b : XY
deriving DecidableEq, Repr

instance : Inhabited Line := ⟨⟨default, default⟩⟩

/-- Modelled from the spec: point-on-segment is a bounding-box envelope check
together with an exact collinearity test via a zero cross product.  (The Go
helper `onSegment` is invoked only under a collinearity guard.) -/
def onSegment (p q r : XY) : Bool :=
  decide (min p.x q.x ≤ r.x ∧ r.x ≤ max p.x q.x ∧
    min p.y q.y ≤ r.y ∧ r.y ≤ max p.y q.y ∧
    (q.sub p).cross (r.sub p) = 0)

/-- Modelled from the spec: index of the rightmost (largest x), breaking ties
by highest (largest y), point of a list (companion of `ltl` in the source). -/
def rightmostThenHighestIndex (ps : List XY) : Nat :=
  (List.range ps.length).foldl
    (fun rpi i =>
      if (ps[rpi]!).x < (ps[i]!).x ∨
          ((ps[i]!).x = (ps[rpi]!).x ∧ (ps[rpi]!).y < (ps[i]!).y) then i else rpi)
    0

/-- Modelled from the spec: index of the leftmost-then-lowest point of a list
(the `ltl` pattern from the convex-hull file, applied to x before y). -/
def leftmostThenLowestIndex (ps : List XY) : Nat :=
  (List.range ps.length).foldl
    (fun rpi i =>
      if (ps[i]!).x < (ps[rpi]!).x ∨
          ((ps[i]!).x = (ps[rpi]!).x ∧ (ps[i]!).y < (ps[rpi]!).y) then i else rpi)
    0

/-- `hasIntersectionLineWithLine` from `alg_intersects.go`: the four-orientation
segment/segment intersection test, with the collinear case decided by
endpoint-on-opposite-segment checks.  The trailing block that strips the two
extreme collinear points is reproduced faithfully (both of its outcomes
return `true`). -/
def hasIntersectionLineWithLine (n1 n2 : Line) : Bool :=
  let a := n1.a
  let b := n1.b
  let c := n2.a
  let d := n2.b
  let o1 := orientation a b c
  let o2 := orientation a b d
  let o3 := orientation c d a
  let o4 := orientation c d b
  if o1 ≠ o2 ∧ o3 ≠ o4 then
    true
  else if o1 = collinear ∧ o2 = collinear then
    if (!onSegment a b c && !onSegment a b d) && (!onSegment c d a && !onSegment c d b) then
      false
    else
      let abcd : List XY := [a, b, c, d]
      let rth := rightmostThenHighestIndex abcd
      let pts1 := abcd.eraseIdx rth
      let ltl := leftmostThenLowestIndex pts1
      let pts2 := pts1.eraseIdx ltl
      if pts2[0]! = pts2[1]! then true else true
  else
    false

/-- Membership of `r` in the closed segment from `p` to `q`, stated with an
explicit parameter. -/
def onSeg (p q r : XY) : Prop :=
  ∃ t : ℚ, 0 ≤ t ∧ t ≤ 1 ∧ r = p.add ((q.sub p).scale t)

/-- The two closed segments share at least one point. -/
def segsIntersect (n1 n2 : Line) : Prop :=
  ∃ r : XY, onSeg n1.a n1.b r ∧ onSeg n2.a n2.b r

theorem segsIntersect_symm {n1 n2 : Line} (h : segsIntersect n1 n2) :
    segsIntersect n2 n1 := by
  obtain ⟨r, h1, h2⟩ := h
  exact ⟨r, h2, h1⟩

theorem onSeg_left (p q : XY) : onSeg p q p :=
  ⟨0, le_refl 0, zero_le_one, by simp [XY.add, XY.scale, XY.sub]⟩

theorem onSeg_right (p q : XY) : onSeg p q q :=
  ⟨1, zero_le_one, le_refl 1, by simp [XY.add, XY.scale, XY.sub]⟩

theorem onSeg_comm {p q r : XY} (h : onSeg p q r) : onSeg q p r := by
  obtain ⟨t, h0, h1, hr⟩ := h
  refine ⟨1 - t, by linarith, by linarith, ?_⟩
  obtain ⟨rx, ry⟩ := r
  simp only [XY.add, XY.scale, XY.sub, XY.mk.injEq] at hr ⊢
  constructor <;> nlinarith [hr.1, hr.2]

theorem XY.sub_ne_zero {a b : XY} (h : a ≠ b) : b.sub a ≠ (⟨0, 0⟩ : XY) := by
  intro hc
  apply h
  obtain ⟨ax, ay⟩ := a
  obtain ⟨bx, by'⟩ := b
  simp only [XY.sub, XY.mk.injEq] at hc
  simp only [XY.mk.injEq]
  constructor <;> linarith [hc.1, hc.2]

theorem XY.cross_self (v : XY) : v.cross v = 0 := by
  simp [XY.cross]; ring

/-- Two vectors with zero cross product are parallel: one is a scalar multiple
of the other, provided the first is non-zero. -/
theorem XY.parallel_of_cross_eq_zero {r v : XY} (hr : r ≠ (⟨0, 0⟩ : XY))
    (h : r.cross v = 0) : ∃ k : ℚ, v = r.scale k := by
  obtain ⟨rx, ry⟩ := r
  obtain ⟨vx, vy⟩ := v
  simp only [XY.cross] at h
  by_cases hx : rx = 0
  · have hy : ry ≠ 0 := by
      intro hy
      exact hr (by simp [hx, hy])
    have hvx : vx = 0 := by
      have hz : ry * vx = 0 := by
        rw [hx] at h
        linarith
      exact (mul_eq_zero.mp hz).resolve_left hy
    refine ⟨vy / ry, ?_⟩
    simp only [XY.scale, XY.mk.injEq, hx, hvx]
    constructor
    · ring
    · field_simp
  · refine ⟨vx / rx, ?_⟩
    simp only [XY.scale, XY.mk.injEq]
    constructor
    · field_simp
    · field_simp
      nlinarith [h]

/-- A vector with zero cross product against two independent vectors is zero. -/
theorem XY.eq_zero_of_cross_eq_zero {r s v : XY} (hD : r.cross s ≠ 0)
    (h1 : v.cross r = 0) (h2 : v.cross s = 0) : v = (⟨0, 0⟩ : XY) := by
  obtain ⟨rx, ry⟩ := r
  obtain ⟨sx, sy⟩ := s
  obtain ⟨vx, vy⟩ := v
  simp only [XY.cross, XY.mk.injEq] at hD h1 h2 ⊢
  have hvx : vx * (rx * sy - ry * sx) = rx * (vx * sy - vy * sx) - sx * (vx * ry - vy * rx) := by
    ring
  have hvy : vy * (rx * sy - ry * sx) = ry * (vx * sy - vy * sx) - sy * (vx * ry - vy * rx) := by
    ring
  constructor
  · have := hvx
    rw [h1, h2] at this
    simp only [mul_zero, sub_zero] at this
    exact (mul_eq_zero.mp this).resolve_right hD
  · have := hvy
    rw [h1, h2] at this
    simp only [mul_zero, sub_zero] at this
    exact (mul_eq_zero.mp this).resolve_right hD

theorem XY.scale_injective {r : XY} (hr : r ≠ (⟨0, 0⟩ : XY)) {x y : ℚ}
    (h : r.scale x = r.scale y) : x = y := by
  obtain ⟨rx, ry⟩ := r
  simp only [XY.scale, XY.mk.injEq] at h
  by_cases hx : rx = 0
  · have hy : ry ≠ 0 := fun hy => hr (by simp [hx, hy])
    exact mul_right_cancel₀ hy (by linarith [h.2])
  · exact mul_right_cancel₀ hx (by linarith [h.1])

/-- One-dimensional interval-membership against an affine parameter. -/
theorem interval1d (u v t : ℚ) :
    (min u v ≤ u + t * (v - u) ∧ u + t * (v - u) ≤ max u v) ↔
      (v - u = 0 ∨ (0 ≤ t ∧ t ≤ 1)) := by
  rcases lt_trichotomy u v with h | h | h
  · rw [min_eq_left h.le, max_eq_right h.le]
    constructor
    · rintro ⟨l, r⟩
      right
      constructor <;> nlinarith
    · rintro (h0 | ⟨h0, h1⟩)
      · constructor <;> nlinarith
      · constructor <;> nlinarith
  · simp [h]
  · rw [min_eq_right h.le, max_eq_left h.le]
    constructor
    · rintro ⟨l, r⟩
      right
      constructor <;> nlinarith
    · rintro (h0 | ⟨h0, h1⟩)
      · constructor <;> nlinarith
      · constructor <;> nlinarith

/-- The bounding-box part of `onSegment`, for a point given parametrically on
the segment's supporting line, is equivalent to the parameter lying in
`[0, 1]` (for a non-degenerate segment). -/
theorem bbox_param {a b p : XY} (t : ℚ) (hp : p = a.add ((b.sub a).scale t))
    (hab : a ≠ b) :
    (min a.x b.x ≤ p.x ∧ p.x ≤ max a.x b.x ∧
      min a.y b.y ≤ p.y ∧ p.y ≤ max a.y b.y) ↔ (0 ≤ t ∧ t ≤ 1) := by
  have hpx : p.x = a.x + t * (b.x - a.x) := by
    rw [hp]; simp [XY.add, XY.scale, XY.sub]; ring
  have hpy : p.y = a.y + t * (b.y - a.y) := by
    rw [hp]; simp [XY.add, XY.scale, XY.sub]; ring
  have hx := interval1d a.x b.x t
  have hy := interval1d a.y b.y t
  rw [hpx, hpy]
  constructor
  · rintro ⟨h1, h2, h3, h4⟩
    rcases hx.mp ⟨h1, h2⟩ with hx0 | hgood
    · rcases hy.mp ⟨h3, h4⟩ with hy0 | hgood
      · exfalso
        apply hab
        obtain ⟨ax, ay⟩ := a
        obtain ⟨bx, by'⟩ := b
        simp only at hx0 hy0
        simp only [XY.mk.injEq]
        constructor <;> linarith
      · exact hgood
    · exact hgood
  · intro hgood
    have h1 := hx.mpr (Or.inr hgood)
    have h2 := hy.mpr (Or.inr hgood)
    exact ⟨h1.1, h1.2, h2.1, h2.2⟩

theorem onSegment_eq_true_iff (p q r : XY) :
    onSegment p q r = true ↔
      (min p.x q.x ≤ r.x ∧ r.x ≤ max p.x q.x ∧
        min p.y q.y ≤ r.y ∧ r.y ≤ max p.y q.y ∧
        (q.sub p).cross (r.sub p) = 0) := by
  simp [onSegment]

/-- The boolean outcome of `hasIntersectionLineWithLine`, as a disjunction:
either the two strict orientation tests disagree on both sides, or the
first pair is collinear and some endpoint lies on the opposite segment. -/
theorem hasIntersectionLineWithLine_eq_true_iff (n1 n2 : Line) :
    hasIntersectionLineWithLine n1 n2 = true ↔
      ((orientation n1.a n1.b n2.a ≠ orientation n1.a n1.b n2.b ∧
        orientation n2.a n2.b n1.a ≠ orientation n2.a n2.b n1.b) ∨
       (orientation n1.a n1.b n2.a = collinear ∧
        orientation n1.a n1.b n2.b = collinear ∧
        (onSegment n1.a n1.b n2.a = true ∨ onSegment n1.a n1.b n2.b = true ∨
         onSegment n2.a n2.b n1.a = true ∨ onSegment n2.a n2.b n1.b = true))) := by
  unfold hasIntersectionLineWithLine
  dsimp only
  by_cases hmain : orientation n1.a n1.b n2.a ≠ orientation n1.a n1.b n2.b ∧
      orientation n2.a n2.b n1.a ≠ orientation n2.a n2.b n1.b
  · rw [if_pos hmain]
    simp [hmain]
  · rw [if_neg hmain]
    by_cases hcol : orientation n1.a n1.b n2.a = collinear ∧
        orientation n1.a n1.b n2.b = collinear
    · rw [if_pos hcol]
      by_cases hseg : ((!onSegment n1.a n1.b n2.a && !onSegment n1.a n1.b n2.b) &&
          (!onSegment n2.a n2.b n1.a && !onSegment n2.a n2.b n1.b)) = true
      · rw [if_pos hseg]
        simp only [Bool.and_eq_true, Bool.not_eq_true'] at hseg
        simp [hmain, hseg.1.1, hseg.1.2, hseg.2.1, hseg.2.2]
      · rw [if_neg hseg]
        simp only [Bool.and_eq_true, Bool.not_eq_true', not_and_or,
          Bool.not_eq_false] at hseg
        simp only [ite_self, true_iff]
        right
        refine ⟨hcol.1, hcol.2, ?_⟩
        tauto
    · rw [if_neg hcol]
      simp only [Bool.false_eq_true, false_iff, not_or]
      exact ⟨hmain, fun h => hcol ⟨h.1, h.2.1⟩⟩

theorem orient3_abc_eq (a b c d : XY) :
    orient3 a b c = (b.sub a).cross (c.sub a) := orient3_eq a b c

theorem orient3_abd_eq (a b c d : XY) :
    orient3 a b d = (b.sub a).cross (c.sub a) + (b.sub a).cross (d.sub c) := by
  simp only [orient3, XY.sub, XY.cross]
  ring

theorem orient3_cda_eq (a b c d : XY) :
    orient3 c d a = (c.sub a).cross (d.sub c) := by
  simp only [orient3, XY.sub, XY.cross]
  ring

theorem orient3_cdb_eq (a b c d : XY) :
    orient3 c d b = (c.sub a).cross (d.sub c) - (b.sub a).cross (d.sub c) := by
  simp only [orient3, XY.sub, XY.cross]
  ring

theorem XY.eq_iff {p q : XY} : p = q ↔ (p.x = q.x ∧ p.y = q.y) := by
  constructor
  · rintro rfl
    exact ⟨rfl, rfl⟩
  · rintro ⟨hx, hy⟩
    cases p
    cases q
    simp_all

/-- Parametric characterisation of a common point of the two supporting
lines, in the non-parallel case: the two affine parameters are determined by
the cross-product quantities. -/
theorem param_eq_iff {a b c d : XY} (hD : (b.sub a).cross (d.sub c) ≠ 0)
    (t u : ℚ) :
    a.add ((b.sub a).scale t) = c.add ((d.sub c).scale u) ↔
      (t * ((b.sub a).cross (d.sub c)) = (c.sub a).cross (d.sub c) ∧
       u * ((b.sub a).cross (d.sub c)) = -((b.sub a).cross (c.sub a))) := by
  constructor
  · intro h
    rw [XY.eq_iff] at h
    simp only [XY.add, XY.scale, XY.sub] at h
    obtain ⟨hx, hy⟩ := h
    constructor
    · simp only [XY.sub, XY.cross]
      linear_combination (d.y - c.y) * hx - (d.x - c.x) * hy
    · simp only [XY.sub, XY.cross]
      linear_combination (b.y - a.y) * hx - (b.x - a.x) * hy
  · rintro ⟨ht, hu⟩
    have hv : ((a.add ((b.sub a).scale t)).sub (c.add ((d.sub c).scale u))) =
        (⟨0, 0⟩ : XY) := by
      apply XY.eq_zero_of_cross_eq_zero hD
      · simp only [XY.add, XY.scale, XY.sub, XY.cross] at ht hu ⊢
        linear_combination hu + ((b.sub a).cross (c.sub a) - (b.sub a).cross (c.sub a))
      · simp only [XY.add, XY.scale, XY.sub, XY.cross] at ht hu ⊢
        linear_combination ht - ((c.sub a).cross (d.sub c) - (c.sub a).cross (d.sub c))
    rw [XY.eq_iff]
    rw [XY.eq_iff] at hv
    simp only [XY.add, XY.scale, XY.sub] at hv ⊢
    constructor <;> linarith [hv.1, hv.2]

/-- Pure sign arithmetic for the non-parallel case: the two orientation
disagreements hold iff the parametric solution lies in the unit square. -/
theorem cross_case_iff (al D be : ℚ) (hD : D ≠ 0) :
    ((¬(0 < al ∧ 0 < al + D) ∧ ¬(al < 0 ∧ al + D < 0) ∧ ¬(al = 0 ∧ al + D = 0)) ∧
     (¬(0 < be ∧ 0 < be - D) ∧ ¬(be < 0 ∧ be - D < 0) ∧ ¬(be = 0 ∧ be - D = 0))) ↔
    (∃ t u : ℚ, 0 ≤ t ∧ t ≤ 1 ∧ 0 ≤ u ∧ u ≤ 1 ∧ t * D = be ∧ u * D = -al) := by
  constructor
  · rintro ⟨⟨ha1, ha2, ha3⟩, ⟨hb1, hb2, hb3⟩⟩
    rcases hD.lt_or_lt with hneg | hpos
    · have hbe0 : be ≤ 0 := by
        by_contra hc
        push_neg at hc
        exact hb1 ⟨hc, by linarith⟩
      have hbeD : D ≤ be := by
        by_contra hc
        push_neg at hc
        exact hb2 ⟨by linarith, by linarith⟩
      have hal0 : 0 ≤ al := by
        by_contra hc
        push_neg at hc
        exact ha2 ⟨hc, by linarith⟩
      have halD : al ≤ -D := by
        by_contra hc
        push_neg at hc
        exact ha1 ⟨by linarith, by linarith⟩
      refine ⟨be / D, -al / D, ?_, ?_, ?_, ?_, ?_, ?_⟩
      · exact div_nonneg_of_nonpos hbe0 hneg.le
      · rw [div_le_one_of_neg hneg]
        exact hbeD
      · exact div_nonneg_of_nonpos (by linarith) hneg.le
      · rw [div_le_one_of_neg hneg]
        linarith
      · field_simp
      · field_simp
    · have hbe0 : 0 ≤ be := by
        by_contra hc
        push_neg at hc
        exact hb2 ⟨hc, by linarith⟩
      have hbeD : be ≤ D := by
        by_contra hc
        push_neg at hc
        exact hb1 ⟨by linarith, by linarith⟩
      have hal0 : al ≤ 0 := by
        by_contra hc
        push_neg at hc
        exact ha1 ⟨hc, by linarith⟩
      have halD : -D ≤ al := by
        by_contra hc
        push_neg at hc
        exact ha2 ⟨by linarith, by linarith⟩
      refine ⟨be / D, -al / D, ?_, ?_, ?_, ?_, ?_, ?_⟩
      · exact div_nonneg hbe0 hpos.le
      · rw [div_le_one hpos]
        exact hbeD
      · exact div_nonneg (by linarith) hpos.le
      · rw [div_le_one hpos]
        linarith
      · field_simp
      · field_simp
  · rintro ⟨t, u, ht0, ht1, hu0, hu1, hte, hue⟩
    have hal_eq : al = -(u * D) := by linarith
    have hbe_eq : be = t * D := hte.symm
    subst hal_eq
    subst hbe_eq
    have hukey : 0 ≤ u * (1 - u) * D ^ 2 :=
      mul_nonneg (mul_nonneg hu0 (by linarith)) (sq_nonneg D)
    have htkey : 0 ≤ t * (1 - t) * D ^ 2 :=
      mul_nonneg (mul_nonneg ht0 (by linarith)) (sq_nonneg D)
    refine ⟨⟨?_, ?_, ?_⟩, ⟨?_, ?_, ?_⟩⟩
    · rintro ⟨hx, hy⟩
      nlinarith [mul_pos hx hy, hukey]
    · rintro ⟨hx, hy⟩
      nlinarith [mul_pos_of_neg_of_neg hx hy, hukey]
    · rintro ⟨hx, hy⟩
      exact hD (by linarith)
    · rintro ⟨hx, hy⟩
      nlinarith [mul_pos hx hy, htkey]
    · rintro ⟨hx, hy⟩
      nlinarith [mul_pos_of_neg_of_neg hx hy, htkey]
    · rintro ⟨hx, hy⟩
      exact hD (by linarith)


theorem orientation_congr {p q s p2 q2 s2 : XY}
    (h : orient3 p q s = orient3 p2 q2 s2) :
    orientation p q s = orientation p2 q2 s2 := by
  rw [orientation_eq_ifs, orientation_eq_ifs, h]

/-- One-dimensional characterisation of the collinear overlap case: the four
endpoint-inclusion tests succeed iff the parameter intervals meet. -/
theorem collinear_1d (m k : ℚ) (hk : k ≠ 0) :
    ((0 ≤ m ∧ m ≤ 1) ∨ (0 ≤ m + k ∧ m + k ≤ 1) ∨
      (0 ≤ -m / k ∧ -m / k ≤ 1) ∨ (0 ≤ (1 - m) / k ∧ (1 - m) / k ≤ 1)) ↔
      (∃ t u : ℚ, 0 ≤ t ∧ t ≤ 1 ∧ 0 ≤ u ∧ u ≤ 1 ∧ t = m + u * k) := by
  rcases hk.lt_or_lt with hkneg | hkpos
  · -- k < 0: both sides are equivalent to 0 ≤ m ∧ m + k ≤ 1
    have hchar : ∀ P : Prop, (P ↔ (0 ≤ m ∧ m + k ≤ 1)) →
        (P ↔ (0 ≤ m ∧ m + k ≤ 1)) := fun _ h => h
    constructor
    · rintro (⟨hm0, hm1⟩ | ⟨h0, h1⟩ | ⟨h0, h1⟩ | ⟨h0, h1⟩)
      · exact ⟨m, 0, hm0, hm1, le_refl 0, zero_le_one, by ring⟩
      · exact ⟨m + k, 1, h0, h1, zero_le_one, le_refl 1, by ring⟩
      · -- -m/k ∈ [0,1] with k < 0: 0 ≥ -m ≥ k, i.e. 0 ≤ m ≤ -k
        have hm0 : -m ≤ 0 := by
          by_contra hcon
          push_neg at hcon
          have : -m / k < 0 := div_neg_of_pos_of_neg hcon hkneg
          linarith
        have hmk : k ≤ -m := by
          by_contra hcon
          push_neg at hcon
          have : 1 < -m / k := by
            rw [lt_div_iff_of_neg hkneg]
            linarith
          linarith
        exact ⟨0, -m / k, le_refl 0, zero_le_one, h0, h1, by field_simp⟩
      · have hm1 : 0 ≤ 1 - m → True := fun _ => trivial
        have h1m : 1 - m ≤ 0 := by
          by_contra hcon
          push_neg at hcon
          have : (1 - m) / k < 0 := div_neg_of_pos_of_neg hcon hkneg
          linarith
        have hkm : k ≤ 1 - m := by
          by_contra hcon
          push_neg at hcon
          have : 1 < (1 - m) / k := by
            rw [lt_div_iff_of_neg hkneg]
            linarith
          linarith
        exact ⟨1, (1 - m) / k, zero_le_one, le_refl 1, h0, h1, by field_simp⟩
    · rintro ⟨t, u, ht0, ht1, hu0, hu1, heq⟩
      -- record the interval bounds: 0 ≤ m and m + k ≤ 1
      have hmge : 0 ≤ m := by nlinarith
      have hmkle : m + k ≤ 1 := by nlinarith
      by_cases hm1 : m ≤ 1
      · exact Or.inl ⟨hmge, hm1⟩
      · push_neg at hm1
        by_cases hmk0 : 0 ≤ m + k
        · exact Or.inr (Or.inl ⟨hmk0, hmkle⟩)
        · push_neg at hmk0
          -- 1 lies strictly inside (m+k, m): use the fourth test
          refine Or.inr (Or.inr (Or.inr ⟨?_, ?_⟩))
          · apply div_nonneg_of_nonpos (by linarith) hkneg.le
          · rw [div_le_one_of_neg hkneg]
            linarith
  · -- k > 0: both sides are equivalent to -k ≤ m ∧ m ≤ 1
    constructor
    · rintro (⟨hm0, hm1⟩ | ⟨h0, h1⟩ | ⟨h0, h1⟩ | ⟨h0, h1⟩)
      · exact ⟨m, 0, hm0, hm1, le_refl 0, zero_le_one, by ring⟩
      · exact ⟨m + k, 1, h0, h1, zero_le_one, le_refl 1, by ring⟩
      · exact ⟨0, -m / k, le_refl 0, zero_le_one, h0, h1, by field_simp⟩
      · exact ⟨1, (1 - m) / k, zero_le_one, le_refl 1, h0, h1, by field_simp⟩
    · rintro ⟨t, u, ht0, ht1, hu0, hu1, heq⟩
      have hmle : m ≤ 1 := by nlinarith
      have hmge : -k ≤ m := by nlinarith
      by_cases hm0 : 0 ≤ m
      · exact Or.inl ⟨hm0, hmle⟩
      · push_neg at hm0
        by_cases hmk1 : m + k ≤ 1
        · exact Or.inr (Or.inl ⟨by linarith, hmk1⟩)
        · push_neg at hmk1
          refine Or.inr (Or.inr (Or.inl ⟨?_, ?_⟩))
          · apply div_nonneg (by linarith) hkpos.le
          · rw [div_le_one hkpos]
            linarith

/-- The segment/segment primitive is correct: for non-degenerate segments it
returns `true` exactly when the two closed segments share a point. -/
theorem hasIntersectionLineWithLine_iff_segsIntersect {n1 n2 : Line}
    (hn1 : n1.a ≠ n1.b) (hn2 : n2.a ≠ n2.b) :
    (hasIntersectionLineWithLine n1 n2 = true ↔ segsIntersect n1 n2) := by
  obtain ⟨a, b⟩ := n1
  obtain ⟨c, d⟩ := n2
  dsimp only at hn1 hn2
  rw [hasIntersectionLineWithLine_eq_true_iff]
  dsimp only
  have e1 : orient3 a b c = (b.sub a).cross (c.sub a) := orient3_abc_eq a b c d
  have e2 : orient3 a b d = (b.sub a).cross (c.sub a) + (b.sub a).cross (d.sub c) :=
    orient3_abd_eq a b c d
  have e3 : orient3 c d a = (c.sub a).cross (d.sub c) := orient3_cda_eq a b c d
  have e4 : orient3 c d b = (c.sub a).cross (d.sub c) - (b.sub a).cross (d.sub c) :=
    orient3_cdb_eq a b c d
  have hsegs : segsIntersect ⟨a, b⟩ ⟨c, d⟩ ↔
      ∃ t u : ℚ, 0 ≤ t ∧ t ≤ 1 ∧ 0 ≤ u ∧ u ≤ 1 ∧
        a.add ((b.sub a).scale t) = c.add ((d.sub c).scale u) := by
    constructor
    · rintro ⟨p, ⟨t, ht0, ht1, hp1⟩, ⟨u, hu0, hu1, hp2⟩⟩
      exact ⟨t, u, ht0, ht1, hu0, hu1, hp1.symm.trans hp2⟩
    · rintro ⟨t, u, ht0, ht1, hu0, hu1, heq⟩
      exact ⟨a.add ((b.sub a).scale t), ⟨t, ht0, ht1, rfl⟩, ⟨u, hu0, hu1, heq.symm.symm ▸ heq⟩⟩
  by_cases hD : (b.sub a).cross (d.sub c) = 0
  case neg =>
    constructor
    · rintro (⟨ho12, ho34⟩ | ⟨hc1, hc2, _⟩)
      · rw [orientation_ne_iff] at ho12 ho34
        rw [e1, e2] at ho12
        rw [e3, e4] at ho34
        obtain ⟨t, u, ht0, ht1, hu0, hu1, hte, hue⟩ :=
          (cross_case_iff _ _ _ hD).mp ⟨ho12, ho34⟩
        exact hsegs.mpr ⟨t, u, ht0, ht1, hu0, hu1, (param_eq_iff hD t u).mpr ⟨hte, hue⟩⟩
      · exfalso
        rw [orientation_eq_collinear_iff, e1] at hc1
        rw [orientation_eq_collinear_iff, e2] at hc2
        exact hD (by linarith)
    · intro hres
      obtain ⟨t, u, ht0, ht1, hu0, hu1, heq⟩ := hsegs.mp hres
      obtain ⟨hte, hue⟩ := (param_eq_iff hD t u).mp heq
      have hcc := (cross_case_iff _ _ _ hD).mpr ⟨t, u, ht0, ht1, hu0, hu1, hte, hue⟩
      left
      constructor
      · rw [orientation_ne_iff, e1, e2]
        exact hcc.1
      · rw [orientation_ne_iff, e3, e4]
        exact hcc.2
  case pos =>
    have hrne : b.sub a ≠ (⟨0, 0⟩ : XY) := XY.sub_ne_zero hn1
    have hsne : d.sub c ≠ (⟨0, 0⟩ : XY) := XY.sub_ne_zero hn2
    obtain ⟨k, hk⟩ := XY.parallel_of_cross_eq_zero hrne hD
    have hk0 : k ≠ 0 := by
      intro h0
      apply hsne
      rw [hk, h0]
      simp [XY.scale]
    have hD2 : (b.x - a.x) * (d.y - c.y) - (b.y - a.y) * (d.x - c.x) = 0 := by
      have := hD
      simp only [XY.sub, XY.cross] at this
      exact this
    by_cases hal : (b.sub a).cross (c.sub a) = 0
    case neg =>
      have ho12 : orientation a b c = orientation a b d :=
        orientation_congr (by rw [e1, e2, hD]; ring)
      constructor
      · rintro (⟨hne, _⟩ | ⟨hc1, _, _⟩)
        · exact absurd ho12 hne
        · rw [orientation_eq_collinear_iff, e1] at hc1
          exact absurd hc1 hal
      · intro hres
        exfalso
        obtain ⟨t, u, ht0, ht1, hu0, hu1, heq⟩ := hsegs.mp hres
        rw [hk, XY.eq_iff] at heq
        simp only [XY.add, XY.scale, XY.sub] at heq
        obtain ⟨hx, hy⟩ := heq
        apply hal
        simp only [XY.sub, XY.cross]
        linear_combination (b.y - a.y) * hx - (b.x - a.x) * hy
    case pos =>
      have hal2 : (b.x - a.x) * (c.y - a.y) - (b.y - a.y) * (c.x - a.x) = 0 := by
        have := hal
        simp only [XY.sub, XY.cross] at this
        exact this
      obtain ⟨m, hm⟩ := XY.parallel_of_cross_eq_zero hrne hal
      have hm2 := hm
      rw [XY.eq_iff] at hm2
      simp only [XY.sub, XY.scale] at hm2
      have hk2 := hk
      rw [XY.eq_iff] at hk2
      simp only [XY.sub, XY.scale] at hk2
      have hceq : c = a.add ((b.sub a).scale m) := by
        rw [XY.eq_iff]
        simp only [XY.add, XY.scale, XY.sub]
        constructor
        · linear_combination hm2.1
        · linear_combination hm2.2
      have hdeq : d = a.add ((b.sub a).scale (m + k)) := by
        rw [XY.eq_iff]
        simp only [XY.add, XY.scale, XY.sub]
        constructor
        · linear_combination hm2.1 + hk2.1
        · linear_combination hm2.2 + hk2.2
      have hbe : (c.sub a).cross (d.sub c) = 0 := by
        simp only [XY.sub, XY.cross]
        linear_combination (d.y - c.y) * hm2.1 - (d.x - c.x) * hm2.2 + m * hD2
      have hbd : (b.sub a).cross (d.sub a) = 0 := by
        simp only [XY.sub, XY.cross]
        linear_combination hal2 + hD2
      have hca : (d.sub c).cross (a.sub c) = 0 := by
        have h0 : (d.sub c).cross (a.sub c) = orient3 c d a := (orient3_eq c d a).symm
        rw [h0, e3, hbe]
      have hcb : (d.sub c).cross (b.sub c) = 0 := by
        have h0 : (d.sub c).cross (b.sub c) = orient3 c d b := (orient3_eq c d b).symm
        rw [h0, e4, hbe, hD]
        ring
      have hq1 : (d.x - c.x) * (-m / k) = -((b.x - a.x) * m) := by
        rw [hk2.1]
        field_simp
        ring
      have hq2 : (d.y - c.y) * (-m / k) = -((b.y - a.y) * m) := by
        rw [hk2.2]
        field_simp
        ring
      have hq3 : (d.x - c.x) * ((1 - m) / k) = (b.x - a.x) * (1 - m) := by
        rw [hk2.1]
        field_simp
        ring
      have hq4 : (d.y - c.y) * ((1 - m) / k) = (b.y - a.y) * (1 - m) := by
        rw [hk2.2]
        field_simp
        ring
      have hparam_a : a = c.add ((d.sub c).scale (-m / k)) := by
        rw [XY.eq_iff]
        simp only [XY.add, XY.scale, XY.sub]
        constructor
        · linear_combination -hm2.1 - hq1
        · linear_combination -hm2.2 - hq2
      have hparam_b : b = c.add ((d.sub c).scale ((1 - m) / k)) := by
        rw [XY.eq_iff]
        simp only [XY.add, XY.scale, XY.sub]
        constructor
        · linear_combination -hm2.1 - hq3
        · linear_combination -hm2.2 - hq4
      have hseg1 : (onSegment a b c = true) ↔ (0 ≤ m ∧ m ≤ 1) := by
        rw [onSegment_eq_true_iff]
        constructor
        · rintro ⟨b1, b2, b3, b4, _⟩
          exact (bbox_param m hceq hn1).mp ⟨b1, b2, b3, b4⟩
        · intro hmm
          have hb := (bbox_param m hceq hn1).mpr hmm
          exact ⟨hb.1, hb.2.1, hb.2.2.1, hb.2.2.2, hal⟩
      have hseg2 : (onSegment a b d = true) ↔ (0 ≤ m + k ∧ m + k ≤ 1) := by
        rw [onSegment_eq_true_iff]
        constructor
        · rintro ⟨b1, b2, b3, b4, _⟩
          exact (bbox_param (m + k) hdeq hn1).mp ⟨b1, b2, b3, b4⟩
        · intro hmm
          have hb := (bbox_param (m + k) hdeq hn1).mpr hmm
          exact ⟨hb.1, hb.2.1, hb.2.2.1, hb.2.2.2, hbd⟩
      have hseg3 : (onSegment c d a = true) ↔ (0 ≤ -m / k ∧ -m / k ≤ 1) := by
        rw [onSegment_eq_true_iff]
        constructor
        · rintro ⟨b1, b2, b3, b4, _⟩
          exact (bbox_param (-m / k) hparam_a hn2).mp ⟨b1, b2, b3, b4⟩
        · intro hmm
          have hb := (bbox_param (-m / k) hparam_a hn2).mpr hmm
          exact ⟨hb.1, hb.2.1, hb.2.2.1, hb.2.2.2, hca⟩
      have hseg4 : (onSegment c d b = true) ↔ (0 ≤ (1 - m) / k ∧ (1 - m) / k ≤ 1) := by
        rw [onSegment_eq_true_iff]
        constructor
        · rintro ⟨b1, b2, b3, b4, _⟩
          exact (bbox_param ((1 - m) / k) hparam_b hn2).mp ⟨b1, b2, b3, b4⟩
        · intro hmm
          have hb := (bbox_param ((1 - m) / k) hparam_b hn2).mpr hmm
          exact ⟨hb.1, hb.2.1, hb.2.2.1, hb.2.2.2, hcb⟩
      have hrhs : segsIntersect ⟨a, b⟩ ⟨c, d⟩ ↔
          ∃ t u : ℚ, 0 ≤ t ∧ t ≤ 1 ∧ 0 ≤ u ∧ u ≤ 1 ∧ t = m + u * k := by
        rw [hsegs]
        constructor
        · rintro ⟨t, u, ht0, ht1, hu0, hu1, heq⟩
          refine ⟨t, u, ht0, ht1, hu0, hu1, ?_⟩
          rw [hk, hceq, XY.eq_iff] at heq
          simp only [XY.add, XY.scale, XY.sub] at heq
          obtain ⟨hx, hy⟩ := heq
          by_cases hBx : b.x - a.x = 0
          · have hBy : b.y - a.y ≠ 0 := by
              intro hBy
              apply hrne
              rw [XY.eq_iff]
              simp only [XY.sub]
              constructor <;> linarith
            have hz : (b.y - a.y) * (t - (m + u * k)) = 0 := by
              linear_combination hy
            have := (mul_eq_zero.mp hz).resolve_left hBy
            linarith
          · have hz : (b.x - a.x) * (t - (m + u * k)) = 0 := by
              linear_combination hx
            have := (mul_eq_zero.mp hz).resolve_left hBx
            linarith
        · rintro ⟨t, u, ht0, ht1, hu0, hu1, heq⟩
          refine ⟨t, u, ht0, ht1, hu0, hu1, ?_⟩
          rw [hk, hceq, XY.eq_iff]
          simp only [XY.add, XY.scale, XY.sub]
          subst heq
          constructor <;> ring
      have ho12 : orientation a b c = orientation a b d :=
        orientation_congr (by rw [e1, e2, hD]; ring)
      have hc1 : orientation a b c = collinear := by
        rw [orientation_eq_collinear_iff, e1]
        exact hal
      have hc2 : orientation a b d = collinear := by
        rw [orientation_eq_collinear_iff, e2, hal, hD]
        norm_num
      rw [hrhs]
      constructor
      · rintro (⟨hne, _⟩ | ⟨_, _, h4⟩)
        · exact absurd ho12 hne
        · rw [hseg1, hseg2, hseg3, hseg4] at h4
          exact (collinear_1d m k hk0).mp h4
      · intro hex
        right
        refine ⟨hc1, hc2, ?_⟩
        rw [hseg1, hseg2, hseg3, hseg4]
        exact (collinear_1d m k hk0).mpr hex

theorem hasIntersectionLineWithLine_self {n : Line} (h : n.a ≠ n.b) :
    hasIntersectionLineWithLine n n = true :=
  (hasIntersectionLineWithLine_iff_segsIntersect h h).mpr
    ⟨n.a, onSeg_left _ _, onSeg_left _ _⟩

theorem hasIntersectionLineWithLine_symm {n1 n2 : Line} (h1 : n1.a ≠ n1.b)
    (h2 : n2.a ≠ n2.b) :
    hasIntersectionLineWithLine n1 n2 = hasIntersectionLineWithLine n2 n1 := by
  have i1 := hasIntersectionLineWithLine_iff_segsIntersect h1 h2
  have i2 := hasIntersectionLineWithLine_iff_segsIntersect h2 h1
  by_cases hb : hasIntersectionLineWithLine n1 n2 = true
  · rw [hb, eq_comm, i2]
    exact segsIntersect_symm (i1.mp hb)
  · have hb2 : hasIntersectionLineWithLine n2 n1 ≠ true := fun hc =>
      hb (i1.mpr (segsIntersect_symm (i2.mp hc)))
    rw [Bool.eq_false_iff.mpr hb, Bool.eq_false_iff.mpr hb2]

theorem segsIntersect_swap_left {n1 n2 : Line} :
    segsIntersect ⟨n1.b, n1.a⟩ n2 ↔ segsIntersect n1 n2 := by
  constructor
  · rintro ⟨r, hr1, hr2⟩
    exact ⟨r, onSeg_comm hr1, hr2⟩
  · rintro ⟨r, hr1, hr2⟩
    exact ⟨r, onSeg_comm hr1, hr2⟩

theorem hasIntersectionLineWithLine_swap_left {n1 n2 : Line} (h1 : n1.a ≠ n1.b)
    (h2 : n2.a ≠ n2.b) :
    hasIntersectionLineWithLine ⟨n1.b, n1.a⟩ n2 = hasIntersectionLineWithLine n1 n2 := by
  have i1 := hasIntersectionLineWithLine_iff_segsIntersect
    (show (⟨n1.b, n1.a⟩ : Line).a ≠ (⟨n1.b, n1.a⟩ : Line).b from h1.symm) h2
  have i2 := hasIntersectionLineWithLine_iff_segsIntersect h1 h2
  by_cases hb : hasIntersectionLineWithLine ⟨n1.b, n1.a⟩ n2 = true
  · rw [hb, eq_comm, i2]
    exact segsIntersect_swap_left.mp (i1.mp hb)
  · have hb2 : hasIntersectionLineWithLine n1 n2 ≠ true := fun hc =>
      hb (i1.mpr (segsIntersect_swap_left.mpr (i2.mp hc)))
    rw [Bool.eq_false_iff.mpr hb, Bool.eq_false_iff.mpr hb2]

/-- Intersecting segments have overlapping x-ranges (for canonical segments
whose start has the smaller-or-equal x). -/
theorem segsIntersect_xoverlap {n1 n2 : Line} (hc1 : n1.a.x ≤ n1.b.x)
    (hc2 : n2.a.x ≤ n2.b.x) (h : segsIntersect n1 n2) :
    n2.a.x ≤ n1.b.x ∧ n1.a.x ≤ n2.b.x := by
  obtain ⟨p, ⟨t, ht0, ht1, hp1⟩, ⟨u, hu0, hu1, hp2⟩⟩ := h
  have hx1 : p.x = n1.a.x + t * (n1.b.x - n1.a.x) := by
    rw [hp1]
    simp [XY.add, XY.scale, XY.sub]
    ring
  have hx2 : p.x = n2.a.x + u * (n2.b.x - n2.a.x) := by
    rw [hp2]
    simp [XY.add, XY.scale, XY.sub]
    ring
  have k1 : 0 ≤ t * (n1.b.x - n1.a.x) := mul_nonneg ht0 (by linarith)
  have k2 : 0 ≤ u * (n2.b.x - n2.a.x) := mul_nonneg hu0 (by linarith)
  have k3 : t * (n1.b.x - n1.a.x) ≤ n1.b.x - n1.a.x :=
    mul_le_of_le_one_left (by linarith) ht1
  have k4 : u * (n2.b.x - n2.a.x) ≤ n2.b.x - n2.a.x :=
    mul_le_of_le_one_left (by linarith) hu1
  constructor <;> linarith

theorem beta_eq_zero {a b c d : XY} (hn1 : a ≠ b)
    (hal : (b.sub a).cross (c.sub a) = 0) (hD : (b.sub a).cross (d.sub c) = 0) :
    (c.sub a).cross (d.sub c) = 0 := by
  obtain ⟨m, hm⟩ := XY.parallel_of_cross_eq_zero (XY.sub_ne_zero hn1) hal
  have hm2 := hm
  rw [XY.eq_iff] at hm2
  simp only [XY.sub, XY.scale] at hm2
  have hD2 : (b.x - a.x) * (d.y - c.y) - (b.y - a.y) * (d.x - c.x) = 0 := by
    simpa only [XY.sub, XY.cross] using hD
  simp only [XY.sub, XY.cross]
  linear_combination (d.y - c.y) * hm2.1 - (d.x - c.x) * hm2.2 + m * hD2

/-- Modelled from the spec (§4.1): the four-orientation segment–segment
algorithm as the spec words it — if o1≠o2 and o3≠o4 then intersect; if all
four orientations are collinear, decide by the endpoint-on-opposite-segment
checks; otherwise no intersection. -/
def specSegmentSegmentIntersection (n1 n2 : Line) : Bool :=
  let o1 := orientation n1.a n1.b n2.a
  let o2 := orientation n1.a n1.b n2.b
  let o3 := orientation n2.a n2.b n1.a
  let o4 := orientation n2.a n2.b n1.b
  if o1 ≠ o2 ∧ o3 ≠ o4 then
    true
  else if o1 = collinear ∧ o2 = collinear ∧ o3 = collinear ∧ o4 = collinear then
    onSegment n1.a n1.b n2.a || onSegment n1.a n1.b n2.b ||
      onSegment n2.a n2.b n1.a || onSegment n2.a n2.b n1.b
  else
    false

theorem hasIntersectionLineWithLine_eq_spec {n1 n2 : Line} (hn1 : n1.a ≠ n1.b)
    (hn2 : n2.a ≠ n2.b) :
    hasIntersectionLineWithLine n1 n2 = specSegmentSegmentIntersection n1 n2 := by
  obtain ⟨a, b⟩ := n1
  obtain ⟨c, d⟩ := n2
  dsimp only at hn1 hn2
  unfold hasIntersectionLineWithLine specSegmentSegmentIntersection
  dsimp only
  by_cases hmain : orientation a b c ≠ orientation a b d ∧
      orientation c d a ≠ orientation c d b
  · rw [if_pos hmain, if_pos hmain]
  · rw [if_neg hmain, if_neg hmain]
    by_cases hcol : orientation a b c = collinear ∧ orientation a b d = collinear
    · have hal : (b.sub a).cross (c.sub a) = 0 := by
        have := (orientation_eq_collinear_iff a b c).mp hcol.1
        rwa [orient3_abc_eq a b c d] at this
      have halD : (b.sub a).cross (c.sub a) + (b.sub a).cross (d.sub c) = 0 := by
        have := (orientation_eq_collinear_iff a b d).mp hcol.2
        rwa [orient3_abd_eq a b c d] at this
      have hD : (b.sub a).cross (d.sub c) = 0 := by linarith
      have hbe : (c.sub a).cross (d.sub c) = 0 := beta_eq_zero hn1 hal hD
      have hc3 : orientation c d a = collinear := by
        rw [orientation_eq_collinear_iff, orient3_cda_eq a b c d]
        exact hbe
      have hc4 : orientation c d b = collinear := by
        rw [orientation_eq_collinear_iff, orient3_cdb_eq a b c d, hbe, hD]
        ring
      have hall : orientation a b c = collinear ∧ orientation a b d = collinear ∧
          orientation c d a = collinear ∧ orientation c d b = collinear :=
        ⟨hcol.1, hcol.2, hc3, hc4⟩
      rw [if_pos hcol, if_pos hall]
      by_cases hseg : ((!onSegment a b c && !onSegment a b d) &&
          (!onSegment c d a && !onSegment c d b)) = true
      · rw [if_pos hseg]
        simp only [Bool.and_eq_true, Bool.not_eq_true'] at hseg
        rw [hseg.1.1, hseg.1.2, hseg.2.1, hseg.2.2]
        rfl
      · rw [if_neg hseg]
        simp only [Bool.and_eq_true, Bool.not_eq_true', not_and_or,
          Bool.not_eq_false] at hseg
        simp only [ite_self]
        rcases hseg with (h | h) | (h | h) <;> simp [h]
    · rw [if_neg hcol, if_neg (fun h => hcol ⟨h.1, h.2.1⟩)]

/-- C2: for non-degenerate closed segments, the segment–segment primitive
returns `true` iff the segments share at least one point, and it agrees with
the four-orientation algorithm as described by the spec. -/
theorem claim_C2 (n1 n2 : Line) (h1 : n1.a ≠ n1.b) (h2 : n2.a ≠ n2.b) :
    (hasIntersectionLineWithLine n1 n2 = true ↔ segsIntersect n1 n2) ∧
    hasIntersectionLineWithLine n1 n2 = specSegmentSegmentIntersection n1 n2 :=
  ⟨hasIntersectionLineWithLine_iff_segsIntersect h1 h2,
   hasIntersectionLineWithLine_eq_spec h1 h2⟩

/-- Witness for C2 at a concrete pair of crossing segments. -/
theorem claim_C2_witness :
    ((⟨⟨0, 0⟩, ⟨2, 2⟩⟩ : Line).a ≠ (⟨⟨0, 0⟩, ⟨2, 2⟩⟩ : Line).b) ∧
    ((⟨⟨0, 2⟩, ⟨2, 0⟩⟩ : Line).a ≠ (⟨⟨0, 2⟩, ⟨2, 0⟩⟩ : Line).b) ∧
    ((hasIntersectionLineWithLine ⟨⟨0, 0⟩, ⟨2, 2⟩⟩ ⟨⟨0, 2⟩, ⟨2, 0⟩⟩ = true ↔
        segsIntersect ⟨⟨0, 0⟩, ⟨2, 2⟩⟩ ⟨⟨0, 2⟩, ⟨2, 0⟩⟩) ∧
      hasIntersectionLineWithLine ⟨⟨0, 0⟩, ⟨2, 2⟩⟩ ⟨⟨0, 2⟩, ⟨2, 0⟩⟩ =
        specSegmentSegmentIntersection ⟨⟨0, 0⟩, ⟨2, 2⟩⟩ ⟨⟨0, 2⟩, ⟨2, 0⟩⟩) :=
  ⟨by decide, by decide, claim_C2 _ _ (by decide) (by decide)⟩

/-- A LineString, stored as its control points.  (The Go struct additionally
caches the derived `lines` slice, recomputed here by `LineString.lines`.) -/
structure LineString where
  pts : List XY
deriving DecidableEq, Repr

/-- The `lines` slice of a LineString: one segment per adjacent point pair. -/
def LineString.lines (ls : LineString) : List Line :=
  (ls.pts.zip ls.pts.tail).map (fun p => ⟨p.1, p.2⟩)

/-- The validity invariant enforced by the LineString constructor: at least
two points, and no two adjacent points equal. -/
def LineString.valid (ls : LineString) : Prop :=
  2 ≤ ls.pts.length ∧ ∀ ln ∈ ls.lines, ln.a ≠ ln.b

instance (ls : LineString) : Decidable ls.valid := by
  unfold LineString.valid
  infer_instance

/-- A MultiLineString: a list of LineStrings (field `lines` as in the Go
struct). -/
structure MultiLineString where
  lines : List LineString
deriving DecidableEq, Repr

/-- All segments of a MultiLineString, in order. -/
def MultiLineString.allLines (m : MultiLineString) : List Line :=
  (m.lines.map LineString.lines).join

def MultiLineString.valid (m : MultiLineString) : Prop :=
  ∀ ls ∈ m.lines, ls.valid

instance (m : MultiLineString) : Decidable m.valid := by
  unfold MultiLineString.valid
  infer_instance

/-- Canonicalisation applied by the sweep: swap endpoints so that the start
has the smaller (or equal) x coordinate. -/
def canonicalise (ln : Line) : Line :=
  if ln.b.x < ln.a.x then ⟨ln.b, ln.a⟩ else ln

/-- The unprocessed list of one side of the sweep: all segments,
canonicalised, sorted ascending by start x (the Go code sorts with
`sort.Slice`; a deterministic sort is used here). -/
def sweepSegments (m : MultiLineString) : List Line :=
  List.insertionSort (fun l1 l2 => l1.a.x ≤ l2.a.x) (m.allLines.map canonicalise)

/-- The x coordinate processed next: minimum next-unprocessed start x across
the two sides (`math.Inf(+1)` start folded by `math.Min`). -/
def sweepX2 (u0 u1 : List Line) : ℚ :=
  match u0, u1 with
  | l :: _, m :: _ => min l.a.x m.a.x
  | l :: _, [] => l.a.x
  | [], m :: _ => m.a.x
  | [], [] => 0

/-- Popping the active heap: discard segments whose right endpoint is left of
the sweep line.  The heap is modelled as a list kept ordered by end x, so
the repeated peek/pop loop is a `dropWhile`. -/
def popActive (sx : ℚ) (act : List Line) : List Line :=
  act.dropWhile (fun ln => decide (ln.b.x < sx))

/-- The new segments of one side: the unprocessed prefix starting exactly at
the sweep line. -/
def newSegs (sx : ℚ) (u : List Line) : List Line :=
  u.takeWhile (fun ln => decide (ln.a.x = sx))

def restSegs (sx : ℚ) (u : List Line) : List Line :=
  u.dropWhile (fun ln => decide (ln.a.x = sx))

theorem restSegs_measure {u0 u1 : List Line} (hne : ¬(u0 = [] ∧ u1 = [])) :
    (restSegs (sweepX2 u0 u1) u0).length + (restSegs (sweepX2 u0 u1) u1).length <
      u0.length + u1.length := by
  have hkey : ∀ (l : Line) (t : List Line) (sx : ℚ), l.a.x = sx →
      (restSegs sx (l :: t)).length < (l :: t).length := by
    intro l t sx hlx
    have hr : restSegs sx (l :: t) = t.dropWhile (fun ln => decide (ln.a.x = sx)) := by
      simp [restSegs, List.dropWhile_cons, hlx]
    rw [hr]
    simp only [List.length_cons]
    exact Nat.lt_succ_of_le (List.dropWhile_sublist _).length_le
  have hlen : ∀ (sx : ℚ) (u : List Line), (restSegs sx u).length ≤ u.length :=
    fun sx u => (List.dropWhile_sublist _).length_le
  rcases u0 with _ | ⟨l, t⟩ <;> rcases u1 with _ | ⟨m, t2⟩
  · simp_all
  · have := hkey m t2 (sweepX2 [] (m :: t2)) rfl
    have h2 := hlen (sweepX2 [] (m :: t2)) ([] : List Line)
    omega
  · have := hkey l t (sweepX2 (l :: t) []) rfl
    have h2 := hlen (sweepX2 (l :: t) []) ([] : List Line)
    omega
  · rcases le_total l.a.x m.a.x with hc | hc
    · have := hkey l t (sweepX2 (l :: t) (m :: t2)) (by simp [sweepX2, min_eq_left hc])
      have h2 := hlen (sweepX2 (l :: t) (m :: t2)) (m :: t2)
      omega
    · have := hkey m t2 (sweepX2 (l :: t) (m :: t2)) (by simp [sweepX2, min_eq_right hc])
      have h2 := hlen (sweepX2 (l :: t) (m :: t2)) (l :: t)
      omega

/-- Insertion into the active set (the Go binary heap keyed by end x is
modelled as ordered insertion into a sorted list). -/
def insertActive (ln : Line) (act : List Line) : List Line :=
  List.orderedInsert (fun l1 l2 => l1.b.x ≤ l2.b.x) ln act

def addNewToActive (new act : List Line) : List Line :=
  new.foldl (fun acc ln => insertActive ln acc) act

/-- One side's new segments tested against the opposing active set. -/
def sweepStepHit (new other : List Line) : Bool :=
  new.any (fun checkLine => other.any (fun ln => hasIntersectionLineWithLine ln checkLine))

/-- The main sweep loop of
`hasIntersectionMultiLineStringWithMultiLineString`: pop stale actives, move
segments starting at the sweep line into the active sets, and test each new
segment against the opposing active set. -/
def sweepLoop (u0 a0 u1 a1 : List Line) : Bool :=
  if u0 = [] ∧ u1 = [] then
    false
  else
    let sx := sweepX2 u0 u1
    let b0 := addNewToActive (newSegs sx u0) (popActive sx a0)
    let b1 := addNewToActive (newSegs sx u1) (popActive sx a1)
    if sweepStepHit (newSegs sx u0) b1 || sweepStepHit (newSegs sx u1) b0 then
      true
    else
      sweepLoop (restSegs sx u0) b0 (restSegs sx u1) b1
termination_by u0.length + u1.length
decreasing_by
  exact restSegs_measure (by assumption)

/-- The sweep-line MLS/MLS intersection test from `alg_intersects.go`. -/
def hasIntersectionMultiLineStringWithMultiLineString
    (mls1 mls2 : MultiLineString) : Bool :=
  sweepLoop (sweepSegments mls1) [] (sweepSegments mls2) []

theorem mem_of_mem_dropWhile {α : Type} {p : α → Bool} {x : α} {l : List α}
    (h : x ∈ l.dropWhile p) : x ∈ l :=
  (List.dropWhile_sublist p).subset h

theorem mem_of_mem_takeWhile {α : Type} {p : α → Bool} {x : α} {l : List α}
    (h : x ∈ l.takeWhile p) : x ∈ l :=
  (List.takeWhile_sublist p).subset h

theorem mem_dropWhile_of_mem {α : Type} {p : α → Bool} {x : α} {l : List α}
    (hx : x ∈ l) (hp : p x = false) : x ∈ l.dropWhile p := by
  induction l with
  | nil => cases hx
  | cons a t ih =>
    rw [List.dropWhile_cons]
    by_cases ha : p a = true
    · rw [if_pos ha]
      rcases List.mem_cons.mp hx with rfl | ht
      · rw [hp] at ha
        cases ha
      · exact ih ht
    · rw [if_neg ha]
      exact hx

theorem mem_newSegs_start {sx : ℚ} {x : Line} {u : List Line}
    (h : x ∈ newSegs sx u) : x.a.x = sx := by
  have := List.mem_takeWhile_imp h
  simpa using this

theorem mem_split_newSegs {sx : ℚ} {x : Line} {u : List Line} (hx : x ∈ u) :
    x ∈ newSegs sx u ∨ x ∈ restSegs sx u := by
  have := List.takeWhile_append_dropWhile (fun ln => decide (ln.a.x = sx)) u
  rw [← this] at hx
  exact List.mem_append.mp hx

theorem mem_insertActive {x ln : Line} {act : List Line} :
    x ∈ insertActive ln act ↔ x = ln ∨ x ∈ act :=
  List.mem_orderedInsert _

theorem mem_addNewToActive {x : Line} : ∀ {new act : List Line},
    (x ∈ addNewToActive new act ↔ x ∈ new ∨ x ∈ act) := by
  intro new
  induction new with
  | nil =>
    intro act
    simp [addNewToActive]
  | cons n t ih =>
    intro act
    have hstep : addNewToActive (n :: t) act = addNewToActive t (insertActive n act) := rfl
    rw [hstep, ih, mem_insertActive, List.mem_cons]
    tauto

theorem sweepStepHit_eq_true_iff {new other : List Line} :
    sweepStepHit new other = true ↔
      ∃ c ∈ new, ∃ l ∈ other, hasIntersectionLineWithLine l c = true := by
  simp [sweepStepHit, List.any_eq_true]

theorem sweepX2_le_left {u0 u1 : List Line} {x : Line}
    (hs : u0.Sorted (fun l1 l2 => l1.a.x ≤ l2.a.x)) (hx : x ∈ u0) :
    sweepX2 u0 u1 ≤ x.a.x := by
  rcases u0 with _ | ⟨l, t⟩
  · cases hx
  · have hlx : l.a.x ≤ x.a.x := by
      rcases List.mem_cons.mp hx with rfl | ht
      · exact le_refl _
      · exact (List.pairwise_cons.mp hs).1 x ht
    rcases u1 with _ | ⟨m, t2⟩
    · simpa [sweepX2] using hlx
    · simp only [sweepX2]
      exact le_trans (min_le_left _ _) hlx

theorem sweepX2_le_right {u0 u1 : List Line} {y : Line}
    (hs : u1.Sorted (fun l1 l2 => l1.a.x ≤ l2.a.x)) (hy : y ∈ u1) :
    sweepX2 u0 u1 ≤ y.a.x := by
  rcases u1 with _ | ⟨m, t2⟩
  · cases hy
  · have hmy : m.a.x ≤ y.a.x := by
      rcases List.mem_cons.mp hy with rfl | ht
      · exact le_refl _
      · exact (List.pairwise_cons.mp hs).1 y ht
    rcases u0 with _ | ⟨l, t⟩
    · simpa [sweepX2] using hmy
    · simp only [sweepX2]
      exact le_trans (min_le_right _ _) hmy

/-- Correctness of the sweep loop: with sorted canonical unprocessed lists
and active sets whose cross pairs have all been tested negative, the loop
returns `true` exactly when some remaining cross pair intersects. -/
theorem sweepLoop_iff : ∀ (n : ℕ) (u0 a0 u1 a1 : List Line),
    u0.length + u1.length ≤ n →
    (∀ ln ∈ u0, ln.a ≠ ln.b) → (∀ ln ∈ a0, ln.a ≠ ln.b) →
    (∀ ln ∈ u1, ln.a ≠ ln.b) → (∀ ln ∈ a1, ln.a ≠ ln.b) →
    (∀ ln ∈ u0, ln.a.x ≤ ln.b.x) → (∀ ln ∈ a0, ln.a.x ≤ ln.b.x) →
    (∀ ln ∈ u1, ln.a.x ≤ ln.b.x) → (∀ ln ∈ a1, ln.a.x ≤ ln.b.x) →
    u0.Sorted (fun l1 l2 => l1.a.x ≤ l2.a.x) →
    u1.Sorted (fun l1 l2 => l1.a.x ≤ l2.a.x) →
    (∀ x ∈ a0, ∀ y ∈ a1, hasIntersectionLineWithLine x y = false) →
    (sweepLoop u0 a0 u1 a1 = true ↔
      ∃ x ∈ u0 ++ a0, ∃ y ∈ u1 ++ a1, hasIntersectionLineWithLine x y = true) := by
  intro n
  induction n with
  | zero =>
    intro u0 a0 u1 a1 hlen hnd0 hnd0a hnd1 hnd1a hc0 hc0a hc1 hc1a hs0 hs1 hact
    have h0 : u0 = [] := List.length_eq_zero.mp (by omega)
    have h1 : u1 = [] := List.length_eq_zero.mp (by omega)
    subst h0
    subst h1
    rw [sweepLoop, if_pos ⟨rfl, rfl⟩]
    constructor
    · intro h
      cases h
    · rintro ⟨x, hx, y, hy, hf⟩
      rw [List.nil_append] at hx hy
      rw [hact x hx y hy] at hf
      cases hf
  | succ n ih =>
    intro u0 a0 u1 a1 hlen hnd0 hnd0a hnd1 hnd1a hc0 hc0a hc1 hc1a hs0 hs1 hact
    by_cases hemp : u0 = [] ∧ u1 = []
    · obtain ⟨h0, h1⟩ := hemp
      subst h0
      subst h1
      rw [sweepLoop, if_pos ⟨rfl, rfl⟩]
      constructor
      · intro h
        cases h
      · rintro ⟨x, hx, y, hy, hf⟩
        rw [List.nil_append] at hx hy
        rw [hact x hx y hy] at hf
        cases hf
    · rw [sweepLoop, if_neg hemp]
      dsimp only
      have hmem_b0 : ∀ p : Line,
          p ∈ addNewToActive (newSegs (sweepX2 u0 u1) u0) (popActive (sweepX2 u0 u1) a0) →
          p ∈ u0 ∨ p ∈ a0 := by
        intro p hp
        rcases mem_addNewToActive.mp hp with h | h
        · exact Or.inl (mem_of_mem_takeWhile h)
        · exact Or.inr (mem_of_mem_dropWhile h)
      have hmem_b1 : ∀ p : Line,
          p ∈ addNewToActive (newSegs (sweepX2 u0 u1) u1) (popActive (sweepX2 u0 u1) a1) →
          p ∈ u1 ∨ p ∈ a1 := by
        intro p hp
        rcases mem_addNewToActive.mp hp with h | h
        · exact Or.inl (mem_of_mem_takeWhile h)
        · exact Or.inr (mem_of_mem_dropWhile h)
      have hsymm : ∀ {x y : Line}, (x ∈ u0 ∨ x ∈ a0) → (y ∈ u1 ∨ y ∈ a1) →
          hasIntersectionLineWithLine x y = hasIntersectionLineWithLine y x :=
        fun {x y} hx hy =>
          hasIntersectionLineWithLine_symm (hx.elim (hnd0 x) (hnd0a x))
            (hy.elim (hnd1 y) (hnd1a y))
      have hxover : ∀ {x y : Line}, (x ∈ u0 ∨ x ∈ a0) → (y ∈ u1 ∨ y ∈ a1) →
          hasIntersectionLineWithLine x y = true → (y.a.x ≤ x.b.x ∧ x.a.x ≤ y.b.x) := by
        intro x y hx hy hf
        exact segsIntersect_xoverlap (hx.elim (hc0 x) (hc0a x)) (hy.elim (hc1 y) (hc1a y))
          ((hasIntersectionLineWithLine_iff_segsIntersect
            (hx.elim (hnd0 x) (hnd0a x)) (hy.elim (hnd1 y) (hnd1a y))).mp hf)
      by_cases hhit : (sweepStepHit (newSegs (sweepX2 u0 u1) u0)
            (addNewToActive (newSegs (sweepX2 u0 u1) u1) (popActive (sweepX2 u0 u1) a1)) ||
          sweepStepHit (newSegs (sweepX2 u0 u1) u1)
            (addNewToActive (newSegs (sweepX2 u0 u1) u0) (popActive (sweepX2 u0 u1) a0))) = true
      · rw [if_pos hhit]
        constructor
        · intro _
          have hcases := hhit
          rw [Bool.or_eq_true] at hcases
          rcases hcases with h | h
          · obtain ⟨c, hc, l, hl, hf⟩ := sweepStepHit_eq_true_iff.mp h
            have hcu : c ∈ u0 := mem_of_mem_takeWhile hc
            have hlu := hmem_b1 l hl
            refine ⟨c, List.mem_append.mpr (Or.inl hcu), l, List.mem_append.mpr hlu, ?_⟩
            rw [hsymm (Or.inl hcu) hlu]
            exact hf
          · obtain ⟨c, hc, l, hl, hf⟩ := sweepStepHit_eq_true_iff.mp h
            have hcu : c ∈ u1 := mem_of_mem_takeWhile hc
            have hlu := hmem_b0 l hl
            exact ⟨l, List.mem_append.mpr hlu, c, List.mem_append.mpr (Or.inl hcu), hf⟩
        · intro _
          rfl
      · rw [if_neg hhit]
        have hor : (sweepStepHit (newSegs (sweepX2 u0 u1) u0)
              (addNewToActive (newSegs (sweepX2 u0 u1) u1) (popActive (sweepX2 u0 u1) a1)) ||
            sweepStepHit (newSegs (sweepX2 u0 u1) u1)
              (addNewToActive (newSegs (sweepX2 u0 u1) u0) (popActive (sweepX2 u0 u1) a0))) =
            false := Bool.eq_false_iff.mpr hhit
        rcases Bool.or_eq_false_iff.mp hor with ⟨hA, hB⟩
        have hh1 : ∀ c ∈ newSegs (sweepX2 u0 u1) u0,
            ∀ l ∈ addNewToActive (newSegs (sweepX2 u0 u1) u1) (popActive (sweepX2 u0 u1) a1),
            hasIntersectionLineWithLine l c = false := by
          intro c hc l hl
          rcases Bool.eq_false_or_eq_true (hasIntersectionLineWithLine l c) with h | h
          · exact absurd (sweepStepHit_eq_true_iff.mpr ⟨c, hc, l, hl, h⟩)
              (by rw [hA]; simp)
          · exact h
        have hh2 : ∀ c ∈ newSegs (sweepX2 u0 u1) u1,
            ∀ l ∈ addNewToActive (newSegs (sweepX2 u0 u1) u0) (popActive (sweepX2 u0 u1) a0),
            hasIntersectionLineWithLine l c = false := by
          intro c hc l hl
          rcases Bool.eq_false_or_eq_true (hasIntersectionLineWithLine l c) with h | h
          · exact absurd (sweepStepHit_eq_true_iff.mpr ⟨c, hc, l, hl, h⟩)
              (by rw [hB]; simp)
          · exact h
        have hact2 : ∀ p ∈ addNewToActive (newSegs (sweepX2 u0 u1) u0)
              (popActive (sweepX2 u0 u1) a0),
            ∀ q ∈ addNewToActive (newSegs (sweepX2 u0 u1) u1)
              (popActive (sweepX2 u0 u1) a1),
            hasIntersectionLineWithLine p q = false := by
          intro p hp q hq
          rcases mem_addNewToActive.mp hp with hpn | hpo
          · rw [hsymm (Or.inl (mem_of_mem_takeWhile hpn)) (hmem_b1 q hq)]
            exact hh1 p hpn q hq
          · rcases mem_addNewToActive.mp hq with hqn | hqo
            · exact hh2 q hqn p hp
            · exact hact p (mem_of_mem_dropWhile hpo) q (mem_of_mem_dropWhile hqo)
        have hlen2 : (restSegs (sweepX2 u0 u1) u0).length +
            (restSegs (sweepX2 u0 u1) u1).length ≤ n := by
          have := restSegs_measure hemp
          omega
        rw [ih (restSegs (sweepX2 u0 u1) u0)
            (addNewToActive (newSegs (sweepX2 u0 u1) u0) (popActive (sweepX2 u0 u1) a0))
            (restSegs (sweepX2 u0 u1) u1)
            (addNewToActive (newSegs (sweepX2 u0 u1) u1) (popActive (sweepX2 u0 u1) a1))
            hlen2
            (fun ln h => hnd0 ln (mem_of_mem_dropWhile h))
            (fun ln h => (hmem_b0 ln h).elim (hnd0 ln) (hnd0a ln))
            (fun ln h => hnd1 ln (mem_of_mem_dropWhile h))
            (fun ln h => (hmem_b1 ln h).elim (hnd1 ln) (hnd1a ln))
            (fun ln h => hc0 ln (mem_of_mem_dropWhile h))
            (fun ln h => (hmem_b0 ln h).elim (hc0 ln) (hc0a ln))
            (fun ln h => hc1 ln (mem_of_mem_dropWhile h))
            (fun ln h => (hmem_b1 ln h).elim (hc1 ln) (hc1a ln))
            (hs0.sublist (List.dropWhile_sublist _))
            (hs1.sublist (List.dropWhile_sublist _))
            hact2]
        constructor
        · rintro ⟨x, hx, y, hy, hf⟩
          refine ⟨x, ?_, y, ?_, hf⟩
          · rcases List.mem_append.mp hx with h | h
            · exact List.mem_append.mpr (Or.inl (mem_of_mem_dropWhile h))
            · exact List.mem_append.mpr (hmem_b0 x h)
          · rcases List.mem_append.mp hy with h | h
            · exact List.mem_append.mpr (Or.inl (mem_of_mem_dropWhile h))
            · exact List.mem_append.mpr (hmem_b1 y h)
        · rintro ⟨x, hx, y, hy, hf⟩
          have hx2 := List.mem_append.mp hx
          have hy2 := List.mem_append.mp hy
          have hov := hxover hx2 hy2 hf
          have hy_surv : y ∈ a1 → sweepX2 u0 u1 ≤ y.b.x →
              y ∈ addNewToActive (newSegs (sweepX2 u0 u1) u1)
                (popActive (sweepX2 u0 u1) a1) := by
            intro hya hle
            refine mem_addNewToActive.mpr (Or.inr (mem_dropWhile_of_mem hya ?_))
            rw [decide_eq_false_iff_not]
            exact not_lt.mpr hle
          have hx_surv : x ∈ a0 → sweepX2 u0 u1 ≤ x.b.x →
              x ∈ addNewToActive (newSegs (sweepX2 u0 u1) u0)
                (popActive (sweepX2 u0 u1) a0) := by
            intro hxa hle
            refine mem_addNewToActive.mpr (Or.inr (mem_dropWhile_of_mem hxa ?_))
            rw [decide_eq_false_iff_not]
            exact not_lt.mpr hle
          rcases hx2 with hxu | hxa
          · rcases @mem_split_newSegs (sweepX2 u0 u1) _ _ hxu with hxn | hxr
            · rcases hy2 with hyu | hya
              · rcases @mem_split_newSegs (sweepX2 u0 u1) _ _ hyu with hyn | hyr
                · exfalso
                  have hxb : x ∈ addNewToActive (newSegs (sweepX2 u0 u1) u0)
                      (popActive (sweepX2 u0 u1) a0) :=
                    mem_addNewToActive.mpr (Or.inl hxn)
                  rw [hh2 y hyn x hxb] at hf
                  cases hf
                · exact ⟨x, List.mem_append.mpr
                    (Or.inr (mem_addNewToActive.mpr (Or.inl hxn))),
                    y, List.mem_append.mpr (Or.inl hyr), hf⟩
              · exfalso
                have hxs : x.a.x = sweepX2 u0 u1 := mem_newSegs_start hxn
                have hyb := hy_surv hya (by rw [← hxs]; exact hov.2)
                have hfy := hh1 x hxn y hyb
                rw [hsymm (Or.inl hxu) (Or.inr hya), hfy] at hf
                cases hf
            · rcases hy2 with hyu | hya
              · rcases @mem_split_newSegs (sweepX2 u0 u1) _ _ hyu with hyn | hyr
                · exact ⟨x, List.mem_append.mpr (Or.inl hxr),
                    y, List.mem_append.mpr
                      (Or.inr (mem_addNewToActive.mpr (Or.inl hyn))), hf⟩
                · exact ⟨x, List.mem_append.mpr (Or.inl hxr),
                    y, List.mem_append.mpr (Or.inl hyr), hf⟩
              · have h1 : sweepX2 u0 u1 ≤ x.a.x := sweepX2_le_left hs0 hxu
                have hyb := hy_surv hya (le_trans h1 hov.2)
                exact ⟨x, List.mem_append.mpr (Or.inl hxr),
                  y, List.mem_append.mpr (Or.inr hyb), hf⟩
          · rcases hy2 with hyu | hya
            · rcases @mem_split_newSegs (sweepX2 u0 u1) _ _ hyu with hyn | hyr
              · exfalso
                have hys : y.a.x = sweepX2 u0 u1 := mem_newSegs_start hyn
                have hxb := hx_surv hxa (by rw [← hys]; exact hov.1)
                rw [hh2 y hyn x hxb] at hf
                cases hf
              · have h1 : sweepX2 u0 u1 ≤ y.a.x := sweepX2_le_right hs1 hyu
                have hxb := hx_surv hxa (le_trans h1 hov.1)
                exact ⟨x, List.mem_append.mpr (Or.inr hxb),
                  y, List.mem_append.mpr (Or.inl hyr), hf⟩
            · exfalso
              rw [hact x hxa y hya] at hf
              cases hf

theorem bool_eq_of_iff {a b : Bool} (h : a = true ↔ b = true) : a = b := by
  cases a <;> cases b <;> simp_all

instance lineStartLeTotal : IsTotal Line (fun l1 l2 => l1.a.x ≤ l2.a.x) :=
  ⟨fun a b => le_total a.a.x b.a.x⟩

instance lineStartLeTrans : IsTrans Line (fun l1 l2 => l1.a.x ≤ l2.a.x) :=
  ⟨fun _ _ _ h1 h2 => le_trans h1 h2⟩

theorem canonicalise_canonical (ln : Line) :
    (canonicalise ln).a.x ≤ (canonicalise ln).b.x := by
  unfold canonicalise
  by_cases h : ln.b.x < ln.a.x
  · rw [if_pos h]
    exact le_of_lt h
  · rw [if_neg h]
    exact le_of_not_lt h

theorem canonicalise_nd {ln : Line} (h : ln.a ≠ ln.b) :
    (canonicalise ln).a ≠ (canonicalise ln).b := by
  unfold canonicalise
  by_cases hc : ln.b.x < ln.a.x
  · rw [if_pos hc]
    exact h.symm
  · rw [if_neg hc]
    exact h

theorem hasIntersectionLineWithLine_canonicalise {n1 n2 : Line}
    (h1 : n1.a ≠ n1.b) (h2 : n2.a ≠ n2.b) :
    hasIntersectionLineWithLine (canonicalise n1) (canonicalise n2) =
      hasIntersectionLineWithLine n1 n2 := by
  have swap_right : ∀ {m1 m2 : Line}, m1.a ≠ m1.b → m2.a ≠ m2.b →
      hasIntersectionLineWithLine m1 ⟨m2.b, m2.a⟩ = hasIntersectionLineWithLine m1 m2 := by
    intro m1 m2 hm1 hm2
    rw [hasIntersectionLineWithLine_symm hm1 (show (⟨m2.b, m2.a⟩ : Line).a ≠ _ from hm2.symm),
      hasIntersectionLineWithLine_swap_left hm2 hm1,
      hasIntersectionLineWithLine_symm hm2 hm1]
  unfold canonicalise
  by_cases hc1 : n1.b.x < n1.a.x <;> by_cases hc2 : n2.b.x < n2.a.x
  · rw [if_pos hc1, if_pos hc2]
    rw [show (⟨n1.b, n1.a⟩ : Line) = ⟨n1.b, n1.a⟩ from rfl]
    rw [swap_right (show (⟨n1.b, n1.a⟩ : Line).a ≠ _ from h1.symm) h2]
    exact hasIntersectionLineWithLine_swap_left h1 h2
  · rw [if_pos hc1, if_neg hc2]
    exact hasIntersectionLineWithLine_swap_left h1 h2
  · rw [if_neg hc1, if_pos hc2]
    exact swap_right h1 h2
  · rw [if_neg hc1, if_neg hc2]

theorem mem_allLines_nd {m : MultiLineString} (hv : m.valid) :
    ∀ ln ∈ m.allLines, ln.a ≠ ln.b := by
  intro ln hln
  unfold MultiLineString.allLines at hln
  rw [List.mem_join] at hln
  obtain ⟨l, hl, hmem⟩ := hln
  rw [List.mem_map] at hl
  obtain ⟨ls, hls, rfl⟩ := hl
  exact ((hv ls hls).2) ln hmem

theorem mem_sweepSegments {m : MultiLineString} {x : Line} :
    x ∈ sweepSegments m ↔ x ∈ m.allLines.map canonicalise := by
  unfold sweepSegments
  exact (List.perm_insertionSort _ _).mem_iff

/-- The sweep-line MultiLineString intersection test computes the naive
all-pairs disjunction of the segment–segment primitive. -/
theorem sweep_eq_naive (mls1 mls2 : MultiLineString)
    (h1 : mls1.valid) (h2 : mls2.valid) :
    hasIntersectionMultiLineStringWithMultiLineString mls1 mls2 =
      (mls1.allLines.any fun l1 => mls2.allLines.any fun l2 =>
        hasIntersectionLineWithLine l1 l2) := by
  have hnd1 := mem_allLines_nd h1
  have hnd2 := mem_allLines_nd h2
  have hcnd1 : ∀ ln ∈ sweepSegments mls1, ln.a ≠ ln.b := by
    intro ln hln
    rw [mem_sweepSegments, List.mem_map] at hln
    obtain ⟨l, hl, rfl⟩ := hln
    exact canonicalise_nd (hnd1 l hl)
  have hcnd2 : ∀ ln ∈ sweepSegments mls2, ln.a ≠ ln.b := by
    intro ln hln
    rw [mem_sweepSegments, List.mem_map] at hln
    obtain ⟨l, hl, rfl⟩ := hln
    exact canonicalise_nd (hnd2 l hl)
  have hcc1 : ∀ ln ∈ sweepSegments mls1, ln.a.x ≤ ln.b.x := by
    intro ln hln
    rw [mem_sweepSegments, List.mem_map] at hln
    obtain ⟨l, _, rfl⟩ := hln
    exact canonicalise_canonical l
  have hcc2 : ∀ ln ∈ sweepSegments mls2, ln.a.x ≤ ln.b.x := by
    intro ln hln
    rw [mem_sweepSegments, List.mem_map] at hln
    obtain ⟨l, _, rfl⟩ := hln
    exact canonicalise_canonical l
  have hvac : ∀ ln ∈ ([] : List Line), ln.a ≠ ln.b := by
    intro ln hln
    cases hln
  have hvacc : ∀ ln ∈ ([] : List Line), ln.a.x ≤ ln.b.x := by
    intro ln hln
    cases hln
  have hiff := sweepLoop_iff ((sweepSegments mls1).length + (sweepSegments mls2).length)
    (sweepSegments mls1) [] (sweepSegments mls2) [] (le_refl _)
    hcnd1 hvac hcnd2 hvac hcc1 hvacc hcc2 hvacc
    (List.sorted_insertionSort _ _) (List.sorted_insertionSort _ _)
    (fun x hx => absurd hx (List.not_mem_nil x))
  apply bool_eq_of_iff
  unfold hasIntersectionMultiLineStringWithMultiLineString
  rw [hiff]
  simp only [List.append_nil, List.any_eq_true]
  constructor
  · rintro ⟨x, hx, y, hy, hf⟩
    rw [mem_sweepSegments, List.mem_map] at hx hy
    obtain ⟨l1, hl1, rfl⟩ := hx
    obtain ⟨l2, hl2, rfl⟩ := hy
    rw [hasIntersectionLineWithLine_canonicalise (hnd1 l1 hl1) (hnd2 l2 hl2)] at hf
    exact ⟨l1, hl1, l2, hl2, hf⟩
  · rintro ⟨l1, hl1, l2, hl2, hf⟩
    refine ⟨canonicalise l1, ?_, canonicalise l2, ?_, ?_⟩
    · rw [mem_sweepSegments, List.mem_map]
      exact ⟨l1, hl1, rfl⟩
    · rw [mem_sweepSegments, List.mem_map]
      exact ⟨l2, hl2, rfl⟩
    · rw [hasIntersectionLineWithLine_canonicalise (hnd1 l1 hl1) (hnd2 l2 hl2)]
      exact hf

/-- C3: the sweep-line MultiLineString intersection test is equivalent to the
naive all-pairs application of the segment–segment primitive. -/
theorem claim_C3 (mls1 mls2 : MultiLineString)
    (h1 : mls1.valid) (h2 : mls2.valid) :
    hasIntersectionMultiLineStringWithMultiLineString mls1 mls2 =
      (mls1.allLines.any fun l1 => mls2.allLines.any fun l2 =>
        hasIntersectionLineWithLine l1 l2) :=
  sweep_eq_naive mls1 mls2 h1 h2

/-- Witness for C3 at two concrete crossing MultiLineStrings. -/
theorem claim_C3_witness :
    (MultiLineString.mk [LineString.mk [⟨0, 0⟩, ⟨2, 2⟩]]).valid ∧
    (MultiLineString.mk [LineString.mk [⟨0, 2⟩, ⟨2, 0⟩]]).valid ∧
    hasIntersectionMultiLineStringWithMultiLineString
        (MultiLineString.mk [LineString.mk [⟨0, 0⟩, ⟨2, 2⟩]])
        (MultiLineString.mk [LineString.mk [⟨0, 2⟩, ⟨2, 0⟩]]) =
      ((MultiLineString.mk [LineString.mk [⟨0, 0⟩, ⟨2, 2⟩]]).allLines.any fun l1 =>
        (MultiLineString.mk [LineString.mk [⟨0, 2⟩, ⟨2, 0⟩]]).allLines.any fun l2 =>
          hasIntersectionLineWithLine l1 l2) :=
  ⟨by decide, by decide, claim_C3 _ _ (by decide) (by decide)⟩

/-- A Point (this version of the library has no empty Point value). -/
structure Point where
  coords : XY
deriving DecidableEq, Repr

/-- A MultiPoint: zero or more Points (field `pts` as in the Go struct). -/
structure MultiPoint where
  pts : List Point
deriving DecidableEq, Repr

/-- A Polygon: an exterior ring and zero or more interior rings. -/
structure Polygon where
  exterior : LineString
  interiors : List LineString
deriving DecidableEq, Repr

/-- A MultiPolygon: zero or more Polygons. -/
structure MultiPolygon where
  polys : List Polygon
deriving DecidableEq, Repr

/-- The geometry sum type: the seven concrete variants plus
GeometryCollection. -/
inductive Geometry where
  | point : Point → Geometry
  | line : Line → Geometry
  | lineString : LineString → Geometry
  | polygon : Polygon → Geometry
  | multiPoint : MultiPoint → Geometry
  | multiLineString : MultiLineString → Geometry
  | multiPolygon : MultiPolygon → Geometry
  | geometryCollection : List Geometry → Geometry

/-- `IsEmpty` per variant.  Point, Line, LineString and Polygon values are
never empty in this version of the library; the multi variants are empty
when they have no elements.  Modelled from the spec for
GeometryCollection (empty geometries are first-class at every variant): a
collection is empty when all of its children are. -/
def Geometry.IsEmpty : Geometry → Bool
  | .point _ => false
  | .line _ => false
  | .lineString _ => false
  | .polygon _ => false
  | .multiPoint mp => mp.pts.isEmpty
  | .multiLineString m => m.lines.isEmpty
  | .multiPolygon m => m.polys.isEmpty
  | .geometryCollection [] => true
  | .geometryCollection (g :: gs) =>
    g.IsEmpty && (Geometry.geometryCollection gs).IsEmpty

/-- Modelled from the spec: the fixed dispatch rank
(Point < Line < LineString < Polygon < MultiPoint < MultiLineString <
MultiPolygon < GeometryCollection). -/
def rank : Geometry → Nat
  | .point _ => 1
  | .line _ => 2
  | .lineString _ => 3
  | .polygon _ => 4
  | .multiPoint _ => 5
  | .multiLineString _ => 6
  | .multiPolygon _ => 7
  | .geometryCollection _ => 8

/-- Termination measure for the recursive dispatch. -/
def Geometry.msize : Geometry → Nat
  | .point _ => 1
  | .line _ => 1
  | .lineString _ => 1
  | .polygon _ => 3
  | .multiPoint _ => 1
  | .multiLineString _ => 1
  | .multiPolygon m => 3 * m.polys.length + 2
  | .geometryCollection [] => 1
  | .geometryCollection (g :: gs) =>
    g.msize + (Geometry.geometryCollection gs).msize

/-- Validity of a Polygon as far as the claims need it: every ring is a
valid LineString. -/
def Polygon.validB (p : Polygon) : Bool :=
  decide p.exterior.valid && p.interiors.all (fun r => decide r.valid)

/-- Validity invariants enforced by the constructors, per variant. -/
def Geometry.validB : Geometry → Bool
  | .point _ => true
  | .line l => decide (l.a ≠ l.b)
  | .lineString ls => decide ls.valid
  | .polygon p => p.validB
  | .multiPoint _ => true
  | .multiLineString m => decide m.valid
  | .multiPolygon m => m.polys.all Polygon.validB
  | .geometryCollection [] => true
  | .geometryCollection (g :: gs) =>
    g.validB && (Geometry.geometryCollection gs).validB

/-- `Line.AsLineString` from the source. -/
def Line.AsLineString (ln : Line) : LineString := ⟨[ln.a, ln.b]⟩

/-- `LineString.AsMultiLineString` from the source. -/
def LineString.AsMultiLineString (ls : LineString) : MultiLineString := ⟨[ls]⟩

/-- `Polygon.AsMultiPolygon` from the source. -/
def Polygon.AsMultiPolygon (p : Polygon) : MultiPolygon := ⟨[p]⟩

/-- The rings of a polygon: exterior first, then the interior rings. -/
def Polygon.rings (p : Polygon) : List LineString := p.exterior :: p.interiors

/-- Modelled from the spec: `Polygon.Boundary` returns the exterior ring as
a LineString when there are no holes, otherwise all rings as a
MultiLineString. -/
def Polygon.BoundaryG (p : Polygon) : Geometry :=
  match p.interiors with
  | [] => .lineString p.exterior
  | _ => .multiLineString ⟨p.rings⟩

/-- Modelled from the spec: `MultiPolygon.Boundary` collects every ring of
every polygon into a MultiLineString. -/
def MultiPolygon.BoundaryG (mp : MultiPolygon) : Geometry :=
  .multiLineString ⟨(mp.polys.map Polygon.rings).join⟩

/-- `Point.EqualsExact`, modelled from the spec: bitwise equality of the
two coordinates. -/
def Point.EqualsExact (p q : Point) : Bool := decide (p.coords = q.coords)

/-- An axis-aligned bounding box (`Envelope`). -/
structure Envelope where
  emin : XY
  emax : XY
deriving DecidableEq, Repr

/-- Modelled from the spec: the envelope of a line segment. -/
def mustEnvelope (ln : Line) : Envelope :=
  ⟨⟨min ln.a.x ln.b.x, min ln.a.y ln.b.y⟩, ⟨max ln.a.x ln.b.x, max ln.a.y ln.b.y⟩⟩

/-- Modelled from the spec: envelope membership. -/
def Envelope.Contains (e : Envelope) (p : XY) : Bool :=
  decide (e.emin.x ≤ p.x ∧ p.x ≤ e.emax.x ∧ e.emin.y ≤ p.y ∧ p.y ≤ e.emax.y)

/-- `hasIntersectionPointWithLine`: bounding box check, then an exact
point-on-line test by comparing the two cross-product halves. -/
def hasIntersectionPointWithLine (point : Point) (line : Line) : Bool :=
  if !(mustEnvelope line).Contains point.coords then
    false
  else
    let lhs := (point.coords.x - line.a.x) * (line.b.y - line.a.y)
    let rhs := (point.coords.y - line.a.y) * (line.b.x - line.a.x)
    if lhs = rhs then true else false

def hasIntersectionPointWithLineString (pt : Point) (ls : LineString) : Bool :=
  ls.lines.any (fun ln => hasIntersectionPointWithLine pt ln)

/-- The ring-side classification of a point. -/
inductive ringSide where
  | interior
  | boundary
  | exterior
deriving DecidableEq, Repr

/-- Modelled from the spec: point-in-ring by ray casting with a horizontal
ray; a vertex crossing counts only for edges whose other endpoint is
strictly above the ray, and the result is `boundary` when the point lies on
any edge. -/
def pointRingSide (pt : XY) (ring : LineString) : ringSide :=
  if ring.lines.any (fun ln => hasIntersectionPointWithLine ⟨pt⟩ ln) then
    ringSide.boundary
  else
    let crossings := ring.lines.countP (fun ln =>
      decide (((pt.y < ln.a.y) ≠ (pt.y < ln.b.y)) ∧
        (pt.x - ln.a.x) * (ln.b.y - ln.a.y) < (pt.y - ln.a.y) * (ln.b.x - ln.a.x) ↔
          ln.a.y < ln.b.y))
    if crossings % 2 = 1 then ringSide.interior else ringSide.exterior

def hasIntersectionPointWithPolygon (pt : Point) (p : Polygon) : Bool :=
  if pointRingSide pt.coords p.exterior = ringSide.exterior then
    false
  else if p.interiors.any (fun ring => pointRingSide pt.coords ring = ringSide.interior) then
    false
  else
    true

def hasIntersectionPointWithPoint (pt1 pt2 : Point) : Bool :=
  if pt1.EqualsExact pt2 then true else false

def hasIntersectionPointWithMultiPoint (point : Point) (mp : MultiPoint) : Bool :=
  mp.pts.any (fun pt => pt.EqualsExact point)

def hasIntersectionPointWithMultiLineString (point : Point) (mls : MultiLineString) : Bool :=
  mls.lines.any (fun ls => hasIntersectionPointWithLineString point ls)

def hasIntersectionPointWithMultiPolygon (pt : Point) (mp : MultiPolygon) : Bool :=
  mp.polys.any (fun p => hasIntersectionPointWithPolygon pt p)

def hasIntersectionLineWithMultiPoint (ln : Line) (mp : MultiPoint) : Bool :=
  mp.pts.any (fun pt => hasIntersectionPointWithLine pt ln)

def hasIntersectionMultiPointWithMultiLineString (mp : MultiPoint) (mls : MultiLineString) : Bool :=
  mp.pts.any (fun pt => mls.lines.any (fun ls =>
    ls.lines.any (fun ln => hasIntersectionPointWithLine pt ln)))

def hasIntersectionMultiPointWithMultiPoint (mp1 mp2 : MultiPoint) : Bool :=
  mp1.pts.any (fun pt => hasIntersectionPointWithMultiPoint pt mp2)

def hasIntersectionMultiPointWithPolygon (mp : MultiPoint) (p : Polygon) : Bool :=
  mp.pts.any (fun pt => hasIntersectionPointWithPolygon pt p)

def hasIntersectionMultiPointWithMultiPolygon (pts : MultiPoint) (polys : MultiPolygon) : Bool :=
  pts.pts.any (fun pt => hasIntersectionPointWithMultiPolygon pt polys)

theorem msize_gc_ge_one (gs : List Geometry) :
    1 ≤ (Geometry.geometryCollection gs).msize := by
  induction gs with
  | nil => simp [Geometry.msize]
  | cons a t ih =>
    simp only [Geometry.msize]
    omega

theorem msize_pos (g : Geometry) : 1 ≤ g.msize := by
  cases g with
  | geometryCollection gs => exact msize_gc_ge_one gs
  | point p => simp [Geometry.msize]
  | line l => simp [Geometry.msize]
  | lineString l => simp [Geometry.msize]
  | polygon p => simp [Geometry.msize]
  | multiPoint m => simp [Geometry.msize]
  | multiLineString m => simp [Geometry.msize]
  | multiPolygon m => simp [Geometry.msize]

theorem msize_lt_of_mem {g : Geometry} {gs : List Geometry} (h : g ∈ gs) :
    g.msize < (Geometry.geometryCollection gs).msize := by
  induction gs with
  | nil => cases h
  | cons a t ih =>
    rcases List.mem_cons.mp h with rfl | ht
    · have h1 := msize_gc_ge_one t
      simp only [Geometry.msize]
      omega
    · have h1 := ih ht
      have h2 := msize_pos a
      simp only [Geometry.msize]
      omega

theorem msize_polygon_BoundaryG (p : Polygon) : (Polygon.BoundaryG p).msize = 1 := by
  unfold Polygon.BoundaryG
  cases p.interiors <;> simp [Geometry.msize]

mutual

/-- `hasIntersection` from `alg_intersects.go`: short-circuit on either
operand empty, normalise the operand order by rank, then dispatch. -/
def hasIntersection (g1 g2 : Geometry) : Bool :=
  if g2.IsEmpty then false
  else if g1.IsEmpty then false
  else if rank g2 < rank g1 then hasIntersectionOrdered g2 g1
  else hasIntersectionOrdered g1 g2
termination_by (g1.msize + g2.msize, 5)
decreasing_by
  all_goals rw [Prod.lex_def]
  all_goals omega

/-- The dispatch of `hasIntersection` after rank normalisation: a
GeometryCollection second operand recurses over its children (OR);
otherwise the variant-pair handler from the source switch runs.  Pairs the
source switch does not cover (on which it panics as a programming error)
yield `false`. -/
def hasIntersectionOrdered (g1 g2 : Geometry) : Bool :=
  match g1, g2 with
  | gg1, .geometryCollection gs => gs.attach.any (fun g => hasIntersection gg1 g.1)
  | .point p1, .point p2 => hasIntersectionPointWithPoint p1 p2
  | .point p1, .line l2 => hasIntersectionPointWithLine p1 l2
  | .point p1, .lineString ls2 => hasIntersectionPointWithLineString p1 ls2
  | .point p1, .polygon pol2 => hasIntersectionPointWithPolygon p1 pol2
  | .point p1, .multiPoint mp2 => hasIntersectionPointWithMultiPoint p1 mp2
  | .point p1, .multiLineString mls2 => hasIntersectionPointWithMultiLineString p1 mls2
  | .point p1, .multiPolygon mp2 => hasIntersectionPointWithMultiPolygon p1 mp2
  | .line l1, .line l2 => hasIntersectionLineWithLine l1 l2
  | .line l1, .lineString ls2 =>
    hasIntersectionMultiLineStringWithMultiLineString
      l1.AsLineString.AsMultiLineString ls2.AsMultiLineString
  | .line l1, .polygon pol2 =>
    hasIntersectionMultiLineStringWithMultiPolygon
      l1.AsLineString.AsMultiLineString pol2.AsMultiPolygon
  | .line l1, .multiPoint mp2 => hasIntersectionLineWithMultiPoint l1 mp2
  | .line l1, .multiLineString mls2 =>
    hasIntersectionMultiLineStringWithMultiLineString
      l1.AsLineString.AsMultiLineString mls2
  | .line l1, .multiPolygon mp2 =>
    hasIntersectionMultiLineStringWithMultiPolygon
      l1.AsLineString.AsMultiLineString mp2
  | .lineString ls1, .lineString ls2 =>
    hasIntersectionMultiLineStringWithMultiLineString
      ls1.AsMultiLineString ls2.AsMultiLineString
  | .lineString ls1, .polygon pol2 =>
    hasIntersectionMultiLineStringWithMultiPolygon
      ls1.AsMultiLineString pol2.AsMultiPolygon
  | .lineString ls1, .multiPoint mp2 =>
    hasIntersectionMultiPointWithMultiLineString mp2 ls1.AsMultiLineString
  | .lineString ls1, .multiLineString mls2 =>
    hasIntersectionMultiLineStringWithMultiLineString ls1.AsMultiLineString mls2
  | .lineString ls1, .multiPolygon mp2 =>
    hasIntersectionMultiLineStringWithMultiPolygon ls1.AsMultiLineString mp2
  | .polygon p1, .polygon p2 => hasIntersectionPolygonWithPolygon p1 p2
  | .polygon p1, .multiPoint mp2 => hasIntersectionMultiPointWithPolygon mp2 p1
  | .polygon p1, .multiLineString mls2 =>
    hasIntersectionMultiLineStringWithMultiPolygon mls2 p1.AsMultiPolygon
  | .polygon p1, .multiPolygon mp2 =>
    hasIntersectionMultiPolygonWithMultiPolygon p1.AsMultiPolygon mp2
  | .multiPoint mp1, .multiPoint mp2 => hasIntersectionMultiPointWithMultiPoint mp1 mp2
  | .multiPoint mp1, .multiLineString mls2 =>
    hasIntersectionMultiPointWithMultiLineString mp1 mls2
  | .multiPoint mp1, .multiPolygon mp2 =>
    hasIntersectionMultiPointWithMultiPolygon mp1 mp2
  | .multiLineString mls1, .multiLineString mls2 =>
    hasIntersectionMultiLineStringWithMultiLineString mls1 mls2
  | .multiLineString mls1, .multiPolygon mp2 =>
    hasIntersectionMultiLineStringWithMultiPolygon mls1 mp2
  | .multiPolygon mp1, .multiPolygon mp2 =>
    hasIntersectionMultiPolygonWithMultiPolygon mp1 mp2
  | _, _ => false
termination_by (g1.msize + g2.msize, 4)
decreasing_by
  all_goals simp only [Prod.lex_def, Geometry.msize, Line.AsLineString,
    LineString.AsMultiLineString, Polygon.AsMultiPolygon, List.length_cons,
    List.length_nil, true_and, and_true]
  all_goals first
    | (have hms := msize_lt_of_mem g.2; omega)
    | omega

/-- `hasIntersectionPolygonWithPolygon`: boundaries intersect, or one
polygon contains a control point of the other. -/
def hasIntersectionPolygonWithPolygon (p1 p2 : Polygon) : Bool :=
  hasIntersection p1.BoundaryG p2.BoundaryG ||
    (hasIntersection (.point ⟨p1.exterior.pts.headI⟩) (.polygon p2) ||
      hasIntersection (.point ⟨p2.exterior.pts.headI⟩) (.polygon p1))
termination_by ((6 : Nat), 0)
decreasing_by
  all_goals simp only [Prod.lex_def, msize_polygon_BoundaryG, Geometry.msize]
  all_goals omega

/-- `hasIntersectionMultiPolygonWithMultiPolygon`: all polygon pairs. -/
def hasIntersectionMultiPolygonWithMultiPolygon (mp1 mp2 : MultiPolygon) : Bool :=
  mp1.polys.attach.any (fun p1 => mp2.polys.attach.any (fun p2 =>
    hasIntersection (.polygon p1.1) (.polygon p2.1)))
termination_by (3 * mp1.polys.length + 3 * mp2.polys.length, 7)
decreasing_by
  all_goals simp only [Prod.lex_def, Geometry.msize]
  all_goals
    have h1 := List.length_pos_of_mem p1.2
    have h2 := List.length_pos_of_mem p2.2
    omega

/-- `hasIntersectionMultiLineStringWithMultiPolygon`: boundary
intersection, otherwise classify the first control point of the
MultiLineString against the MultiPolygon. -/
def hasIntersectionMultiLineStringWithMultiPolygon
    (mls : MultiLineString) (mp : MultiPolygon) : Bool :=
  if hasIntersection (.multiLineString mls) mp.BoundaryG then
    true
  else
    match (mls.lines.map LineString.pts).join with
    | [] => false
    | pt :: _ => hasIntersectionPointWithMultiPolygon ⟨pt⟩ mp
termination_by (mp.polys.length + 3, 0)
decreasing_by
  all_goals simp only [Prod.lex_def, Geometry.msize, MultiPolygon.BoundaryG]
  all_goals omega

end

/-- `Geometry.Intersects` from the source: delegates to `hasIntersection`. -/
def Geometry.Intersects (g1 g2 : Geometry) : Bool := hasIntersection g1 g2

/-- Whether a geometry is a GeometryCollection. -/
def Geometry.isGC : Geometry → Bool
  | .geometryCollection _ => true
  | _ => false

theorem gcIsEmpty_eq_all (gs : List Geometry) :
    (Geometry.geometryCollection gs).IsEmpty = gs.all Geometry.IsEmpty := by
  induction gs with
  | nil => simp [Geometry.IsEmpty]
  | cons a t ih => simp [Geometry.IsEmpty, ih]

theorem gcValidB_eq_all (gs : List Geometry) :
    (Geometry.geometryCollection gs).validB = gs.all Geometry.validB := by
  induction gs with
  | nil => simp [Geometry.validB]
  | cons a t ih => simp [Geometry.validB, ih]

/-- Descendant relation through GeometryCollection nesting: `Desc d g` holds
when `d` is `g` itself or a (transitive) child of a collection `g`. -/
inductive Desc : Geometry → Geometry → Prop where
  | refl (g : Geometry) : Desc g g
  | gcChild {d g : Geometry} {gs : List Geometry} :
      g ∈ gs → Desc d g → Desc d (.geometryCollection gs)

theorem Desc.nonGC_eq {d g : Geometry} (hdesc : Desc d g) (hg : g.isGC = false) :
    d = g := by
  cases hdesc with
  | refl => rfl
  | gcChild hmem hd => simp [Geometry.isGC] at hg

theorem Desc.validB {d g : Geometry} (hdesc : Desc d g) (hv : g.validB = true) :
    d.validB = true := by
  induction hdesc with
  | refl => exact hv
  | gcChild hmem hd ih =>
    apply ih
    rw [gcValidB_eq_all, List.all_eq_true] at hv
    exact hv _ hmem

theorem Desc.notEmpty {d g : Geometry} (hdesc : Desc d g) (hne : d.IsEmpty = false) :
    g.IsEmpty = false := by
  induction hdesc with
  | refl => exact hne
  | gcChild hmem hd ih =>
    rw [gcIsEmpty_eq_all]
    cases hall : (List.all _ Geometry.IsEmpty)
    · rfl
    · have := List.all_eq_true.mp hall _ hmem
      rw [ih] at this
      exact absurd this Bool.false_ne_true

/-- Every nonempty geometry has a nonempty non-collection descendant. -/
theorem exists_nonGC_desc : ∀ (n : ℕ) (g : Geometry), g.msize ≤ n →
    g.IsEmpty = false →
    ∃ d, Desc d g ∧ d.isGC = false ∧ d.IsEmpty = false := by
  intro n
  induction n with
  | zero =>
    intro g hle _
    exact absurd hle (by have := msize_pos g; omega)
  | succ n ih =>
    intro g hle hne
    cases g with
    | geometryCollection gs =>
      rw [gcIsEmpty_eq_all, List.all_eq_false] at hne
      obtain ⟨c, hc, hcne⟩ := hne
      rw [Bool.not_eq_true] at hcne
      have hlt := msize_lt_of_mem hc
      obtain ⟨d, hd1, hd2, hd3⟩ := ih c (by omega) hcne
      exact ⟨d, Desc.gcChild hc hd1, hd2, hd3⟩
    | point p => exact ⟨_, Desc.refl _, rfl, hne⟩
    | line l => exact ⟨_, Desc.refl _, rfl, hne⟩
    | lineString ls => exact ⟨_, Desc.refl _, rfl, hne⟩
    | polygon p => exact ⟨_, Desc.refl _, rfl, hne⟩
    | multiPoint mp => exact ⟨_, Desc.refl _, rfl, hne⟩
    | multiLineString m => exact ⟨_, Desc.refl _, rfl, hne⟩
    | multiPolygon mp => exact ⟨_, Desc.refl _, rfl, hne⟩

theorem lines_ne_nil {ls : LineString} (h : ls.valid) : ls.lines ≠ [] := by
  obtain ⟨hlen, _⟩ := h
  rcases ls with ⟨pts⟩
  rcases pts with _ | ⟨a, _ | ⟨b, t⟩⟩
  · simp at hlen
  · simp at hlen
  · simp [LineString.lines]

theorem allLines_ne_nil {m : MultiLineString} (hv : m.valid) (hne : m.lines ≠ []) :
    m.allLines ≠ [] := by
  rcases m with ⟨lss⟩
  rcases lss with _ | ⟨ls, rest⟩
  · simp at hne
  · have h1 : ls.lines ≠ [] := lines_ne_nil (hv ls (List.mem_cons_self _ _))
    simp only [MultiLineString.allLines, List.map_cons, List.join_cons, ne_eq,
      List.append_eq_nil]
    intro hcon
    exact h1 hcon.1

/-- A nonempty valid MultiLineString crosses itself. -/
theorem mls_self_hit {m : MultiLineString} (hv : m.valid) (hne : m.lines ≠ []) :
    hasIntersectionMultiLineStringWithMultiLineString m m = true := by
  rw [sweep_eq_naive m m hv hv]
  have hall := allLines_ne_nil hv hne
  rcases hl : m.allLines with _ | ⟨ln, rest⟩
  · exact absurd hl hall
  · have hmem : ln ∈ m.allLines := by
      rw [hl]
      exact List.mem_cons_self _ _
    rw [List.any_eq_true]
    refine ⟨ln, List.mem_cons_self _ _, ?_⟩
    rw [List.any_eq_true]
    exact ⟨ln, List.mem_cons_self _ _,
      hasIntersectionLineWithLine_self (mem_allLines_nd hv ln hmem)⟩

theorem as_mls_valid {ls : LineString} (h : ls.valid) : ls.AsMultiLineString.valid := by
  intro l hl
  have hls : l = ls := by simpa [LineString.AsMultiLineString] using hl
  rw [hls]
  exact h

theorem boundary_eq_nil {p : Polygon} (h : p.interiors = []) :
    p.BoundaryG = .lineString p.exterior := by
  unfold Polygon.BoundaryG
  rw [h]

theorem boundary_eq_cons {p : Polygon} {r : LineString} {rs : List LineString}
    (h : p.interiors = r :: rs) :
    p.BoundaryG = .multiLineString ⟨p.rings⟩ := by
  unfold Polygon.BoundaryG
  rw [h]

theorem polygon_valid_parts {p : Polygon} (hv : p.validB = true) :
    p.exterior.valid ∧ ∀ r ∈ p.interiors, r.valid := by
  unfold Polygon.validB at hv
  rw [Bool.and_eq_true, decide_eq_true_eq, List.all_eq_true] at hv
  exact ⟨hv.1, fun r hr => decide_eq_true_eq.mp (hv.2 r hr)⟩

/-- The boundary of a valid polygon intersects itself. -/
theorem polygon_boundary_self {p : Polygon} (hv : p.validB = true) :
    hasIntersection p.BoundaryG p.BoundaryG = true := by
  obtain ⟨hext, hints⟩ := polygon_valid_parts hv
  rcases hint : p.interiors with _ | ⟨r, rs⟩
  · rw [boundary_eq_nil hint]
    unfold hasIntersection
    simp only [Geometry.IsEmpty, Bool.false_eq_true, if_false, lt_self_iff_false]
    simp only [hasIntersectionOrdered]
    exact mls_self_hit (as_mls_valid hext) (by simp [LineString.AsMultiLineString])
  · rw [boundary_eq_cons hint]
    have hmv : (MultiLineString.mk p.rings).valid := by
      intro l hl
      rcases List.mem_cons.mp hl with rfl | hl2
      · exact hext
      · exact hints l hl2
    unfold hasIntersection
    simp only [Geometry.IsEmpty, Polygon.rings, List.isEmpty_cons,
      Bool.false_eq_true, if_false, lt_self_iff_false]
    simp only [hasIntersectionOrdered]
    exact mls_self_hit hmv (by simp [Polygon.rings])

/-- A valid polygon intersects itself. -/
theorem polygon_self {p : Polygon} (hv : p.validB = true) :
    hasIntersection (Geometry.polygon p) (Geometry.polygon p) = true := by
  unfold hasIntersection
  simp only [Geometry.IsEmpty, Bool.false_eq_true, if_false, lt_self_iff_false]
  simp only [hasIntersectionOrdered, hasIntersectionPolygonWithPolygon]
  rw [polygon_boundary_self hv]
  rfl

/-- The ordered dispatch on the diagonal: a nonempty valid non-collection
geometry intersects itself. -/
theorem ordered_diag (g : Geometry) (hgc : g.isGC = false) (hv : g.validB = true)
    (hne : g.IsEmpty = false) : hasIntersectionOrdered g g = true := by
  cases g with
  | point p =>
    simp [hasIntersectionOrdered, hasIntersectionPointWithPoint, Point.EqualsExact]
  | line l =>
    simp only [Geometry.validB, decide_eq_true_eq] at hv
    simp only [hasIntersectionOrdered]
    exact hasIntersectionLineWithLine_self hv
  | lineString ls =>
    simp only [Geometry.validB, decide_eq_true_eq] at hv
    simp only [hasIntersectionOrdered]
    exact mls_self_hit (as_mls_valid hv) (by simp [LineString.AsMultiLineString])
  | polygon p =>
    simp only [Geometry.validB] at hv
    simp only [hasIntersectionOrdered, hasIntersectionPolygonWithPolygon]
    rw [polygon_boundary_self hv]
    rfl
  | multiPoint mp =>
    simp only [Geometry.IsEmpty] at hne
    rcases mp with ⟨_ | ⟨pt, rest⟩⟩
    · simp at hne
    · simp [hasIntersectionOrdered, hasIntersectionMultiPointWithMultiPoint,
        hasIntersectionPointWithMultiPoint, Point.EqualsExact]
  | multiLineString m =>
    simp only [Geometry.validB, decide_eq_true_eq] at hv
    simp only [Geometry.IsEmpty] at hne
    have hne2 : m.lines ≠ [] := by
      intro hcon
      rw [hcon] at hne
      simp at hne
    simp only [hasIntersectionOrdered]
    exact mls_self_hit hv hne2
  | multiPolygon mp =>
    simp only [Geometry.validB, List.all_eq_true] at hv
    simp only [Geometry.IsEmpty] at hne
    rcases mp with ⟨_ | ⟨p, rest⟩⟩
    · simp at hne
    · simp only [hasIntersectionOrdered]
      rw [hasIntersectionMultiPolygonWithMultiPolygon]
      rw [List.any_eq_true]
      refine ⟨⟨p, by simp⟩, List.mem_attach _ _, ?_⟩
      rw [List.any_eq_true]
      refine ⟨⟨p, by simp⟩, List.mem_attach _ _, ?_⟩
      exact polygon_self (hv _ (by simp))
  | geometryCollection gs => simp [Geometry.isGC] at hgc

theorem hasIntersectionOrdered_gc (a : Geometry) (gs : List Geometry) :
    hasIntersectionOrdered a (.geometryCollection gs) =
      gs.attach.any (fun g => hasIntersection a g.1) := by
  cases a <;> simp only [hasIntersectionOrdered]

theorem rank_le_7_of_not_gc {g : Geometry} (h : g.isGC = false) : rank g ≤ 7 := by
  cases g <;> simp_all [rank, Geometry.isGC]

theorem isGC_false_of_rank_le {g : Geometry} (h : rank g ≤ 7) : g.isGC = false := by
  cases g <;> simp_all [rank, Geometry.isGC]

theorem eq_gc_of_isGC {g : Geometry} (h : g.isGC = true) :
    ∃ gs, g = .geometryCollection gs := by
  cases g <;> first
    | exact ⟨_, rfl⟩
    | simp [Geometry.isGC] at h

/-- Two geometries sharing a nonempty valid non-collection descendant
intersect. -/
theorem hasIntersection_of_common_desc :
    ∀ (n : ℕ) (g1 g2 d : Geometry), g1.msize + g2.msize ≤ n →
      Desc d g1 → Desc d g2 → d.isGC = false → d.validB = true →
      d.IsEmpty = false → hasIntersection g1 g2 = true := by
  intro n
  induction n with
  | zero =>
    intro g1 g2 d hle _ _ _ _ _
    exact absurd hle (by have := msize_pos g1; have := msize_pos g2; omega)
  | succ n ih =>
    intro g1 g2 d hle h1 h2 hdgc hdv hdne
    have hne1 : g1.IsEmpty = false := h1.notEmpty hdne
    have hne2 : g2.IsEmpty = false := h2.notEmpty hdne
    have key : ∀ a b : Geometry, Desc d a → Desc d b →
        a.msize + b.msize ≤ n + 1 → (b.isGC = false → a.isGC = false) →
        hasIntersectionOrdered a b = true := by
      intro a b hda hdb hsum himp
      cases hbgc : b.isGC with
      | false =>
        have hea : d = a := hda.nonGC_eq (himp hbgc)
        have heb : d = b := hdb.nonGC_eq hbgc
        subst hea
        subst heb
        exact ordered_diag d hdgc hdv hdne
      | true =>
        obtain ⟨gs, rfl⟩ := eq_gc_of_isGC hbgc
        rw [hasIntersectionOrdered_gc, List.any_eq_true]
        cases hdb with
        | refl => simp [Geometry.isGC] at hdgc
        | gcChild hmem hdc =>
          rename_i c
          refine ⟨⟨c, hmem⟩, List.mem_attach _ _, ?_⟩
          have hlt := msize_lt_of_mem hmem
          exact ih a c d (by omega) hda hdc hdgc hdv hdne
    unfold hasIntersection
    simp only [hne1, hne2, Bool.false_eq_true, if_false]
    by_cases hr : rank g2 < rank g1
    · rw [if_pos hr]
      refine key g2 g1 h2 h1 (by omega) ?_
      intro hb
      have hb7 := rank_le_7_of_not_gc hb
      exact isGC_false_of_rank_le (by omega)
    · rw [if_neg hr]
      refine key g1 g2 h1 h2 (by omega) ?_
      intro hb
      have hb7 := rank_le_7_of_not_gc hb
      exact isGC_false_of_rank_le (by omega)

/-- A nonempty valid geometry intersects itself. -/
theorem hasIntersection_self_of {g : Geometry} (hv : g.validB = true)
    (hne : g.IsEmpty = false) : hasIntersection g g = true := by
  obtain ⟨d, hd, hdgc, hdne⟩ := exists_nonGC_desc g.msize g le_rfl hne
  exact hasIntersection_of_common_desc (g.msize + g.msize) g g d le_rfl
    hd hd hdgc (hd.validB hv) hdne

/-- C1: for every valid geometry `g` of any variant, `g.Intersects(g)`
returns true if and only if `g` is not empty. -/
theorem claim_C1 (g : Geometry) (hv : g.validB = true) :
    g.Intersects g = true ↔ g.IsEmpty = false := by
  constructor
  · intro hi
    by_contra hne
    rw [Bool.not_eq_false] at hne
    unfold Geometry.Intersects hasIntersection at hi
    rw [if_pos hne] at hi
    exact Bool.false_ne_true hi
  · intro hne
    exact hasIntersection_self_of hv hne

/-- Witness for C1 at a concrete one-point geometry. -/
theorem claim_C1_witness :
    (Geometry.point ⟨⟨0, 0⟩⟩).validB = true ∧
      ((Geometry.point ⟨⟨0, 0⟩⟩).Intersects (Geometry.point ⟨⟨0, 0⟩⟩) = true ↔
        (Geometry.point ⟨⟨0, 0⟩⟩).IsEmpty = false) :=
  ⟨by simp [Geometry.validB], claim_C1 _ (by simp [Geometry.validB])⟩


/-- `MultiPoint.Boundary` from the source: returns `m` itself when `m` is
empty, otherwise `NewGeometryCollection(nil)`, i.e. an empty collection. -/
def MultiPoint.Boundary (m : MultiPoint) : Geometry :=
  if (Geometry.multiPoint m).IsEmpty then .multiPoint m
  else .geometryCollection []

/-- C10: `MultiPoint.Boundary` always returns an empty geometry — `m` itself
when `m` has no points, and an empty GeometryCollection otherwise. -/
theorem claim_C10 (m : MultiPoint) :
    (MultiPoint.Boundary m).IsEmpty = true ∧
      (m.pts = [] → MultiPoint.Boundary m = .multiPoint m) ∧
      (m.pts ≠ [] → MultiPoint.Boundary m = .geometryCollection []) := by
  refine ⟨?_, ?_, ?_⟩
  · unfold MultiPoint.Boundary
    by_cases h : (Geometry.multiPoint m).IsEmpty = true
    · rw [if_pos h]
      exact h
    · rw [if_neg h]
      simp [Geometry.IsEmpty]
  · intro h
    unfold MultiPoint.Boundary
    rw [if_pos]
    simp [Geometry.IsEmpty, h]
  · intro h
    unfold MultiPoint.Boundary
    rw [if_neg]
    simp [Geometry.IsEmpty, h]

/-- Witness for C10 at two concrete MultiPoints, empty and nonempty. -/
theorem claim_C10_witness :
    (MultiPoint.Boundary ⟨[]⟩).IsEmpty = true ∧
      MultiPoint.Boundary ⟨[]⟩ = .multiPoint ⟨[]⟩ ∧
      MultiPoint.Boundary ⟨[⟨⟨0, 0⟩⟩]⟩ = .geometryCollection [] :=
  ⟨(claim_C10 ⟨[]⟩).1, (claim_C10 ⟨[]⟩).2.1 rfl,
    (claim_C10 ⟨[⟨⟨0, 0⟩⟩]⟩).2.2 (by simp)⟩


/-- An IEEE float as far as the GeoJSON decoding path inspects it: a finite
value, NaN, or an infinity.  (`toRat` is only applied after the NaN/Inf
check, so non-finite values map to an arbitrary rational.) -/
inductive F where
  | finite : ℚ → F
  | nan : F
  | posInf : F
  | negInf : F
deriving DecidableEq, Repr

def F.isNaN : F → Bool
  | .nan => true
  | _ => false

def F.isInf : F → Bool
  | .posInf => true
  | .negInf => true
  | _ => false

def F.toRat : F → ℚ
  | .finite q => q
  | _ => 0

/-- A float rejected by the ingress check: NaN or an infinity. -/
def F.bad (f : F) : Bool := f.isNaN || f.isInf

/-- The error outcomes of the GeoJSON decoding path.  `wrongDimension` is
`fmt.Errorf("coordinates have incorrect dimension: %d", ...)`; `nanOrInf` is
`errors.New("coordinate is NaN or inf")`; `constructorError` stands for any
error returned by a geometry constructor.  Modelled from the spec:
`invalidCoordinate` is the typed `InvalidCoordinate` error the spec names;
it is included so the claim can be stated, and no code path produces it. -/
inductive GeoErr where
  | wrongDimension : ℕ → GeoErr
  | nanOrInf : GeoErr
  | constructorError : GeoErr
  | invalidCoordinate : GeoErr
deriving DecidableEq, Repr

/-- `oneDimFloat64sToCoordinates`: dimension check first (2 to 4 values),
then the NaN/Inf rejection, then the first two values become the XY. -/
def oneDimFloat64sToCoordinates (fs : List F) : Except GeoErr XY :=
  if fs.length < 2 || 4 < fs.length then .error (.wrongDimension fs.length)
  else if fs.any F.bad then .error .nanOrInf
  else match fs with
    | f0 :: f1 :: _ => .ok ⟨f0.toRat, f1.toRat⟩
    | _ => .ok ⟨0, 0⟩

/-- `twoDimFloat64sToCoordinates`: converts each inner array in order,
propagating the first error. -/
def twoDimFloat64sToCoordinates : List (List F) → Except GeoErr (List XY)
  | [] => .ok []
  | inner :: rest =>
    match oneDimFloat64sToCoordinates inner with
    | .error e => .error e
    | .ok c =>
      match twoDimFloat64sToCoordinates rest with
      | .error e => .error e
      | .ok cs => .ok (c :: cs)

/-- `threeDimFloat64sToCoordinates`. -/
def threeDimFloat64sToCoordinates : List (List (List F)) → Except GeoErr (List (List XY))
  | [] => .ok []
  | inner :: rest =>
    match twoDimFloat64sToCoordinates inner with
    | .error e => .error e
    | .ok c =>
      match threeDimFloat64sToCoordinates rest with
      | .error e => .error e
      | .ok cs => .ok (c :: cs)

/-- `fourDimFloat64sToCoordinates`. -/
def fourDimFloat64sToCoordinates : List (List (List (List F))) → Except GeoErr (List (List (List XY)))
  | [] => .ok []
  | inner :: rest =>
    match threeDimFloat64sToCoordinates inner with
    | .error e => .error e
    | .ok c =>
      match fourDimFloat64sToCoordinates rest with
      | .error e => .error e
      | .ok cs => .ok (c :: cs)

/-- The geometry values the GeoJSON API (`GeometryX`) can produce, by
constructor. -/
inductive GeometryX where
  | emptyPoint : GeometryX
  | pointC : XY → GeometryX
  | lineC : XY → XY → GeometryX
  | emptyLineString : GeometryX
  | lineStringC : List XY → GeometryX
  | multiPointC : List XY → GeometryX
  | emptyPolygon : GeometryX
  | polygonC : List (List XY) → GeometryX
  | multiLineStringC : List (List XY) → GeometryX
  | multiPolygonC : List (List (List XY)) → GeometryX
  | geometryCollectionX : List GeometryX → GeometryX

/-- Modelled from the spec: `NewLineC` fails when the two endpoints
coincide. -/
def NewLineC (a b : XY) : Except GeoErr GeometryX :=
  if a = b then .error .constructorError else .ok (.lineC a b)

/-- Modelled from the spec: `NewLineStringC` fails when fewer than two
points are supplied or two adjacent points coincide. -/
def NewLineStringC (cs : List XY) : Except GeoErr GeometryX :=
  if 2 ≤ cs.length ∧ ∀ p ∈ cs.zip cs.tail, p.1 ≠ p.2 then .ok (.lineStringC cs)
  else .error .constructorError

/-- Modelled from the spec: a polygon ring must be a closed loop of at
least four positions. -/
def ringOK (r : List XY) : Prop := 4 ≤ r.length ∧ r.headI = r.getLastI

instance (r : List XY) : Decidable (ringOK r) := by
  unfold ringOK
  infer_instance

/-- Modelled from the spec: `NewPolygonC` fails when some ring is not a
closed loop. -/
def NewPolygonC (rings : List (List XY)) : Except GeoErr GeometryX :=
  if ∀ r ∈ rings, ringOK r then .ok (.polygonC rings) else .error .constructorError

/-- Modelled from the spec: `NewMultiLineStringC` fails when some element
would fail `NewLineStringC`. -/
def NewMultiLineStringC (lss : List (List XY)) : Except GeoErr GeometryX :=
  if ∀ ls ∈ lss, 2 ≤ ls.length ∧ ∀ p ∈ ls.zip ls.tail, p.1 ≠ p.2 then
    .ok (.multiLineStringC lss)
  else .error .constructorError

/-- Modelled from the spec: `NewMultiPolygonC` fails when some ring of some
element is not a closed loop. -/
def NewMultiPolygonC (pss : List (List (List XY))) : Except GeoErr GeometryX :=
  if ∀ rings ∈ pss, ∀ r ∈ rings, ringOK r then .ok (.multiPolygonC pss)
  else .error .constructorError

/-- A GeoJSON document after JSON decoding, per the `type` dispatch of
`UnmarshalGeoJSON`: the coordinate arrays at the nesting depth each variant
reads, and recursively decoded children for a GeometryCollection. -/
inductive GeoJSON where
  | point : List F → GeoJSON
  | lineString : List (List F) → GeoJSON
  | multiPoint : List (List F) → GeoJSON
  | polygon : List (List (List F)) → GeoJSON
  | multiLineString : List (List (List F)) → GeoJSON
  | multiPolygon : List (List (List (List F))) → GeoJSON
  | geometryCollection : List GeoJSON → GeoJSON

def hasBad1 (fs : List F) : Bool := fs.any F.bad

def hasBad2 (l : List (List F)) : Bool := l.any hasBad1

def hasBad3 (l : List (List (List F))) : Bool := l.any hasBad2

def hasBad4 (l : List (List (List (List F)))) : Bool := l.any hasBad3

/-- Whether some coordinate value anywhere in the document is NaN or an
infinity. -/
def GeoJSON.hasNaNOrInf : GeoJSON → Bool
  | .point fs => hasBad1 fs
  | .lineString l => hasBad2 l
  | .multiPoint l => hasBad2 l
  | .polygon l => hasBad3 l
  | .multiLineString l => hasBad3 l
  | .multiPolygon l => hasBad4 l
  | .geometryCollection [] => false
  | .geometryCollection (g :: gs) =>
    g.hasNaNOrInf || (GeoJSON.geometryCollection gs).hasNaNOrInf

/-- Termination measure for the GeoJSON recursion. -/
def GeoJSON.gjsize : GeoJSON → ℕ
  | .geometryCollection [] => 1
  | .geometryCollection (g :: gs) =>
    g.gjsize + (GeoJSON.geometryCollection gs).gjsize
  | _ => 1

theorem gjsize_gc_ge_one (gs : List GeoJSON) :
    1 ≤ (GeoJSON.geometryCollection gs).gjsize := by
  induction gs with
  | nil => simp [GeoJSON.gjsize]
  | cons a t ih =>
    simp only [GeoJSON.gjsize]
    omega

theorem gjsize_pos (g : GeoJSON) : 1 ≤ g.gjsize := by
  cases g with
  | geometryCollection gs => exact gjsize_gc_ge_one gs
  | point fs => simp [GeoJSON.gjsize]
  | lineString l => simp [GeoJSON.gjsize]
  | multiPoint l => simp [GeoJSON.gjsize]
  | polygon l => simp [GeoJSON.gjsize]
  | multiLineString l => simp [GeoJSON.gjsize]
  | multiPolygon l => simp [GeoJSON.gjsize]

theorem gjsize_lt_of_mem {g : GeoJSON} {gs : List GeoJSON} (h : g ∈ gs) :
    g.gjsize < (GeoJSON.geometryCollection gs).gjsize := by
  induction gs with
  | nil => cases h
  | cons a t ih =>
    rcases List.mem_cons.mp h with rfl | ht
    · have h1 := gjsize_gc_ge_one t
      simp only [GeoJSON.gjsize]
      omega
    · have h1 := ih ht
      have h2 := gjsize_pos a
      simp only [GeoJSON.gjsize]
      omega

mutual

/-- `UnmarshalGeoJSON` after JSON decoding: the `type` dispatch, coordinate
conversion (with its error propagation), and the constructor calls of the
source. -/
def UnmarshalGeoJSON : GeoJSON → Except GeoErr GeometryX
  | .point coords =>
    if coords.length = 0 then .ok .emptyPoint
    else match oneDimFloat64sToCoordinates coords with
      | .error e => .error e
      | .ok c => .ok (.pointC c)
  | .lineString coords =>
    match twoDimFloat64sToCoordinates coords with
    | .error e => .error e
    | .ok cs =>
      match cs with
      | [] => .ok .emptyLineString
      | [c0, c1] => NewLineC c0 c1
      | _ => NewLineStringC cs
  | .multiPoint coords =>
    match twoDimFloat64sToCoordinates coords with
    | .error e => .error e
    | .ok cs => .ok (.multiPointC cs)
  | .polygon coords =>
    match threeDimFloat64sToCoordinates coords with
    | .error e => .error e
    | .ok cs =>
      match cs with
      | [] => .ok .emptyPolygon
      | _ => NewPolygonC cs
  | .multiLineString coords =>
    match threeDimFloat64sToCoordinates coords with
    | .error e => .error e
    | .ok cs => NewMultiLineStringC cs
  | .multiPolygon coords =>
    match fourDimFloat64sToCoordinates coords with
    | .error e => .error e
    | .ok cs => NewMultiPolygonC cs
  | .geometryCollection gs =>
    match unmarshalGeoJSONList gs with
    | .error e => .error e
    | .ok items => .ok (.geometryCollectionX items)
termination_by g => (g.gjsize, 1)

/-- The recursive decoding of a GeometryCollection's children (the JSON
decoder invokes `UnmarshalGeoJSON` on each child in order, aborting on the
first failure). -/
def unmarshalGeoJSONList : List GeoJSON → Except GeoErr (List GeometryX)
  | [] => .ok []
  | g :: rest =>
    match UnmarshalGeoJSON g with
    | .error e => .error e
    | .ok x =>
      match unmarshalGeoJSONList rest with
      | .error e => .error e
      | .ok xs => .ok (x :: xs)
termination_by gs => ((GeoJSON.geometryCollection gs).gjsize, 0)
decreasing_by
  · rw [Prod.lex_def]
    left
    have := gjsize_lt_of_mem (List.mem_cons_self g rest)
    omega
  · rw [Prod.lex_def]
    simp only [GeoJSON.gjsize]
    have := gjsize_pos g
    omega

end


theorem oneDim_err {fs : List F} {e : GeoErr}
    (h : oneDimFloat64sToCoordinates fs = .error e) :
    (∃ n, e = .wrongDimension n) ∨ e = .nanOrInf := by
  unfold oneDimFloat64sToCoordinates at h
  split at h
  · simp only [Except.error.injEq] at h
    exact Or.inl ⟨fs.length, h.symm⟩
  · split at h
    · simp only [Except.error.injEq] at h
      exact Or.inr h.symm
    · split at h <;> simp at h

theorem oneDim_bad {fs : List F} (h : hasBad1 fs = true) :
    ∃ e, oneDimFloat64sToCoordinates fs = .error e := by
  unfold hasBad1 at h
  unfold oneDimFloat64sToCoordinates
  by_cases hdim : (decide (fs.length < 2) || decide (4 < fs.length)) = true
  · exact ⟨GeoErr.wrongDimension fs.length, by rw [if_pos hdim]⟩
  · exact ⟨GeoErr.nanOrInf, by rw [if_neg hdim, if_pos h]⟩

theorem oneDim_ok_clean {fs : List F} {c : XY}
    (h : oneDimFloat64sToCoordinates fs = .ok c) : hasBad1 fs = false := by
  unfold oneDimFloat64sToCoordinates at h
  unfold hasBad1
  split at h
  · simp at h
  · split at h
    · simp at h
    · next h2 =>
      cases hb : fs.any F.bad
      · rfl
      · exact absurd hb h2

theorem twoDim_err : ∀ {l : List (List F)} {e : GeoErr},
    twoDimFloat64sToCoordinates l = .error e →
    (∃ n, e = .wrongDimension n) ∨ e = .nanOrInf := by
  intro l
  induction l with
  | nil =>
    intro e h
    unfold twoDimFloat64sToCoordinates at h
    simp at h
  | cons inner rest ih =>
    intro e h
    unfold twoDimFloat64sToCoordinates at h
    split at h
    · next he =>
      simp only [Except.error.injEq] at h
      subst h
      exact oneDim_err he
    · split at h
      · next he =>
        simp only [Except.error.injEq] at h
        subst h
        exact ih he
      · simp at h

theorem twoDim_bad : ∀ {l : List (List F)}, hasBad2 l = true →
    ∃ e, twoDimFloat64sToCoordinates l = .error e := by
  intro l
  induction l with
  | nil =>
    intro h
    simp [hasBad2] at h
  | cons inner rest ih =>
    intro h
    unfold twoDimFloat64sToCoordinates
    cases h1 : oneDimFloat64sToCoordinates inner with
    | error e => exact ⟨e, rfl⟩
    | ok c =>
      have hclean := oneDim_ok_clean h1
      unfold hasBad2 at h
      rw [List.any_cons] at h
      rw [Bool.or_eq_true] at h
      rcases h with hbad | hrest
      · rw [show hasBad1 inner = (inner.any F.bad) from rfl] at hclean
        rw [show hasBad1 inner = (inner.any F.bad) from rfl] at hbad
        rw [hclean] at hbad
        exact absurd hbad Bool.false_ne_true
      · obtain ⟨e, he⟩ := ih hrest
        rw [he]
        exact ⟨e, rfl⟩

theorem threeDim_err : ∀ {l : List (List (List F))} {e : GeoErr},
    threeDimFloat64sToCoordinates l = .error e →
    (∃ n, e = .wrongDimension n) ∨ e = .nanOrInf := by
  intro l
  induction l with
  | nil =>
    intro e h
    unfold threeDimFloat64sToCoordinates at h
    simp at h
  | cons inner rest ih =>
    intro e h
    unfold threeDimFloat64sToCoordinates at h
    split at h
    · next he =>
      simp only [Except.error.injEq] at h
      subst h
      exact twoDim_err he
    · split at h
      · next he =>
        simp only [Except.error.injEq] at h
        subst h
        exact ih he
      · simp at h

theorem twoDim_ok_clean : ∀ {l : List (List F)} {cs : List XY},
    twoDimFloat64sToCoordinates l = .ok cs → hasBad2 l = false := by
  intro l
  induction l with
  | nil => intro cs _; rfl
  | cons inner rest ih =>
    intro cs h
    unfold twoDimFloat64sToCoordinates at h
    split at h
    · simp at h
    · next c hc =>
      split at h
      · simp at h
      · next cs2 hrest =>
        unfold hasBad2
        rw [List.any_cons, Bool.or_eq_false_iff]
        exact ⟨oneDim_ok_clean hc, ih hrest⟩

theorem threeDim_bad : ∀ {l : List (List (List F))}, hasBad3 l = true →
    ∃ e, threeDimFloat64sToCoordinates l = .error e := by
  intro l
  induction l with
  | nil =>
    intro h
    simp [hasBad3] at h
  | cons inner rest ih =>
    intro h
    unfold threeDimFloat64sToCoordinates
    cases h1 : twoDimFloat64sToCoordinates inner with
    | error e => exact ⟨e, rfl⟩
    | ok c =>
      have hclean := twoDim_ok_clean h1
      unfold hasBad3 at h
      rw [List.any_cons, Bool.or_eq_true] at h
      rcases h with hbad | hrest
      · rw [show hasBad2 inner = (inner.any hasBad1) from rfl] at hclean
        rw [show hasBad2 inner = (inner.any hasBad1) from rfl] at hbad
        rw [hclean] at hbad
        exact absurd hbad Bool.false_ne_true
      · obtain ⟨e, he⟩ := ih hrest
        rw [he]
        exact ⟨e, rfl⟩

theorem threeDim_ok_clean : ∀ {l : List (List (List F))} {cs : List (List XY)},
    threeDimFloat64sToCoordinates l = .ok cs → hasBad3 l = false := by
  intro l
  induction l with
  | nil => intro cs _; rfl
  | cons inner rest ih =>
    intro cs h
    unfold threeDimFloat64sToCoordinates at h
    split at h
    · simp at h
    · next c hc =>
      split at h
      · simp at h
      · next cs2 hrest =>
        unfold hasBad3
        rw [List.any_cons, Bool.or_eq_false_iff]
        exact ⟨twoDim_ok_clean hc, ih hrest⟩

theorem fourDim_err : ∀ {l : List (List (List (List F)))} {e : GeoErr},
    fourDimFloat64sToCoordinates l = .error e →
    (∃ n, e = .wrongDimension n) ∨ e = .nanOrInf := by
  intro l
  induction l with
  | nil =>
    intro e h
    unfold fourDimFloat64sToCoordinates at h
    simp at h
  | cons inner rest ih =>
    intro e h
    unfold fourDimFloat64sToCoordinates at h
    split at h
    · next he =>
      simp only [Except.error.injEq] at h
      subst h
      exact threeDim_err he
    · split at h
      · next he =>
        simp only [Except.error.injEq] at h
        subst h
        exact ih he
      · simp at h

theorem fourDim_bad : ∀ {l : List (List (List (List F)))}, hasBad4 l = true →
    ∃ e, fourDimFloat64sToCoordinates l = .error e := by
  intro l
  induction l with
  | nil =>
    intro h
    simp [hasBad4] at h
  | cons inner rest ih =>
    intro h
    unfold fourDimFloat64sToCoordinates
    cases h1 : threeDimFloat64sToCoordinates inner with
    | error e => exact ⟨e, rfl⟩
    | ok c =>
      have hclean := threeDim_ok_clean h1
      unfold hasBad4 at h
      rw [List.any_cons, Bool.or_eq_true] at h
      rcases h with hbad | hrest
      · rw [show hasBad3 inner = (inner.any hasBad2) from rfl] at hclean
        rw [show hasBad3 inner = (inner.any hasBad2) from rfl] at hbad
        rw [hclean] at hbad
        exact absurd hbad Bool.false_ne_true
      · obtain ⟨e, he⟩ := ih hrest
        rw [he]
        exact ⟨e, rfl⟩

theorem NewLineC_err {a b : XY} {e : GeoErr} (h : NewLineC a b = .error e) :
    e = .constructorError := by
  unfold NewLineC at h
  split at h
  · simp only [Except.error.injEq] at h
    exact h.symm
  · simp at h

theorem NewLineStringC_err {cs : List XY} {e : GeoErr}
    (h : NewLineStringC cs = .error e) : e = .constructorError := by
  unfold NewLineStringC at h
  split at h
  · simp at h
  · simp only [Except.error.injEq] at h
    exact h.symm

theorem NewPolygonC_err {rings : List (List XY)} {e : GeoErr}
    (h : NewPolygonC rings = .error e) : e = .constructorError := by
  unfold NewPolygonC at h
  split at h
  · simp at h
  · simp only [Except.error.injEq] at h
    exact h.symm

theorem NewMultiLineStringC_err {lss : List (List XY)} {e : GeoErr}
    (h : NewMultiLineStringC lss = .error e) : e = .constructorError := by
  unfold NewMultiLineStringC at h
  split at h
  · simp at h
  · simp only [Except.error.injEq] at h
    exact h.symm

theorem NewMultiPolygonC_err {pss : List (List (List XY))} {e : GeoErr}
    (h : NewMultiPolygonC pss = .error e) : e = .constructorError := by
  unfold NewMultiPolygonC at h
  split at h
  · simp at h
  · simp only [Except.error.injEq] at h
    exact h.symm

/-- No decoding path produces the typed `invalidCoordinate` error. -/
theorem unmarshal_not_invalid : ∀ (n : ℕ) (g : GeoJSON), g.gjsize ≤ n →
    UnmarshalGeoJSON g ≠ .error .invalidCoordinate := by
  intro n
  induction n with
  | zero =>
    intro g hle
    exact absurd hle (by have := gjsize_pos g; omega)
  | succ n ih =>
    intro g hle h
    cases g with
    | point coords =>
      unfold UnmarshalGeoJSON at h
      split at h
      · simp at h
      · split at h
        · next e' he =>
          simp only [Except.error.injEq] at h
          subst h
          rcases oneDim_err he with ⟨m, hm⟩ | hm <;> simp at hm
        · simp at h
    | lineString coords =>
      unfold UnmarshalGeoJSON at h
      split at h
      · next e' he =>
        simp only [Except.error.injEq] at h
        subst h
        rcases twoDim_err he with ⟨m, hm⟩ | hm <;> simp at hm
      · split at h
        · simp at h
        · have := NewLineC_err h
          simp at this
        · have := NewLineStringC_err h
          simp at this
    | multiPoint coords =>
      unfold UnmarshalGeoJSON at h
      split at h
      · next e' he =>
        simp only [Except.error.injEq] at h
        subst h
        rcases twoDim_err he with ⟨m, hm⟩ | hm <;> simp at hm
      · simp at h
    | polygon coords =>
      unfold UnmarshalGeoJSON at h
      split at h
      · next e' he =>
        simp only [Except.error.injEq] at h
        subst h
        rcases threeDim_err he with ⟨m, hm⟩ | hm <;> simp at hm
      · split at h
        · simp at h
        · have := NewPolygonC_err h
          simp at this
    | multiLineString coords =>
      unfold UnmarshalGeoJSON at h
      split at h
      · next e' he =>
        simp only [Except.error.injEq] at h
        subst h
        rcases threeDim_err he with ⟨m, hm⟩ | hm <;> simp at hm
      · have := NewMultiLineStringC_err h
        simp at this
    | multiPolygon coords =>
      unfold UnmarshalGeoJSON at h
      split at h
      · next e' he =>
        simp only [Except.error.injEq] at h
        subst h
        rcases fourDim_err he with ⟨m, hm⟩ | hm <;> simp at hm
      · have := NewMultiPolygonC_err h
        simp at this
    | geometryCollection gs =>
      have hlist : ∀ (l : List GeoJSON), (∀ x ∈ l, x.gjsize ≤ n) →
          unmarshalGeoJSONList l ≠ .error .invalidCoordinate := by
        intro l
        induction l with
        | nil =>
          intro _ hcon
          unfold unmarshalGeoJSONList at hcon
          simp at hcon
        | cons a t iht =>
          intro hmem hcon
          unfold unmarshalGeoJSONList at hcon
          split at hcon
          · next e' he =>
            simp only [Except.error.injEq] at hcon
            subst hcon
            exact ih a (hmem a (List.mem_cons_self _ _)) he
          · split at hcon
            · next e' he2 =>
              simp only [Except.error.injEq] at hcon
              subst hcon
              exact iht (fun x hx => hmem x (List.mem_cons_of_mem _ hx)) he2
            · simp at hcon
      unfold UnmarshalGeoJSON at h
      split at h
      · next e' he =>
        simp only [Except.error.injEq] at h
        subst h
        refine hlist gs ?_ he
        intro x hx
        have := gjsize_lt_of_mem hx
        omega
      · simp at h

theorem gcBad_eq_any (gs : List GeoJSON) :
    (GeoJSON.geometryCollection gs).hasNaNOrInf = gs.any GeoJSON.hasNaNOrInf := by
  induction gs with
  | nil => simp [GeoJSON.hasNaNOrInf]
  | cons a t ih => simp [GeoJSON.hasNaNOrInf, ih]

/-- Every document containing a NaN or infinite coordinate fails to decode. -/
theorem unmarshal_bad_err : ∀ (n : ℕ) (g : GeoJSON), g.gjsize ≤ n →
    g.hasNaNOrInf = true → ∃ e, UnmarshalGeoJSON g = .error e := by
  intro n
  induction n with
  | zero =>
    intro g hle
    exact absurd hle (by have := gjsize_pos g; omega)
  | succ n ih =>
    intro g hle hbad
    cases g with
    | point coords =>
      unfold GeoJSON.hasNaNOrInf at hbad
      unfold UnmarshalGeoJSON
      obtain ⟨e, he⟩ := oneDim_bad hbad
      rw [if_neg, he]
      · exact ⟨e, rfl⟩
      · intro hlen
        rw [List.length_eq_zero] at hlen
        subst hlen
        simp [hasBad1] at hbad
    | lineString coords =>
      unfold GeoJSON.hasNaNOrInf at hbad
      unfold UnmarshalGeoJSON
      obtain ⟨e, he⟩ := twoDim_bad hbad
      rw [he]
      exact ⟨e, rfl⟩
    | multiPoint coords =>
      unfold GeoJSON.hasNaNOrInf at hbad
      unfold UnmarshalGeoJSON
      obtain ⟨e, he⟩ := twoDim_bad hbad
      rw [he]
      exact ⟨e, rfl⟩
    | polygon coords =>
      unfold GeoJSON.hasNaNOrInf at hbad
      unfold UnmarshalGeoJSON
      obtain ⟨e, he⟩ := threeDim_bad hbad
      rw [he]
      exact ⟨e, rfl⟩
    | multiLineString coords =>
      unfold GeoJSON.hasNaNOrInf at hbad
      unfold UnmarshalGeoJSON
      obtain ⟨e, he⟩ := threeDim_bad hbad
      rw [he]
      exact ⟨e, rfl⟩
    | multiPolygon coords =>
      unfold GeoJSON.hasNaNOrInf at hbad
      unfold UnmarshalGeoJSON
      obtain ⟨e, he⟩ := fourDim_bad hbad
      rw [he]
      exact ⟨e, rfl⟩
    | geometryCollection gs =>
      rw [gcBad_eq_any, List.any_eq_true] at hbad
      obtain ⟨c, hc, hcbad⟩ := hbad
      have hsz : ∀ x ∈ gs, x.gjsize ≤ n := by
        intro x hx
        have := gjsize_lt_of_mem hx
        omega
      have hlist : ∀ (l : List GeoJSON), (∀ x ∈ l, x.gjsize ≤ n) →
          (∃ c2 ∈ l, c2.hasNaNOrInf = true) →
          ∃ e, unmarshalGeoJSONList l = .error e := by
        intro l
        induction l with
        | nil =>
          intro _ hex
          obtain ⟨c2, hc2, _⟩ := hex
          cases hc2
        | cons a t iht =>
          intro hmem hex
          unfold unmarshalGeoJSONList
          cases hua : UnmarshalGeoJSON a with
          | error e => exact ⟨e, rfl⟩
          | ok x =>
            obtain ⟨c2, hc2, hc2bad⟩ := hex
            rcases List.mem_cons.mp hc2 with rfl | hct
            · obtain ⟨e, he⟩ := ih c2 (hmem c2 (List.mem_cons_self _ _)) hc2bad
              rw [hua] at he
              simp at he
            · obtain ⟨e, he⟩ :=
                iht (fun x2 hx2 => hmem x2 (List.mem_cons_of_mem _ hx2)) ⟨c2, hct, hc2bad⟩
              rw [he]
              exact ⟨e, rfl⟩
      obtain ⟨e, he⟩ := hlist gs hsz ⟨c, hc, hcbad⟩
      unfold UnmarshalGeoJSON
      rw [he]
      exact ⟨e, rfl⟩

/-- C8, amended: a GeoJSON input with a NaN or infinite coordinate always
fails to decode (no geometry is returned), but the failure never carries the
typed `invalidCoordinate` error — the code reports the NaN/Inf (or a
dimension) failure as a plain error value, and no path produces a typed
`InvalidCoordinate`. -/
theorem claim_C8 :
    (∀ j : GeoJSON, j.hasNaNOrInf = true → ∃ e, UnmarshalGeoJSON j = .error e) ∧
      ∀ j : GeoJSON, UnmarshalGeoJSON j ≠ .error .invalidCoordinate := by
  constructor
  · intro j hbad
    exact unmarshal_bad_err j.gjsize j le_rfl hbad
  · intro j
    exact unmarshal_not_invalid j.gjsize j le_rfl

/-- Counterexample to C8 as stated: a Point document whose x coordinate is
NaN fails with the plain NaN/Inf error, not the typed `invalidCoordinate`
error the claim names. -/
theorem claim_C8_counterexample :
    (GeoJSON.point [F.nan, F.finite 0]).hasNaNOrInf = true ∧
      UnmarshalGeoJSON (GeoJSON.point [F.nan, F.finite 0]) =
        .error .nanOrInf ∧
      (GeoErr.nanOrInf ≠ GeoErr.invalidCoordinate) := by
  refine ⟨by simp [GeoJSON.hasNaNOrInf, hasBad1, F.bad, F.isNaN, List.any_cons], ?_, by simp⟩
  unfold UnmarshalGeoJSON
  rw [if_neg (by simp)]
  rw [show oneDimFloat64sToCoordinates [F.nan, F.finite 0] = .error .nanOrInf by
    unfold oneDimFloat64sToCoordinates
    rw [if_neg (by simp), if_pos (by simp [F.bad, F.isNaN, List.any_cons])]]

/-- Witness for C8 at the same concrete NaN input: the amended theorem
applies to it. -/
theorem claim_C8_witness :
    ((GeoJSON.point [F.nan, F.finite 0]).hasNaNOrInf = true) ∧
      (∃ e, UnmarshalGeoJSON (GeoJSON.point [F.nan, F.finite 0]) = .error e) ∧
      UnmarshalGeoJSON (GeoJSON.point [F.nan, F.finite 0]) ≠
        .error .invalidCoordinate :=
  ⟨by simp [GeoJSON.hasNaNOrInf, hasBad1, F.bad, F.isNaN, List.any_cons],
    claim_C8.1 _ (by simp [GeoJSON.hasNaNOrInf, hasBad1, F.bad, F.isNaN, List.any_cons]),
    claim_C8.2 _⟩


/-- A half-edge record of the DCEL arena: `twin`, `next` and `prev` are
positions in the half-edge list (the Go code uses pointers into the same
slice).  The vertex and label fields do not participate in C4's property and
are reduced to the origin coordinate and the intermediate list. -/
structure HalfEdgeRec where
  origin : XY
  intermediate : List XY
  twin : ℕ
  next : ℕ
  prev : ℕ
deriving DecidableEq, Repr, Inhabited

/-- The inner scan of `forEachNonInteractingSegment`: the first index `j`
with `j0 ≤ j < seq.length` whose coordinate is an interaction point.  The Go
`for` loop is bounded, so it is translated with explicit fuel;
`seq.length` fuel always suffices. -/
def findInter (seq inter : List XY) : ℕ → ℕ → Option ℕ
  | 0, _ => none
  | fuel + 1, j =>
    if j < seq.length then
      if seq.getD j ⟨0, 0⟩ ∈ inter then some j
      else findInter seq inter fuel (j + 1)
    else none

/-- The loop of `forEachNonInteractingSegment`, collecting the segments the
callback receives, in order.  When no interaction point follows the cursor
the Go code reads a zero `end` and stops making progress; that degenerate
run (and fuel exhaustion, which the outer call gives enough fuel to avoid)
is modelled as `none`. -/
def fenisGo (seq inter : List XY) : ℕ → ℕ → Option (List (List XY))
  | 0, _ => none
  | fuel + 1, i =>
    if i < seq.length - 1 then
      match findInter seq inter seq.length (i + 1) with
      | none => none
      | some e =>
        match fenisGo seq inter fuel e with
        | none => none
        | some rest => some (((seq.drop i).take (e - i + 1)) :: rest)
    else some []

/-- `forEachNonInteractingSegment`: the list of maximal segments between
consecutive interaction points of `seq`. -/
def fenis (seq inter : List XY) : Option (List (List XY)) :=
  fenisGo seq inter seq.length 0

/-- Twice the signed (shoelace) area of a ring. -/
def signedAreaTwice (pts : List XY) : ℚ :=
  ((pts.zip pts.tail).map (fun p => p.1.cross p.2)).sum

/-- Modelled from the spec: each ring is oriented CCW for exteriors and CW
for holes; a ring already in the wanted orientation is kept, otherwise its
point order is reversed. -/
def forceRing (wantCCW : Bool) (r : LineString) : LineString :=
  if decide (0 ≤ signedAreaTwice r.pts) = wantCCW then r else ⟨r.pts.reverse⟩

/-- Modelled from the spec: `Polygon.ForceCCW`. -/
def Polygon.ForceCCW (p : Polygon) : Polygon :=
  ⟨forceRing true p.exterior, p.interiors.map (forceRing false)⟩

/-- Modelled from the spec: `MultiPolygon.ForceCCW`. -/
def MultiPolygon.ForceCCW (mp : MultiPolygon) : MultiPolygon :=
  ⟨mp.polys.map Polygon.ForceCCW⟩

/-- The half-edge pairs of one ring with the next/prev wiring of the
source's linking loop (`newEdges[i*2+0].next = newEdges[(2*i+2)%numEdges]`
and its three companions), expressed per edge index `j = 2*i + (0 or 1)`:
the `2*i` entry is the internal edge of segment `i`, the `2*i+1` entry the
external edge; `base` is the position of the ring's first edge in the
global half-edge list. -/
def ringHalfEdges (base : ℕ) (segs : List (List XY)) : List HalfEdgeRec :=
  let m := 2 * segs.length
  (List.range m).map (fun j =>
    let seg := segs.getD (j / 2) []
    if j % 2 = 0 then
      { origin := seg.headI, intermediate := (seg.drop 1).dropLast,
        twin := base + j + 1, next := base + (j + 2) % m,
        prev := base + (j + m - 2) % m }
    else
      { origin := seg.getLastI, intermediate := ((seg.drop 1).dropLast).reverse,
        twin := base + j - 1, next := base + (j + m - 2) % m,
        prev := base + (j + 2) % m })

/-- The global half-edge list: each ring's edges appended in order, with the
running offset as each ring's base. -/
def buildRings (base : ℕ) : List (List (List XY)) → List HalfEdgeRec
  | [] => []
  | segs :: rest => ringHalfEdges base segs ++ buildRings (base + 2 * segs.length) rest

/-- The segments of every ring: `none` as soon as one ring's scan fails. -/
def ringSegmentsList (inter : List XY) : List LineString → Option (List (List (List XY)))
  | [] => some []
  | r :: rest =>
    match fenis r.pts inter with
    | none => none
    | some segs =>
      match ringSegmentsList inter rest with
      | none => none
      | some rests => some (segs :: rests)

/-- The half-edge list `newDCELFromMultiPolygon` builds: rings of the
CCW-forced polygons (exterior first, then the holes, polygon by polygon),
segmented at interaction points, each ring wired by the linking loop. -/
def newDCELHalfEdges (mp : MultiPolygon) (inter : List XY) : Option (List HalfEdgeRec) :=
  match ringSegmentsList inter ((MultiPolygon.ForceCCW mp).polys.bind Polygon.rings) with
  | none => none
  | some segLists => some (buildRings 0 segLists)


theorem getD_of_lt {α : Type} (l : List α) (d : α) {n : ℕ} (h : n < l.length) :
    l.getD n d = l.get ⟨n, h⟩ := by
  simp [List.getD_eq_getElem?_getD, List.getElem?_eq_getElem h]

theorem getD_append_lt {α : Type} {l1 l2 : List α} {n : ℕ} (d : α)
    (h : n < l1.length) : (l1 ++ l2).getD n d = l1.getD n d := by
  simp [List.getD_eq_getElem?_getD, List.getElem?_append_left h]

theorem getD_append_ge {α : Type} {l1 l2 : List α} {n : ℕ} (d : α)
    (h : l1.length ≤ n) : (l1 ++ l2).getD n d = l2.getD (n - l1.length) d := by
  simp [List.getD_eq_getElem?_getD, List.getElem?_append_right h]

theorem wire_mod1 {m j : ℕ} (h2 : 2 ≤ m) (hj : j < m) :
    ((j + 2) % m + m - 2) % m = j := by
  have h1 : (j + 2) % m + m - 2 = (j + 2) % m + (m - 2) := by omega
  rw [h1, Nat.mod_add_mod]
  have h3 : j + 2 + (m - 2) = j + m := by omega
  rw [h3, Nat.add_mod_right, Nat.mod_eq_of_lt hj]

theorem wire_mod2 {m j : ℕ} (h2 : 2 ≤ m) (hj : j < m) :
    ((j + m - 2) % m + 2) % m = j := by
  have h1 : j + m - 2 = j + (m - 2) := by omega
  rw [h1, Nat.mod_add_mod]
  have h3 : j + (m - 2) + 2 = j + m := by omega
  rw [h3, Nat.add_mod_right, Nat.mod_eq_of_lt hj]

theorem wire_par1 {m j : ℕ} (hm : m % 2 = 0) (h2 : 2 ≤ m) (hj : j < m) :
    (j + 2) % m % 2 = j % 2 := by
  by_cases h : j + 2 < m
  · rw [Nat.mod_eq_of_lt h]
    omega
  · have hge : m ≤ j + 2 := by omega
    rw [Nat.mod_eq_sub_mod hge]
    have hlt : j + 2 - m < m := by omega
    rw [Nat.mod_eq_of_lt hlt]
    omega

theorem wire_par2 {m j : ℕ} (hm : m % 2 = 0) (h2 : 2 ≤ m) (hj : j < m) :
    (j + m - 2) % m % 2 = j % 2 := by
  by_cases h : j + m - 2 < m
  · rw [Nat.mod_eq_of_lt h]
    omega
  · have hge : m ≤ j + m - 2 := by omega
    rw [Nat.mod_eq_sub_mod hge]
    have hlt : j + m - 2 - m < m := by omega
    rw [Nat.mod_eq_of_lt hlt]
    omega

theorem ringHalfEdges_length (base : ℕ) (segs : List (List XY)) :
    (ringHalfEdges base segs).length = 2 * segs.length := by
  simp [ringHalfEdges]

theorem ringHalfEdges_getD {base : ℕ} {segs : List (List XY)} {j : ℕ}
    (hj : j < 2 * segs.length) (d : HalfEdgeRec) :
    (ringHalfEdges base segs).getD j d =
      (if j % 2 = 0 then
        { origin := (segs.getD (j / 2) []).headI,
          intermediate := ((segs.getD (j / 2) []).drop 1).dropLast,
          twin := base + j + 1, next := base + (j + 2) % (2 * segs.length),
          prev := base + (j + 2 * segs.length - 2) % (2 * segs.length) }
      else
        { origin := (segs.getD (j / 2) []).getLastI,
          intermediate := (((segs.getD (j / 2) []).drop 1).dropLast).reverse,
          twin := base + j - 1,
          next := base + (j + 2 * segs.length - 2) % (2 * segs.length),
          prev := base + (j + 2) % (2 * segs.length) } : HalfEdgeRec) := by
  have hlen : j < (ringHalfEdges base segs).length := by
    rw [ringHalfEdges_length]
    exact hj
  rw [getD_of_lt _ _ hlen]
  unfold ringHalfEdges
  simp

/-- Within one ring the linking loop's next/prev assignments are mutual
inverses, and the pointers stay inside the ring's own block. -/
theorem ring_wire_inv {base : ℕ} {segs : List (List XY)} {j : ℕ}
    (d : HalfEdgeRec) (hj : j < 2 * segs.length) :
    (base ≤ ((ringHalfEdges base segs).getD j d).next ∧
      ((ringHalfEdges base segs).getD j d).next < base + 2 * segs.length) ∧
    (base ≤ ((ringHalfEdges base segs).getD j d).prev ∧
      ((ringHalfEdges base segs).getD j d).prev < base + 2 * segs.length) ∧
    ((ringHalfEdges base segs).getD
        (((ringHalfEdges base segs).getD j d).next - base) d).prev = base + j ∧
    ((ringHalfEdges base segs).getD
        (((ringHalfEdges base segs).getD j d).prev - base) d).next = base + j := by
  have hm2 : 2 ≤ 2 * segs.length := by omega
  have hmod : (2 * segs.length) % 2 = 0 := by omega
  have hb1 : (j + 2) % (2 * segs.length) < 2 * segs.length := Nat.mod_lt _ (by omega)
  have hb2 : (j + 2 * segs.length - 2) % (2 * segs.length) < 2 * segs.length :=
    Nat.mod_lt _ (by omega)
  by_cases hpar : j % 2 = 0
  · have hnx : ((ringHalfEdges base segs).getD j d).next =
        base + (j + 2) % (2 * segs.length) := by
      rw [ringHalfEdges_getD hj]
      simp [hpar]
    have hpv : ((ringHalfEdges base segs).getD j d).prev =
        base + (j + 2 * segs.length - 2) % (2 * segs.length) := by
      rw [ringHalfEdges_getD hj]
      simp [hpar]
    refine ⟨⟨by omega, by omega⟩, ⟨by omega, by omega⟩, ?_, ?_⟩
    · rw [hnx]
      have h4 : base + (j + 2) % (2 * segs.length) - base =
          (j + 2) % (2 * segs.length) := by omega
      rw [h4, ringHalfEdges_getD hb1]
      have hp1 : (j + 2) % (2 * segs.length) % 2 = 0 := by
        rw [wire_par1 hmod hm2 hj]
        exact hpar
      simp only [hp1, if_true, if_pos]
      rw [wire_mod1 hm2 hj]
    · rw [hpv]
      have h4 : base + (j + 2 * segs.length - 2) % (2 * segs.length) - base =
          (j + 2 * segs.length - 2) % (2 * segs.length) := by omega
      rw [h4, ringHalfEdges_getD hb2]
      have hp2 : (j + 2 * segs.length - 2) % (2 * segs.length) % 2 = 0 := by
        rw [wire_par2 hmod hm2 hj]
        exact hpar
      simp only [hp2, if_true, if_pos]
      rw [wire_mod2 hm2 hj]
  · have hnx : ((ringHalfEdges base segs).getD j d).next =
        base + (j + 2 * segs.length - 2) % (2 * segs.length) := by
      rw [ringHalfEdges_getD hj]
      simp [hpar]
    have hpv : ((ringHalfEdges base segs).getD j d).prev =
        base + (j + 2) % (2 * segs.length) := by
      rw [ringHalfEdges_getD hj]
      simp [hpar]
    have hpar1 : j % 2 = 1 := by omega
    refine ⟨⟨by omega, by omega⟩, ⟨by omega, by omega⟩, ?_, ?_⟩
    · rw [hnx]
      have h4 : base + (j + 2 * segs.length - 2) % (2 * segs.length) - base =
          (j + 2 * segs.length - 2) % (2 * segs.length) := by omega
      rw [h4, ringHalfEdges_getD hb2]
      have hp2 : ¬((j + 2 * segs.length - 2) % (2 * segs.length) % 2 = 0) := by
        rw [wire_par2 hmod hm2 hj]
        omega
      simp only [hp2, if_false, if_neg]
      rw [wire_mod2 hm2 hj]
    · rw [hpv]
      have h4 : base + (j + 2) % (2 * segs.length) - base =
          (j + 2) % (2 * segs.length) := by omega
      rw [h4, ringHalfEdges_getD hb1]
      have hp1 : ¬((j + 2) % (2 * segs.length) % 2 = 0) := by
        rw [wire_par1 hmod hm2 hj]
        omega
      simp only [hp1, if_false, if_neg]
      rw [wire_mod1 hm2 hj]

theorem buildRings_length : ∀ (rss : List (List (List XY))) (base : ℕ),
    (buildRings base rss).length = (rss.map (fun s => 2 * s.length)).sum := by
  intro rss
  induction rss with
  | nil => intro base; rfl
  | cons segs rest ih =>
    intro base
    simp [buildRings, ih, ringHalfEdges_length]

/-- Concatenating the wired rings preserves the mutual-inverse property:
every edge's next/prev pointers stay inside the edge list, and following
next then prev (or prev then next) returns to the edge. -/
theorem buildRings_inv : ∀ (rss : List (List (List XY))) (base j : ℕ)
    (d : HalfEdgeRec), j < (buildRings base rss).length →
    (base ≤ ((buildRings base rss).getD j d).next ∧
      ((buildRings base rss).getD j d).next < base + (buildRings base rss).length) ∧
    (base ≤ ((buildRings base rss).getD j d).prev ∧
      ((buildRings base rss).getD j d).prev < base + (buildRings base rss).length) ∧
    ((buildRings base rss).getD
        (((buildRings base rss).getD j d).next - base) d).prev = base + j ∧
    ((buildRings base rss).getD
        (((buildRings base rss).getD j d).prev - base) d).next = base + j := by
  intro rss
  induction rss with
  | nil =>
    intro base j d hj
    simp [buildRings] at hj
  | cons segs rest ih =>
    intro base j d hj
    have hlenb : (buildRings base (segs :: rest)).length =
        2 * segs.length + (buildRings (base + 2 * segs.length) rest).length := by
      rw [show buildRings base (segs :: rest) =
            ringHalfEdges base segs ++ buildRings (base + 2 * segs.length) rest from rfl]
      rw [List.length_append, ringHalfEdges_length]
    by_cases hcase : j < 2 * segs.length
    · have hget : (buildRings base (segs :: rest)).getD j d =
          (ringHalfEdges base segs).getD j d := by
        rw [show buildRings base (segs :: rest) =
              ringHalfEdges base segs ++ buildRings (base + 2 * segs.length) rest from rfl]
        exact getD_append_lt d (by rw [ringHalfEdges_length]; exact hcase)
      obtain ⟨⟨ha1, ha2⟩, ⟨hb1, hb2⟩, hcn, hcp⟩ := @ring_wire_inv base segs j d hcase
      rw [hget]
      have hnn : ((ringHalfEdges base segs).getD j d).next - base < 2 * segs.length := by
        omega
      have hpp : ((ringHalfEdges base segs).getD j d).prev - base < 2 * segs.length := by
        omega
      refine ⟨⟨ha1, by omega⟩, ⟨hb1, by omega⟩, ?_, ?_⟩
      · rw [show buildRings base (segs :: rest) =
              ringHalfEdges base segs ++ buildRings (base + 2 * segs.length) rest from rfl]
        rw [getD_append_lt d (by rw [ringHalfEdges_length]; exact hnn)]
        exact hcn
      · rw [show buildRings base (segs :: rest) =
              ringHalfEdges base segs ++ buildRings (base + 2 * segs.length) rest from rfl]
        rw [getD_append_lt d (by rw [ringHalfEdges_length]; exact hpp)]
        exact hcp
    · have hj2 : j - 2 * segs.length < (buildRings (base + 2 * segs.length) rest).length := by
        omega
      have hget : (buildRings base (segs :: rest)).getD j d =
          (buildRings (base + 2 * segs.length) rest).getD (j - 2 * segs.length) d := by
        rw [show buildRings base (segs :: rest) =
              ringHalfEdges base segs ++ buildRings (base + 2 * segs.length) rest from rfl]
        rw [getD_append_ge d (by rw [ringHalfEdges_length]; omega)]
        rw [ringHalfEdges_length]
      obtain ⟨⟨ha1, ha2⟩, ⟨hb1, hb2⟩, hcn, hcp⟩ :=
        ih (base + 2 * segs.length) (j - 2 * segs.length) d hj2
      rw [hget]
      refine ⟨⟨by omega, by omega⟩, ⟨by omega, by omega⟩, ?_, ?_⟩
      · rw [show buildRings base (segs :: rest) =
              ringHalfEdges base segs ++ buildRings (base + 2 * segs.length) rest from rfl]
        rw [getD_append_ge d (by rw [ringHalfEdges_length]; omega)]
        rw [ringHalfEdges_length]
        have h5 : ((buildRings (base + 2 * segs.length) rest).getD (j - 2 * segs.length) d).next
            - base - 2 * segs.length =
            ((buildRings (base + 2 * segs.length) rest).getD (j - 2 * segs.length) d).next
            - (base + 2 * segs.length) := by omega
        rw [h5, hcn]
        omega
      · rw [show buildRings base (segs :: rest) =
              ringHalfEdges base segs ++ buildRings (base + 2 * segs.length) rest from rfl]
        rw [getD_append_ge d (by rw [ringHalfEdges_length]; omega)]
        rw [ringHalfEdges_length]
        have h5 : ((buildRings (base + 2 * segs.length) rest).getD (j - 2 * segs.length) d).prev
            - base - 2 * segs.length =
            ((buildRings (base + 2 * segs.length) rest).getD (j - 2 * segs.length) d).prev
            - (base + 2 * segs.length) := by omega
        rw [h5, hcp]
        omega


theorem findInter_some : ∀ (fuel j : ℕ) (seq inter : List XY),
    seq.length ≤ fuel + j → j ≤ seq.length - 1 → 1 ≤ seq.length →
    seq.getD (seq.length - 1) ⟨0, 0⟩ ∈ inter →
    ∃ e, findInter seq inter fuel j = some e ∧ j ≤ e ∧ e ≤ seq.length - 1 := by
  intro fuel
  induction fuel with
  | zero =>
    intro j seq inter hf hj h1 hmem
    exact absurd hf (by omega)
  | succ fuel ih =>
    intro j seq inter hf hj h1 hmem
    unfold findInter
    rw [if_pos (by omega : j < seq.length)]
    by_cases hin : seq.getD j ⟨0, 0⟩ ∈ inter
    · rw [if_pos hin]
      exact ⟨j, rfl, le_refl j, hj⟩
    · rw [if_neg hin]
      have hne : j ≠ seq.length - 1 := by
        intro hcon
        rw [hcon] at hin
        exact hin hmem
      obtain ⟨e, he, h1e, h2e⟩ := ih (j + 1) seq inter (by omega) (by omega) h1 hmem
      exact ⟨e, he, by omega, h2e⟩

theorem fenisGo_some : ∀ (fuel i : ℕ) (seq inter : List XY),
    seq.length ≤ fuel + i → 1 ≤ fuel → 1 ≤ seq.length →
    seq.getD (seq.length - 1) ⟨0, 0⟩ ∈ inter →
    ∃ segs, fenisGo seq inter fuel i = some segs := by
  intro fuel
  induction fuel with
  | zero =>
    intro i seq inter hf h1f h1 hmem
    exact absurd h1f (by omega)
  | succ fuel ih =>
    intro i seq inter hf h1f h1 hmem
    unfold fenisGo
    by_cases hcase : i < seq.length - 1
    · rw [if_pos hcase]
      obtain ⟨e, he, h1e, h2e⟩ :=
        findInter_some seq.length (i + 1) seq inter (by omega) (by omega) h1 hmem
      rw [he]
      obtain ⟨rest, hrest⟩ := ih e seq inter (by omega) (by omega) h1 hmem
      dsimp only
      rw [hrest]
      exact ⟨_, rfl⟩
    · rw [if_neg hcase]
      exact ⟨[], rfl⟩

theorem fenis_some {seq inter : List XY} (h1 : 1 ≤ seq.length)
    (hmem : seq.getD (seq.length - 1) ⟨0, 0⟩ ∈ inter) :
    ∃ segs, fenis seq inter = some segs := by
  unfold fenis
  exact fenisGo_some seq.length 0 seq inter (by omega) (by omega) h1 hmem

theorem ringSegmentsList_some : ∀ (rs : List LineString) (inter : List XY),
    (∀ r ∈ rs, 1 ≤ r.pts.length ∧ r.pts.getD (r.pts.length - 1) ⟨0, 0⟩ ∈ inter) →
    ∃ sl, ringSegmentsList inter rs = some sl := by
  intro rs inter
  induction rs with
  | nil => intro _; exact ⟨[], rfl⟩
  | cons r rest ih =>
    intro h
    obtain ⟨h1, hmem⟩ := h r (List.mem_cons_self _ _)
    obtain ⟨segs, hsegs⟩ := fenis_some h1 hmem
    obtain ⟨sl, hsl⟩ := ih (fun x hx => h x (List.mem_cons_of_mem _ hx))
    unfold ringSegmentsList
    rw [hsegs, hsl]
    exact ⟨_, rfl⟩

theorem getD_reverse_last {l : List XY} (h : l ≠ []) :
    l.reverse.getD (l.length - 1) ⟨0, 0⟩ = l.headI := by
  rcases l with _ | ⟨a, t⟩
  · exact absurd rfl h
  · rw [List.reverse_cons]
    rw [getD_append_ge _ (by simp : (t.reverse).length ≤ (a :: t).length - 1)]
    simp

/-- The rings processed by `newDCELFromMultiPolygon` (after `ForceCCW`)
keep the closed-ring hypothesis: each is nonempty with its final
coordinate an interaction point. -/
theorem forced_rings_hyp {mp : MultiPolygon} {inter : List XY}
    (hr : ∀ r ∈ mp.polys.bind Polygon.rings,
      r.pts ≠ [] ∧ r.pts.headI = r.pts.getD (r.pts.length - 1) ⟨0, 0⟩ ∧
        r.pts.headI ∈ inter) :
    ∀ r2 ∈ (MultiPolygon.ForceCCW mp).polys.bind Polygon.rings,
      1 ≤ r2.pts.length ∧ r2.pts.getD (r2.pts.length - 1) ⟨0, 0⟩ ∈ inter := by
  intro r2 h2
  rw [List.mem_bind] at h2
  obtain ⟨p2, hp2, hr2⟩ := h2
  unfold MultiPolygon.ForceCCW at hp2
  rw [List.mem_map] at hp2
  obtain ⟨p, hp, rfl⟩ := hp2
  have hbase : ∃ b r, r ∈ p.rings ∧ r2 = forceRing b r := by
    unfold Polygon.ForceCCW Polygon.rings at hr2
    rcases List.mem_cons.mp hr2 with rfl | hmem
    · exact ⟨true, p.exterior, List.mem_cons_self _ _, rfl⟩
    · rw [List.mem_map] at hmem
      obtain ⟨r, hrm, rfl⟩ := hmem
      exact ⟨false, r, List.mem_cons_of_mem _ hrm, rfl⟩
  obtain ⟨b, r, hrm, rfl⟩ := hbase
  have hro : r ∈ mp.polys.bind Polygon.rings := by
    rw [List.mem_bind]
    exact ⟨p, hp, hrm⟩
  obtain ⟨hne, hcl, hmem⟩ := hr r hro
  have hlen1 : 1 ≤ r.pts.length := by
    rcases r with ⟨_ | ⟨a, t⟩⟩
    · exact absurd rfl hne
    · simp
  unfold forceRing
  by_cases hc : decide (0 ≤ signedAreaTwice r.pts) = b
  · rw [if_pos hc]
    constructor
    · exact hlen1
    · rw [← hcl]
      exact hmem
  · rw [if_neg hc]
    constructor
    · simpa using hlen1
    · have : (r.pts.reverse).length = r.pts.length := by simp
      rw [show (⟨r.pts.reverse⟩ : LineString).pts = r.pts.reverse from rfl, this,
        getD_reverse_last hne]
      exact hmem

/-- C4: under an interactions set containing each ring's first (equal to
last) point, `newDCELFromMultiPolygon` succeeds, the linking loop wires each
ring's even-indexed (internal) edges from index j to (j+2) mod m and its
odd-indexed (external) edges from j to (j-2) mod m (m the ring's edge
count), and globally next/prev are mutual inverses: e.next.prev = e and
e.prev.next = e for every created half-edge. -/
theorem claim_C4 (mp : MultiPolygon) (inter : List XY)
    (hr : ∀ r ∈ mp.polys.bind Polygon.rings,
      r.pts ≠ [] ∧ r.pts.headI = r.pts.getD (r.pts.length - 1) ⟨0, 0⟩ ∧
        r.pts.headI ∈ inter) :
    (∀ (base : ℕ) (segs : List (List XY)) (j : ℕ), j < 2 * segs.length →
      (j % 2 = 0 →
        ((ringHalfEdges base segs).getD j default).next =
          base + (j + 2) % (2 * segs.length)) ∧
      (j % 2 = 1 →
        ((ringHalfEdges base segs).getD j default).next =
          base + (j + 2 * segs.length - 2) % (2 * segs.length))) ∧
    ∃ edges, newDCELHalfEdges mp inter = some edges ∧
      ∀ j < edges.length,
        (edges.getD j default).next < edges.length ∧
        (edges.getD j default).prev < edges.length ∧
        (edges.getD ((edges.getD j default).next) default).prev = j ∧
        (edges.getD ((edges.getD j default).prev) default).next = j := by
  constructor
  · intro base segs j hj
    constructor
    · intro hpar
      rw [ringHalfEdges_getD hj]
      simp [hpar]
    · intro hpar
      rw [ringHalfEdges_getD hj]
      simp [hpar]
  · obtain ⟨sl, hsl⟩ :=
      ringSegmentsList_some ((MultiPolygon.ForceCCW mp).polys.bind Polygon.rings)
        inter (forced_rings_hyp hr)
    refine ⟨buildRings 0 sl, ?_, ?_⟩
    · unfold newDCELHalfEdges
      rw [hsl]
    · intro j hj
      obtain ⟨⟨ha1, ha2⟩, ⟨hb1, hb2⟩, hcn, hcp⟩ := buildRings_inv sl 0 j default hj
      refine ⟨by omega, by omega, ?_, ?_⟩
      · have h0 : ((buildRings 0 sl).getD j default).next =
            ((buildRings 0 sl).getD j default).next - 0 := by omega
        rw [h0, hcn]
        omega
      · have h0 : ((buildRings 0 sl).getD j default).prev =
            ((buildRings 0 sl).getD j default).prev - 0 := by omega
        rw [h0, hcp]
        omega

/-- Witness for C4 at a concrete unit-square MultiPolygon whose corner is
the only interaction point. -/
theorem claim_C4_witness :
    (∀ r ∈ (MultiPolygon.mk [Polygon.mk
        (LineString.mk [⟨0, 0⟩, ⟨1, 0⟩, ⟨1, 1⟩, ⟨0, 1⟩, ⟨0, 0⟩]) []]).polys.bind
          Polygon.rings,
      r.pts ≠ [] ∧ r.pts.headI = r.pts.getD (r.pts.length - 1) ⟨0, 0⟩ ∧
        r.pts.headI ∈ [(⟨0, 0⟩ : XY)]) ∧
    ∃ edges, newDCELHalfEdges (MultiPolygon.mk [Polygon.mk
        (LineString.mk [⟨0, 0⟩, ⟨1, 0⟩, ⟨1, 1⟩, ⟨0, 1⟩, ⟨0, 0⟩]) []])
        [(⟨0, 0⟩ : XY)] = some edges ∧
      ∀ j < edges.length,
        (edges.getD j default).next < edges.length ∧
        (edges.getD j default).prev < edges.length ∧
        (edges.getD ((edges.getD j default).next) default).prev = j ∧
        (edges.getD ((edges.getD j default).prev) default).next = j :=
  ⟨by decide, (claim_C4 _ _ (by decide)).2⟩


/-- The DCEL state that `addGhosts` can touch, at the granularity the claim
compares: the key set of the vertex map (`d.vertices`) and the half-edge
list, each half-edge reduced to the key `edgeSet` stores for it — its start
coordinate, intermediate coordinates, and end coordinate.  (`fixVertex`
only re-sorts a vertex's incident edges, so it moves neither component.) -/
structure GhostDCEL where
  vertices : List XY
  halfEdges : List (XY × List XY × XY)
deriving DecidableEq, Repr

/-- One callback invocation of `addGhosts`: insert the segment's endpoints
into the vertex map when absent, return unchanged when the edge set already
holds the segment's start/intermediate/end key, otherwise record both
directed keys and append the ghost half-edge pair. -/
def addGhostSeg (st : GhostDCEL × List (XY × List XY × XY)) (segment : List XY) :
    GhostDCEL × List (XY × List XY × XY) :=
  let d := st.1
  let edges := st.2
  let startXY := segment.headI
  let endXY := segment.getLastI
  let fwd := (segment.drop 1).dropLast
  let rev := fwd.reverse
  let verts1 := if startXY ∈ d.vertices then d.vertices else d.vertices ++ [startXY]
  let verts2 := if endXY ∈ verts1 then verts1 else verts1 ++ [endXY]
  if (startXY, fwd, endXY) ∈ edges then
    (⟨verts2, d.halfEdges⟩, edges)
  else
    (⟨verts2, d.halfEdges ++ [(startXY, fwd, endXY), (endXY, rev, startXY)]⟩,
      edges ++ [(startXY, fwd, endXY), (endXY, rev, startXY)])

/-- `addGhosts`: seed the edge set from the existing half-edges, then fold
every ghost LineString's non-interacting segments through `addGhostSeg`;
`none` when a segment scan fails (the source would not terminate). -/
def addGhosts (d : GhostDCEL) (mls : MultiLineString) (inter : List XY) :
    Option GhostDCEL :=
  let st0 : GhostDCEL × List (XY × List XY × XY) := (d, d.halfEdges)
  match mls.lines.foldlM (fun st ls =>
      match fenis ls.pts inter with
      | none => none
      | some segs => some (segs.foldl addGhostSeg st)) st0 with
  | none => none
  | some st => some st.1


theorem addGhostSeg_noop {d : GhostDCEL} {s : List XY}
    (hkey : (s.headI, ((s.drop 1).dropLast, s.getLastI)) ∈ d.halfEdges)
    (hv1 : s.headI ∈ d.vertices) (hv2 : s.getLastI ∈ d.vertices) :
    addGhostSeg (d, d.halfEdges) s = (d, d.halfEdges) := by
  unfold addGhostSeg
  dsimp only
  rw [if_pos hv1, if_pos hv2, if_pos hkey]

theorem foldl_ghost_noop {d : GhostDCEL} {segs : List (List XY)}
    (hwf : ∀ e ∈ d.halfEdges, e.1 ∈ d.vertices ∧ e.2.2 ∈ d.vertices)
    (hdup : ∀ s ∈ segs, (s.headI, ((s.drop 1).dropLast, s.getLastI)) ∈ d.halfEdges) :
    segs.foldl addGhostSeg (d, d.halfEdges) = (d, d.halfEdges) := by
  induction segs with
  | nil => rfl
  | cons s rest ih =>
    rw [List.foldl_cons]
    have hkey := hdup s (List.mem_cons_self _ _)
    have hv := hwf _ hkey
    rw [addGhostSeg_noop hkey hv.1 hv.2]
    exact ih (fun x hx => hdup x (List.mem_cons_of_mem _ hx))

/-- C7: when every ghost segment duplicates, start for start, intermediate
for intermediate and end for end, a half-edge already present, `addGhosts`
leaves the DCEL unchanged: same vertex map, same half-edge list.  The
well-formedness hypothesis (each half-edge's endpoints are in the vertex
map) reflects how every constructor populates the map. -/
theorem claim_C7 (d : GhostDCEL) (mls : MultiLineString) (inter : List XY)
    (hwf : ∀ e ∈ d.halfEdges, e.1 ∈ d.vertices ∧ e.2.2 ∈ d.vertices)
    (hdup : ∀ ls ∈ mls.lines, ∃ segs, fenis ls.pts inter = some segs ∧
      ∀ s ∈ segs, (s.headI, ((s.drop 1).dropLast, s.getLastI)) ∈ d.halfEdges) :
    addGhosts d mls inter = some d := by
  unfold addGhosts
  dsimp only
  have hfold : ∀ (lss : List LineString),
      (∀ ls ∈ lss, ∃ segs, fenis ls.pts inter = some segs ∧
        ∀ s ∈ segs, (s.headI, ((s.drop 1).dropLast, s.getLastI)) ∈ d.halfEdges) →
      lss.foldlM (fun st ls =>
        match fenis ls.pts inter with
        | none => none
        | some segs => some (segs.foldl addGhostSeg st))
        ((d, d.halfEdges) : GhostDCEL × List (XY × List XY × XY)) =
        some (d, d.halfEdges) := by
    intro lss
    induction lss with
    | nil => intro _; rfl
    | cons ls rest ih =>
      intro h
      obtain ⟨segs, hsegs, hkeys⟩ := h ls (List.mem_cons_self _ _)
      rw [List.foldlM_cons, hsegs]
      dsimp only
      rw [foldl_ghost_noop hwf hkeys]
      exact ih (fun x hx => h x (List.mem_cons_of_mem _ hx))
  rw [hfold mls.lines hdup]

/-- Witness for C7: a DCEL with one half-edge pair and a ghost that
duplicates it exactly. -/
theorem claim_C7_witness :
    (∀ e ∈ (GhostDCEL.mk [⟨0, 0⟩, ⟨1, 0⟩]
        [(⟨0, 0⟩, ([], ⟨1, 0⟩)), (⟨1, 0⟩, ([], ⟨0, 0⟩))]).halfEdges,
      e.1 ∈ (GhostDCEL.mk [⟨0, 0⟩, ⟨1, 0⟩]
        [(⟨0, 0⟩, ([], ⟨1, 0⟩)), (⟨1, 0⟩, ([], ⟨0, 0⟩))]).vertices ∧
      e.2.2 ∈ (GhostDCEL.mk [⟨0, 0⟩, ⟨1, 0⟩]
        [(⟨0, 0⟩, ([], ⟨1, 0⟩)), (⟨1, 0⟩, ([], ⟨0, 0⟩))]).vertices) ∧
    addGhosts (GhostDCEL.mk [⟨0, 0⟩, ⟨1, 0⟩]
        [(⟨0, 0⟩, ([], ⟨1, 0⟩)), (⟨1, 0⟩, ([], ⟨0, 0⟩))])
      (MultiLineString.mk [LineString.mk [⟨0, 0⟩, ⟨1, 0⟩]])
      [⟨0, 0⟩, ⟨1, 0⟩] =
      some (GhostDCEL.mk [⟨0, 0⟩, ⟨1, 0⟩]
        [(⟨0, 0⟩, ([], ⟨1, 0⟩)), (⟨1, 0⟩, ([], ⟨0, 0⟩))]) :=
  ⟨by decide, claim_C7 _ _ _ (by decide) (by
    intro ls hls
    have hls2 : ls = LineString.mk [⟨0, 0⟩, ⟨1, 0⟩] := by simpa using hls
    subst hls2
    exact ⟨[[⟨0, 0⟩, ⟨1, 0⟩]], by decide, by decide⟩)⟩


/-- An axis-aligned box of the R-tree (`rtree.Box`, modelled from the spec:
the type is not among the staged files). -/
structure Box where
  MinX : ℚ
  MinY : ℚ
  MaxX : ℚ
  MaxY : ℚ
deriving DecidableEq, Repr, Inhabited

/-- Modelled from the spec: `combine` is the smallest box covering both. -/
def combine (b1 b2 : Box) : Box :=
  ⟨min b1.MinX b2.MinX, min b1.MinY b2.MinY, max b1.MaxX b2.MaxX, max b1.MaxY b2.MaxY⟩

/-- `rtree.BulkItem`. -/
structure BulkItem where
  Box : Box
  RecordID : ℤ
deriving DecidableEq, Repr, Inhabited

/-- The default item used by out-of-range list reads. -/
def dB : BulkItem := default

/-- The sort key of `bulkItems.Less`: the doubled box midpoint on the
selected axis. -/
def key (horizontal : Bool) (it : BulkItem) : ℚ :=
  if horizontal then it.Box.MinX + it.Box.MaxX else it.Box.MinY + it.Box.MaxY

/-- The enclosing bound of `buildBulkItems`: the first item's box combined
with every following box. -/
def boundOf (items : List BulkItem) : Box :=
  items.tail.foldl (fun b it => combine b it.Box) items.headI.Box

/-- The `horizontal` flag of `buildBulkItems`. -/
def horizontalOf (items : List BulkItem) : Bool :=
  decide ((boundOf items).MaxY - (boundOf items).MinY <
    (boundOf items).MaxX - (boundOf items).MinX)

/-- The linear congruential generator of `quickPartition`. -/
def lcg (st : ℕ) : ℕ := (1664525 * st + 1013904223) % 4294967296

/-- `items.Swap(i, j)` on the list representation. -/
def lswap (a : List BulkItem) (i j : ℕ) : List BulkItem :=
  (a.set i (a.getD j dB)).set j (a.getD i dB)

/-- The inner partition loop of `quickPartition` (`for i := left; i <=
right; ...`): `i` counts up with fuel, `j` is the store index, the pivot
sits at `right`; returns the mutated list and the final `j`. -/
def lomutoGo (h : Bool) (right : ℕ) : ℕ → ℕ → ℕ → List BulkItem → List BulkItem × ℕ
  | 0, _, j, a => (a, j)
  | fuel + 1, i, j, a =>
    if i ≤ right then
      if decide (key h (a.getD i dB) < key h (a.getD right dB)) then
        lomutoGo h right fuel (i + 1) (j + 1) (lswap a i j)
      else lomutoGo h right fuel (i + 1) j a
    else (a, j)

/-- The outer loop of `quickPartition`: pick the LCG pivot, move it to
`right`, run the partition pass, restore the pivot to `j`, then recurse
into whichever side still holds the `k`-th element.  The loop strictly
shrinks the window, so `a.length` fuel always suffices. -/
def qpGo (h : Bool) : ℕ → ℕ → ℕ → ℕ → ℕ → List BulkItem → List BulkItem
  | 0, _, _, _, _, a => a
  | fuel + 1, left, right, k, st, a =>
    let st2 := lcg st
    let pivot := left + st2 % (right - left + 1)
    let a1 := lswap a pivot right
    let lr := lomutoGo h right (right + 1 - left) left left a1
    let a3 := lswap lr.1 right lr.2
    if lr.2 - left < k then qpGo h fuel (lr.2 + 1) right (k - (lr.2 - left + 1)) st2 a3
    else if k < lr.2 - left then qpGo h fuel left (lr.2 - 1) k st2 a3
    else a3

/-- `quickPartition` on the whole list. -/
def quickPartition (h : Bool) (a : List BulkItem) (k : ℕ) : List BulkItem :=
  qpGo h a.length 0 (a.length - 1) k 0 a

/-- `splitBulkItems2Ways`. -/
def splitBulkItems2Ways (items : List BulkItem) : List BulkItem × List BulkItem :=
  let res := quickPartition (horizontalOf items) items (items.length / 2)
  (res.take (items.length / 2), res.drop (items.length / 2))

/-- `splitBulkItems3Ways`: partition at 2 on the whole list, then at 1 on
the reslice dropping the first three entries (the axis flag computed once). -/
def splitBulkItems3Ways (items : List BulkItem) :
    List BulkItem × List BulkItem × List BulkItem :=
  let r1 := quickPartition (horizontalOf items) items 2
  let r2 := r1.take 3 ++ quickPartition (horizontalOf items) (r1.drop 3) 1
  (r2.take 2, (r2.drop 2).take 2, r2.drop 4)

/-- The parts a non-leaf `bulkInsert` step hands to `bulkNode`. -/
def bulkSplit (items : List BulkItem) : List (List BulkItem) :=
  if items.length < 6 then
    [(splitBulkItems2Ways items).1, (splitBulkItems2Ways items).2]
  else if items.length < 8 then
    [(splitBulkItems3Ways items).1, (splitBulkItems3Ways items).2.1,
      (splitBulkItems3Ways items).2.2]
  else
    [(splitBulkItems2Ways (splitBulkItems2Ways items).1).1,
      (splitBulkItems2Ways (splitBulkItems2Ways items).1).2,
      (splitBulkItems2Ways (splitBulkItems2Ways items).2).1,
      (splitBulkItems2Ways (splitBulkItems2Ways items).2).2]

/-- The bulk-loaded tree shape. -/
inductive RNode where
  | leaf : List BulkItem → RNode
  | internal : List RNode → RNode

/-- `bulkInsert`: a leaf at the last level, otherwise the node over the
recursively loaded parts of `bulkSplit`. -/
def bulkInsert : ℕ → List BulkItem → RNode
  | 0, items => .leaf items
  | 1, items => .leaf items
  | n + 2, items => .internal ((bulkSplit items).map (bulkInsert (n + 1)))

theorem length_lswap (a : List BulkItem) (i j : ℕ) :
    (lswap a i j).length = a.length := by
  simp [lswap]

theorem getD_lswap_other {a : List BulkItem} {i j t : ℕ} (hti : t ≠ i)
    (htj : t ≠ j) : (lswap a i j).getD t dB = a.getD t dB := by
  simp [lswap, List.getD_eq_getElem?_getD,
    List.getElem?_set_ne (Ne.symm htj), List.getElem?_set_ne (Ne.symm hti)]

theorem getD_lswap_left {a : List BulkItem} {i j : ℕ} (hi : i < a.length)
    (hj : j < a.length) : (lswap a i j).getD i dB = a.getD j dB := by
  by_cases hij : i = j
  · subst hij
    simp [lswap, List.getD_eq_getElem?_getD, List.getElem?_set_self hi,
      List.getElem?_set_self (by simpa using hi : i < (a.set i (a.getD i dB)).length)]
  · simp [lswap, List.getD_eq_getElem?_getD,
      List.getElem?_set_ne (Ne.symm hij),
      List.getElem?_set_self hi]

theorem getD_lswap_right {a : List BulkItem} {i j : ℕ} (hj : j < a.length) :
    (lswap a i j).getD j dB = a.getD i dB := by
  unfold lswap
  rw [List.getD_eq_getElem?_getD]
  rw [List.getElem?_set_self (by simpa using hj)]
  rfl

theorem count_set {l : List BulkItem} : ∀ {n : ℕ}, n < l.length → ∀ (y x : BulkItem),
    (l.set n y).count x + (if l.getD n dB = x then 1 else 0) =
      l.count x + (if y = x then 1 else 0) := by
  induction l with
  | nil => intro n hn; simp at hn
  | cons a t ih =>
    intro n hn y x
    cases n with
    | zero =>
      simp only [List.set_cons_zero, List.getD_cons_zero, List.count_cons,
        beq_iff_eq]
      omega
    | succ n =>
      simp only [List.set_cons_succ, List.getD_cons_succ, List.count_cons,
        beq_iff_eq]
      have := ih (by simpa using hn) y x
      omega

theorem lswap_perm {a : List BulkItem} {i j : ℕ} (hi : i < a.length)
    (hj : j < a.length) : (lswap a i j).Perm a := by
  rw [List.perm_iff_count]
  intro x
  have h1 := @count_set a i hi (a.getD j dB) x
  have hj2 : j < (a.set i (a.getD j dB)).length := by simpa using hj
  have h2 := @count_set (a.set i (a.getD j dB)) j hj2 (a.getD i dB) x
  have h3 : (a.set i (a.getD j dB)).getD j dB = a.getD j dB ∨
      ((a.set i (a.getD j dB)).getD j dB = a.getD j dB ∧ i = j) ∨
      (a.set i (a.getD j dB)).getD j dB = a.getD j dB := by
    by_cases hij : i = j
    · subst hij
      left
      simp [List.getD_eq_getElem?_getD, List.getElem?_set_self hi]
    · left
      simp [List.getD_eq_getElem?_getD, List.getElem?_set_ne hij]
  have h4 : (a.set i (a.getD j dB)).getD j dB = a.getD j dB := by
    rcases h3 with h | ⟨h, _⟩ | h <;> exact h
  rw [h4] at h2
  unfold lswap
  omega

/-- Full specification of the partition pass: sizes and window untouched
outside `[j, right)`, the result is a permutation, the store index ends in
`[L, right]`, elements of `[L, j')` compare below the pivot and elements of
`[j', right)` do not, and any pointwise property of the window survives. -/
theorem lomutoGo_spec (h : Bool) (right L : ℕ) : ∀ (fuel i j : ℕ) (a : List BulkItem),
    right < a.length → right + 1 ≤ fuel + i → L ≤ j → j ≤ i → j ≤ right → L ≤ i →
    (∀ t, L ≤ t → t < j → key h (a.getD t dB) < key h (a.getD right dB)) →
    (∀ t, j ≤ t → t < i → ¬ key h (a.getD t dB) < key h (a.getD right dB)) →
    ((lomutoGo h right fuel i j a).1.length = a.length ∧
     L ≤ (lomutoGo h right fuel i j a).2 ∧
     (lomutoGo h right fuel i j a).2 ≤ right ∧
     (∀ t, t < j ∨ right ≤ t →
       (lomutoGo h right fuel i j a).1.getD t dB = a.getD t dB) ∧
     (lomutoGo h right fuel i j a).1.Perm a ∧
     (∀ t, L ≤ t → t < (lomutoGo h right fuel i j a).2 →
       key h ((lomutoGo h right fuel i j a).1.getD t dB) <
         key h ((lomutoGo h right fuel i j a).1.getD right dB)) ∧
     (∀ t, (lomutoGo h right fuel i j a).2 ≤ t → t < right →
       ¬ key h ((lomutoGo h right fuel i j a).1.getD t dB) <
         key h ((lomutoGo h right fuel i j a).1.getD right dB)) ∧
     (∀ (Q : BulkItem → Prop), (∀ t, L ≤ t → t ≤ right → Q (a.getD t dB)) →
       ∀ t, L ≤ t → t ≤ right → Q ((lomutoGo h right fuel i j a).1.getD t dB))) := by
  intro fuel
  induction fuel with
  | zero =>
    intro i j a hlen hfuel hLj hji hjr hLi hinv1 hinv2
    refine ⟨rfl, hLj, hjr, fun t _ => rfl, List.Perm.refl _, hinv1, ?_, fun Q hQ => hQ⟩
    intro t hjt htr
    exact hinv2 t hjt (by omega)
  | succ fuel ih =>
    intro i j a hlen hfuel hLj hji hjr hLi hinv1 hinv2
    unfold lomutoGo
    by_cases hir : i ≤ right
    · rw [if_pos hir]
      by_cases hcmp : key h (a.getD i dB) < key h (a.getD right dB)
      · rw [if_pos (decide_eq_true hcmp)]
        have hilt : i < right := by
          rcases Nat.lt_or_ge i right with hlt | hge
          · exact hlt
          · have : i = right := by omega
            rw [this] at hcmp
            exact absurd hcmp (lt_irrefl _)
        have hinetr : i ≠ right := by omega
        have hjner : j ≠ right := by omega
        have hilen : i < a.length := by omega
        have hjlen : j < a.length := by omega
        have hpivot : (lswap a i j).getD right dB = a.getD right dB :=
          getD_lswap_other (by omega) (by omega)
        have hrec := ih (i + 1) (j + 1) (lswap a i j)
          (by rw [length_lswap]; exact hlen) (by omega) (by omega) (by omega)
          (by omega) (by omega)
          (by
            intro t hLt htj
            rw [hpivot]
            by_cases htj2 : t < j
            · rw [getD_lswap_other (by omega) (by omega)]
              exact hinv1 t hLt htj2
            · have hteq : t = j := by omega
              rw [hteq, getD_lswap_right hjlen]
              exact hcmp)
          (by
            intro t hjt hti
            rw [hpivot]
            by_cases hti2 : t < i
            · rw [getD_lswap_other (by omega) (by omega)]
              exact hinv2 t (by omega) hti2
            · have hteq : t = i := by omega
              rw [hteq, getD_lswap_left hilen hjlen]
              by_cases hjeq : j = i
              · exact absurd hjt (by omega)
              · exact hinv2 j (le_refl j) (by omega))
        obtain ⟨r1, r2, r3, r4, r5, r6, r7, r8⟩ := hrec
        refine ⟨by rw [r1, length_lswap], r2, r3, ?_, ?_, r6, r7, ?_⟩
        · intro t ht
          rw [r4 t (by omega)]
          rcases ht with ht | ht
          · exact getD_lswap_other (by omega) (by omega)
          · exact getD_lswap_other (by omega) (by omega)
        · exact r5.trans (lswap_perm hilen hjlen)
        · intro Q hQ
          refine r8 Q ?_
          intro t hLt htr
          by_cases hti : t = i
          · subst hti
            rw [getD_lswap_left hilen hjlen]
            exact hQ j hLj (by omega)
          · by_cases htj : t = j
            · subst htj
              rw [getD_lswap_right hjlen]
              exact hQ i hLi (by omega)
            · rw [getD_lswap_other hti htj]
              exact hQ t hLt htr
      · rw [if_neg (by simpa using hcmp)]
        have hrec := ih (i + 1) j a hlen (by omega) hLj (by omega) hjr (by omega)
          hinv1
          (by
            intro t hjt hti
            by_cases hti2 : t < i
            · exact hinv2 t hjt hti2
            · have : t = i := by omega
              subst this
              exact hcmp)
        exact hrec
    · rw [if_neg hir]
      refine ⟨rfl, hLj, hjr, fun t _ => rfl, List.Perm.refl _, hinv1, ?_, fun Q hQ => hQ⟩
      intro t hjt htr
      exact hinv2 t hjt (by omega)

/-- Full specification of `quickPartition`'s outer loop: the result is a
permutation that only moves elements inside the window, preserves pointwise
window properties, and is partially partitioned: every element at or below
position `left+k` compares at most every element at or above it. -/
theorem qpGo_spec (h : Bool) : ∀ (fuel left right k st : ℕ) (a : List BulkItem),
    right < a.length → left + k ≤ right → right - left < fuel →
    ((qpGo h fuel left right k st a).length = a.length ∧
     (qpGo h fuel left right k st a).Perm a ∧
     (∀ t, t < left ∨ right < t →
       (qpGo h fuel left right k st a).getD t dB = a.getD t dB) ∧
     (∀ (Q : BulkItem → Prop), (∀ t, left ≤ t → t ≤ right → Q (a.getD t dB)) →
       ∀ t, left ≤ t → t ≤ right → Q ((qpGo h fuel left right k st a).getD t dB)) ∧
     (∀ i2 j2, left ≤ i2 → i2 ≤ left + k → left + k ≤ j2 → j2 ≤ right →
       key h ((qpGo h fuel left right k st a).getD i2 dB) ≤
         key h ((qpGo h fuel left right k st a).getD j2 dB))) := by
  intro fuel
  induction fuel with
  | zero =>
    intro left right k st a hlen hkr hfuel
    exact absurd hfuel (by omega)
  | succ fuel ih =>
    intro left right k st a hlen hkr hfuel
    unfold qpGo
    dsimp only
    set p := left + lcg st % (right - left + 1) with hpdef
    set a1 := lswap a p right with ha1def
    set lr := lomutoGo h right (right + 1 - left) left left a1 with hlrdef
    set a3 := lswap lr.1 right lr.2 with ha3def
    have hlr2 : left ≤ right := by omega
    have hmodlt : lcg st % (right - left + 1) < right - left + 1 :=
      Nat.mod_lt _ (by omega)
    have hpr : p ≤ right := by omega
    have hpl : left ≤ p := by omega
    have hplen : p < a.length := by omega
    have ha1len : a1.length = a.length := length_lswap a p right
    obtain ⟨s1, s2, s3, s4, s5, s6, s7, s8⟩ :=
      lomutoGo_spec h right left (right + 1 - left) left left a1
        (by omega) (by omega) (le_refl left) (le_refl left) hlr2 (le_refl left)
        (fun t h1 h2 => absurd h2 (by omega))
        (fun t h1 h2 => absurd h2 (by omega))
    have hjr : lr.2 ≤ right := s3
    have hjl : left ≤ lr.2 := s2
    have hlr1len : lr.1.length = a.length := by rw [s1, ha1len]
    have hrlen1 : right < lr.1.length := by omega
    have hjlen1 : lr.2 < lr.1.length := by omega
    have ha3len : a3.length = a.length := by
      rw [ha3def, length_lswap, hlr1len]
    have ha3perm : a3.Perm a := by
      rw [ha3def]
      exact (lswap_perm hrlen1 hjlen1).trans (s5.trans (lswap_perm hplen hlen))
    have hpivotval : a3.getD lr.2 dB = lr.1.getD right dB := by
      rw [ha3def]
      exact getD_lswap_right hjlen1
    have hlow : ∀ t, left ≤ t → t < lr.2 →
        key h (a3.getD t dB) < key h (lr.1.getD right dB) := by
      intro t h1 h2
      rw [ha3def, getD_lswap_other (by omega) (by omega)]
      exact s6 t h1 h2
    have hhigh : ∀ t, lr.2 ≤ t → t ≤ right →
        key h (lr.1.getD right dB) ≤ key h (a3.getD t dB) := by
      intro t h1 h2
      by_cases hteqj : t = lr.2
      · rw [hteqj, hpivotval]
      · by_cases hteqr : t = right
        · have hjltr : lr.2 < right := by omega
          rw [hteqr, ha3def, getD_lswap_left hrlen1 hjlen1]
          exact not_lt.mp (s7 lr.2 (le_refl _) hjltr)
        · rw [ha3def, getD_lswap_other hteqr hteqj]
          exact not_lt.mp (s7 t h1 (by omega))
    have hout : ∀ t, t < left ∨ right < t → a3.getD t dB = a.getD t dB := by
      intro t ht
      have h1 : t ≠ right := by omega
      have h2 : t ≠ lr.2 := by omega
      have h3 : t ≠ p := by omega
      rw [ha3def, getD_lswap_other h1 h2, s4 t (by omega), ha1def,
        getD_lswap_other h3 h1]
    have hQ3 : ∀ (Q : BulkItem → Prop), (∀ t, left ≤ t → t ≤ right → Q (a.getD t dB)) →
        ∀ t, left ≤ t → t ≤ right → Q (a3.getD t dB) := by
      intro Q hQ
      have hQ1 : ∀ t, left ≤ t → t ≤ right → Q (a1.getD t dB) := by
        intro t h1 h2
        by_cases htp : t = p
        · rw [htp, ha1def, getD_lswap_left hplen hlen]
          exact hQ right hlr2 (le_refl _)
        · by_cases htr : t = right
          · rw [htr, ha1def, getD_lswap_right hlen]
            exact hQ p hpl hpr
          · rw [ha1def, getD_lswap_other htp htr]
            exact hQ t h1 h2
      have hQ2 := s8 Q hQ1
      intro t h1 h2
      by_cases htr : t = right
      · rw [htr, ha3def, getD_lswap_left hrlen1 hjlen1]
        exact hQ2 lr.2 hjl hjr
      · by_cases htj : t = lr.2
        · rw [htj, hpivotval]
          exact hQ2 right hlr2 (le_refl _)
        · rw [ha3def, getD_lswap_other htr htj]
          exact hQ2 t h1 h2
    by_cases hc1 : lr.2 - left < k
    · rw [if_pos hc1]
      obtain ⟨t1, t2, t3, t4, t5⟩ :=
        ih (lr.2 + 1) right (k - (lr.2 - left + 1)) (lcg st) a3
          (by omega) (by omega) (by omega)
      refine ⟨by rw [t1, ha3len], t2.trans ha3perm, ?_, ?_, ?_⟩
      · intro t ht
        rw [t3 t (by omega)]
        exact hout t ht
      · intro Q hQ t h1 h2
        have hQ3' := hQ3 Q hQ
        by_cases hcase : t ≤ lr.2
        · rw [t3 t (by omega)]
          exact hQ3' t h1 h2
        · exact t4 Q (fun u hu1 hu2 => hQ3' u (by omega) hu2) t (by omega) h2
      · intro i2 j2 h1 h2 h3 h4
        have hK : lr.2 + 1 ≤ left + k := by omega
        by_cases hi2 : i2 ≤ lr.2
        · have hle1 : key h (a3.getD i2 dB) ≤ key h (lr.1.getD right dB) := by
            by_cases hi2j : i2 = lr.2
            · rw [hi2j, hpivotval]
            · exact le_of_lt (hlow i2 h1 (by omega))
          have hge2 : key h (lr.1.getD right dB) ≤
              key h ((qpGo h fuel (lr.2 + 1) right (k - (lr.2 - left + 1))
                (lcg st) a3).getD j2 dB) :=
            t4 (fun x => key h (lr.1.getD right dB) ≤ key h x)
              (fun u hu1 hu2 => hhigh u (by omega) hu2) j2 (by omega) h4
          rw [t3 i2 (by omega)]
          exact le_trans hle1 hge2
        · exact t5 i2 j2 (by omega) (by omega) (by omega) h4
    · rw [if_neg hc1]
      by_cases hc2 : k < lr.2 - left
      · rw [if_pos hc2]
        have hjge : left + 1 ≤ lr.2 := by omega
        obtain ⟨t1, t2, t3, t4, t5⟩ :=
          ih left (lr.2 - 1) k (lcg st) a3 (by omega) (by omega) (by omega)
        refine ⟨by rw [t1, ha3len], t2.trans ha3perm, ?_, ?_, ?_⟩
        · intro t ht
          rw [t3 t (by omega)]
          exact hout t ht
        · intro Q hQ t h1 h2
          have hQ3' := hQ3 Q hQ
          by_cases hcase : t ≤ lr.2 - 1
          · exact t4 Q (fun u hu1 hu2 => hQ3' u hu1 (by omega)) t h1 hcase
          · rw [t3 t (by omega)]
            exact hQ3' t h1 h2
        · intro i2 j2 h1 h2 h3 h4
          by_cases hj2 : j2 ≤ lr.2 - 1
          · exact t5 i2 j2 h1 h2 h3 hj2
          · have hge : key h (lr.1.getD right dB) ≤ key h (a3.getD j2 dB) :=
              hhigh j2 (by omega) h4
            have hri : key h ((qpGo h fuel left (lr.2 - 1) k (lcg st) a3).getD i2 dB) ≤
                key h (lr.1.getD right dB) :=
              t4 (fun x => key h x ≤ key h (lr.1.getD right dB))
                (fun u hu1 hu2 => le_of_lt (hlow u hu1 (by omega))) i2 h1 (by omega)
            rw [t3 j2 (by omega)]
            exact le_trans hri hge
      · rw [if_neg hc2]
        have hKeq : left + k = lr.2 := by omega
        refine ⟨ha3len, ha3perm, hout, hQ3, ?_⟩
        intro i2 j2 h1 h2 h3 h4
        have hle1 : key h (a3.getD i2 dB) ≤ key h (lr.1.getD right dB) := by
          by_cases hi2j : i2 = lr.2
          · rw [hi2j, hpivotval]
          · exact le_of_lt (hlow i2 h1 (by omega))
        have hge2 : key h (lr.1.getD right dB) ≤ key h (a3.getD j2 dB) :=
          hhigh j2 (by omega) h4
        exact le_trans hle1 hge2

theorem quickPartition_spec (h : Bool) (a : List BulkItem) (k : ℕ)
    (hne : a ≠ []) (hk : k ≤ a.length - 1) :
    (quickPartition h a k).length = a.length ∧
    (quickPartition h a k).Perm a ∧
    ∀ i2 j2, i2 ≤ k → k ≤ j2 → j2 ≤ a.length - 1 →
      key h ((quickPartition h a k).getD i2 dB) ≤
        key h ((quickPartition h a k).getD j2 dB) := by
  have hlen : 1 ≤ a.length := List.length_pos.mpr hne
  obtain ⟨t1, t2, t3, t4, t5⟩ :=
    qpGo_spec h a.length 0 (a.length - 1) k 0 a (by omega) (by omega) (by omega)
  exact ⟨t1, t2, fun i2 j2 h1 h2 h3 => t5 i2 j2 (by omega) (by omega) (by omega) h3⟩

theorem mem_take_getD {l : List BulkItem} {m : ℕ} {x : BulkItem}
    (hx : x ∈ l.take m) : ∃ i, i < m ∧ i < l.length ∧ l.getD i dB = x := by
  rw [List.mem_iff_getElem] at hx
  obtain ⟨i, hi, hgx⟩ := hx
  have hi2 : i < m ∧ i < l.length := by
    have := hi
    rw [List.length_take] at this
    omega
  refine ⟨i, hi2.1, hi2.2, ?_⟩
  rw [getD_of_lt _ _ hi2.2]
  rw [← hgx]
  exact (List.getElem_take l).symm

theorem mem_drop_getD {l : List BulkItem} {m : ℕ} {x : BulkItem}
    (hx : x ∈ l.drop m) : ∃ i, m ≤ i ∧ i < l.length ∧ l.getD i dB = x := by
  rw [List.mem_iff_getElem] at hx
  obtain ⟨i, hi, hgx⟩ := hx
  have hi2 : m + i < l.length := by
    have := hi
    rw [List.length_drop] at this
    omega
  refine ⟨m + i, by omega, hi2, ?_⟩
  rw [getD_of_lt _ _ hi2]
  rw [← hgx]
  exact (List.getElem_drop l).symm

theorem getD_mem {l : List BulkItem} {t : ℕ} (h : t < l.length) :
    l.getD t dB ∈ l := by
  rw [getD_of_lt _ _ h]
  exact List.get_mem l t h

theorem getD_take_lt {l : List BulkItem} {n t : ℕ} (h : t < n) :
    (l.take n).getD t dB = l.getD t dB := by
  simp [List.getD_eq_getElem?_getD, List.getElem?_take, h]

theorem getD_drop {l : List BulkItem} {n t : ℕ} :
    (l.drop n).getD t dB = l.getD (n + t) dB := by
  simp [List.getD_eq_getElem?_getD, List.getElem?_drop]

theorem splitBulkItems2Ways_spec (items : List BulkItem) (hne : items ≠ []) :
    (splitBulkItems2Ways items).1.length = items.length / 2 ∧
    (splitBulkItems2Ways items).2.length = items.length - items.length / 2 ∧
    ((splitBulkItems2Ways items).1 ++ (splitBulkItems2Ways items).2).Perm items ∧
    ∀ x ∈ (splitBulkItems2Ways items).1, ∀ y ∈ (splitBulkItems2Ways items).2,
      key (horizontalOf items) x ≤ key (horizontalOf items) y := by
  have hN : 1 ≤ items.length := List.length_pos.mpr hne
  have hk : items.length / 2 ≤ items.length - 1 := by omega
  obtain ⟨q1, q2, q3⟩ :=
    quickPartition_spec (horizontalOf items) items (items.length / 2) hne hk
  unfold splitBulkItems2Ways
  dsimp only
  refine ⟨?_, ?_, ?_, ?_⟩
  · rw [List.length_take, q1]
    omega
  · rw [List.length_drop, q1]
  · rw [List.take_append_drop]
    exact q2
  · intro x hx y hy
    obtain ⟨i, hi1, hi2, hieq⟩ := mem_take_getD hx
    obtain ⟨j, hj1, hj2, hjeq⟩ := mem_drop_getD hy
    rw [q1] at hi2 hj2
    rw [← hieq, ← hjeq]
    exact q3 i j (by omega) (by omega) (by omega)

theorem splitBulkItems3Ways_spec (items : List BulkItem)
    (hlen : items.length = 6 ∨ items.length = 7) :
    (splitBulkItems3Ways items).1.length = 2 ∧
    (splitBulkItems3Ways items).2.1.length = 2 ∧
    (splitBulkItems3Ways items).2.2.length = items.length - 4 ∧
    ((splitBulkItems3Ways items).1 ++
      ((splitBulkItems3Ways items).2.1 ++ (splitBulkItems3Ways items).2.2)).Perm items ∧
    (∀ x ∈ (splitBulkItems3Ways items).1,
      ∀ y ∈ (splitBulkItems3Ways items).2.1 ++ (splitBulkItems3Ways items).2.2,
        key (horizontalOf items) x ≤ key (horizontalOf items) y) ∧
    (∀ x ∈ (splitBulkItems3Ways items).2.1, ∀ y ∈ (splitBulkItems3Ways items).2.2,
      key (horizontalOf items) x ≤ key (horizontalOf items) y) := by
  have hN : 6 ≤ items.length := by omega
  have hne : items ≠ [] := by
    intro hcon
    rw [hcon] at hN
    simp at hN
  obtain ⟨q1, q2, q3⟩ :=
    quickPartition_spec (horizontalOf items) items 2 hne (by omega)
  set r1 := quickPartition (horizontalOf items) items 2 with hr1def
  have hd3len : (r1.drop 3).length = items.length - 3 := by
    rw [List.length_drop, q1]
  have hd3ne : r1.drop 3 ≠ [] := by
    intro hcon
    rw [hcon] at hd3len
    simp at hd3len
    omega
  obtain ⟨w1, w2, w3⟩ :=
    quickPartition_spec (horizontalOf items) (r1.drop 3) 1 hd3ne (by omega)
  set q := quickPartition (horizontalOf items) (r1.drop 3) 1 with hqdef
  have hqlen : q.length = items.length - 3 := by rw [w1, hd3len]
  have htake3 : (r1.take 3).length = 3 := by
    rw [List.length_take, q1]
    omega
  set r2 := r1.take 3 ++ q with hr2def
  have hr2len : r2.length = items.length := by
    rw [hr2def, List.length_append, htake3, hqlen]
    omega
  have hr2lo : ∀ t, t < 3 → r2.getD t dB = r1.getD t dB := by
    intro t ht
    rw [hr2def, getD_append_lt _ (by omega)]
    exact getD_take_lt ht
  have hr2hi : ∀ t, 3 ≤ t → r2.getD t dB = q.getD (t - 3) dB := by
    intro t ht
    rw [hr2def, getD_append_ge _ (by omega), htake3]
  have hqmem : ∀ u, u < q.length → ∃ i, 3 ≤ i ∧ i < items.length ∧
      key (horizontalOf items) (r1.getD i dB) = key (horizontalOf items) (q.getD u dB) := by
    intro u hu
    have hm : q.getD u dB ∈ r1.drop 3 := w2.mem_iff.mp (getD_mem hu)
    obtain ⟨i, hi1, hi2, hieq⟩ := mem_drop_getD hm
    rw [q1] at hi2
    exact ⟨i, hi1, hi2, by rw [hieq]⟩
  unfold splitBulkItems3Ways
  dsimp only
  rw [← hr1def, ← hqdef, ← hr2def]
  have hp2eq : ((r2.drop 2).take 2).length = 2 := by
    rw [List.length_take, List.length_drop, hr2len]
    omega
  refine ⟨?_, hp2eq, ?_, ?_, ?_, ?_⟩
  · rw [List.length_take, hr2len]
    omega
  · rw [List.length_drop, hr2len]
  · have hassoc : r2.take 2 ++ ((r2.drop 2).take 2 ++ (r2.drop 2).drop 2) = r2 := by
      rw [List.take_append_drop, List.take_append_drop]
    have hd4 : (r2.drop 2).drop 2 = r2.drop 4 := by
      rw [List.drop_drop]
    rw [← hd4, hassoc]
    have hperm1 : r2.Perm r1 := by
      rw [hr2def]
      have hthis := List.Perm.append_left (r1.take 3) w2
      rw [List.take_append_drop] at hthis
      exact hthis
    exact hperm1.trans q2
  · intro x hx y hy
    obtain ⟨i, hi1, hi2, hieq⟩ := mem_take_getD hx
    have hxr : x = r1.getD i dB := by
      rw [← hieq, hr2lo i (by omega)]
    rcases List.mem_append.mp hy with hy2 | hy3
    · obtain ⟨j, hj1, hj2, hjeq⟩ := mem_take_getD hy2
      rw [List.length_drop, hr2len] at hj2
      have hjeq2 : y = r2.getD (2 + j) dB := by
        rw [← hjeq, getD_drop]
      by_cases hj0 : j = 0
      · rw [hxr, hjeq2, hj0, hr2lo 2 (by omega)]
        exact q3 i 2 (by omega) (by omega) (by omega)
      · have hj1' : 2 + j = 3 := by omega
        rw [hxr, hjeq2, hj1', hr2hi 3 (by omega)]
        obtain ⟨i2, hi21, hi22, hi2eq⟩ := hqmem 0 (by omega)
        rw [show (3 : ℕ) - 3 = 0 from rfl, ← hi2eq]
        exact q3 i i2 (by omega) (by omega) (by omega)
    · obtain ⟨j, hj1, hj2, hjeq⟩ := mem_drop_getD hy3
      rw [hr2len] at hj2
      have hjeq2 : y = q.getD (j - 3) dB := by
        rw [← hjeq, hr2hi j (by omega)]
      obtain ⟨i2, hi21, hi22, hi2eq⟩ := hqmem (j - 3) (by omega)
      rw [hxr, hjeq2, ← hi2eq]
      exact q3 i i2 (by omega) (by omega) (by omega)
  · intro x hx y hy
    obtain ⟨j, hj1, hj2, hjeq⟩ := mem_drop_getD hy
    rw [hr2len] at hj2
    have hyeq : y = q.getD (j - 3) dB := by
      rw [← hjeq, hr2hi j (by omega)]
    obtain ⟨i, hi1, hi2, hieq⟩ := mem_take_getD hx
    rw [List.length_drop, hr2len] at hi2
    have hxeq : x = r2.getD (2 + i) dB := by
      rw [← hieq, getD_drop]
    by_cases hi0 : i = 0
    · rw [hxeq, hi0, hr2lo 2 (by omega), hyeq]
      obtain ⟨i2, hi21, hi22, hi2eq⟩ := hqmem (j - 3) (by omega)
      rw [← hi2eq]
      exact q3 2 i2 (by omega) (by omega) (by omega)
    · have hieq1 : 2 + i = 3 := by omega
      rw [hxeq, hieq1, hr2hi 3 (by omega), hyeq]
      rw [show (3 : ℕ) - 3 = 0 from rfl]
      exact w3 0 (j - 3) (by omega) (by omega) (by omega)

/-- C5: each recursive non-leaf bulk-load step splits as claimed.  The
2-way split yields parts of sizes floor(N/2) and N - floor(N/2); the 3-way
split (only reached with 6 or 7 items) yields sizes 2, 2 and N-4; with 8 or
more items `bulkSplit` is the two nested 2-way splits; each split is a
permutation of its input partially partitioned by the doubled-midpoint key
of the axis chosen from the enclosing bound (`x` when the x-extent exceeds
the y-extent, else `y`). -/
theorem claim_C5 :
    (∀ items : List BulkItem, items ≠ [] →
      (splitBulkItems2Ways items).1.length = items.length / 2 ∧
      (splitBulkItems2Ways items).2.length = items.length - items.length / 2 ∧
      ((splitBulkItems2Ways items).1 ++ (splitBulkItems2Ways items).2).Perm items ∧
      (∀ x ∈ (splitBulkItems2Ways items).1, ∀ y ∈ (splitBulkItems2Ways items).2,
        key (horizontalOf items) x ≤ key (horizontalOf items) y) ∧
      (horizontalOf items = true ↔
        (boundOf items).MaxY - (boundOf items).MinY <
          (boundOf items).MaxX - (boundOf items).MinX)) ∧
    (∀ items : List BulkItem, items.length = 6 ∨ items.length = 7 →
      (splitBulkItems3Ways items).1.length = 2 ∧
      (splitBulkItems3Ways items).2.1.length = 2 ∧
      (splitBulkItems3Ways items).2.2.length = items.length - 4 ∧
      ((splitBulkItems3Ways items).1 ++
        ((splitBulkItems3Ways items).2.1 ++ (splitBulkItems3Ways items).2.2)).Perm items ∧
      (∀ x ∈ (splitBulkItems3Ways items).1,
        ∀ y ∈ (splitBulkItems3Ways items).2.1 ++ (splitBulkItems3Ways items).2.2,
          key (horizontalOf items) x ≤ key (horizontalOf items) y) ∧
      (∀ x ∈ (splitBulkItems3Ways items).2.1, ∀ y ∈ (splitBulkItems3Ways items).2.2,
        key (horizontalOf items) x ≤ key (horizontalOf items) y)) ∧
    (∀ items : List BulkItem,
      (items.length < 6 →
        bulkSplit items =
          [(splitBulkItems2Ways items).1, (splitBulkItems2Ways items).2]) ∧
      (6 ≤ items.length → items.length < 8 →
        bulkSplit items =
          [(splitBulkItems3Ways items).1, (splitBulkItems3Ways items).2.1,
            (splitBulkItems3Ways items).2.2]) ∧
      (8 ≤ items.length →
        bulkSplit items =
          [(splitBulkItems2Ways (splitBulkItems2Ways items).1).1,
            (splitBulkItems2Ways (splitBulkItems2Ways items).1).2,
            (splitBulkItems2Ways (splitBulkItems2Ways items).2).1,
            (splitBulkItems2Ways (splitBulkItems2Ways items).2).2])) := by
  refine ⟨?_, ?_, ?_⟩
  · intro items hne
    obtain ⟨h1, h2, h3, h4⟩ := splitBulkItems2Ways_spec items hne
    exact ⟨h1, h2, h3, h4, decide_eq_true_iff⟩
  · intro items hlen
    exact splitBulkItems3Ways_spec items hlen
  · intro items
    refine ⟨?_, ?_, ?_⟩
    · intro h6
      unfold bulkSplit
      rw [if_pos h6]
    · intro h6 h8
      unfold bulkSplit
      rw [if_neg (by omega), if_pos h8]
    · intro h8
      unfold bulkSplit
      rw [if_neg (by omega), if_neg (by omega)]

/-- Witness for C5 at a concrete two-item list and a concrete six-item
list. -/
theorem claim_C5_witness :
    (([⟨⟨0, 0, 1, 1⟩, 1⟩, ⟨⟨2, 0, 3, 1⟩, 2⟩] : List BulkItem) ≠ [] ∧
      ((splitBulkItems2Ways [⟨⟨0, 0, 1, 1⟩, 1⟩, ⟨⟨2, 0, 3, 1⟩, 2⟩]).1.length = 1 ∧
        (splitBulkItems2Ways [⟨⟨0, 0, 1, 1⟩, 1⟩, ⟨⟨2, 0, 3, 1⟩, 2⟩]).2.length = 1)) ∧
    (([⟨⟨0, 0, 1, 1⟩, 1⟩, ⟨⟨2, 0, 3, 1⟩, 2⟩, ⟨⟨4, 0, 5, 1⟩, 3⟩, ⟨⟨6, 0, 7, 1⟩, 4⟩,
        ⟨⟨8, 0, 9, 1⟩, 5⟩, ⟨⟨10, 0, 11, 1⟩, 6⟩] : List BulkItem).length = 6 ∧
      (splitBulkItems3Ways [⟨⟨0, 0, 1, 1⟩, 1⟩, ⟨⟨2, 0, 3, 1⟩, 2⟩, ⟨⟨4, 0, 5, 1⟩, 3⟩,
        ⟨⟨6, 0, 7, 1⟩, 4⟩, ⟨⟨8, 0, 9, 1⟩, 5⟩, ⟨⟨10, 0, 11, 1⟩, 6⟩]).1.length = 2) := by
  constructor
  · refine ⟨by decide, ?_, ?_⟩
    · have := (claim_C5.1 [⟨⟨0, 0, 1, 1⟩, 1⟩, ⟨⟨2, 0, 3, 1⟩, 2⟩] (by decide)).1
      simpa using this
    · have := (claim_C5.1 [⟨⟨0, 0, 1, 1⟩, 1⟩, ⟨⟨2, 0, 3, 1⟩, 2⟩] (by decide)).2.1
      simpa using this
  · refine ⟨by decide, ?_⟩
    exact (claim_C5.2.1 _ (Or.inl (by decide))).1

theorem hasIntersection_true_nonempty {g1 g2 : Geometry}
    (h : hasIntersection g1 g2 = true) :
    g1.IsEmpty = false ∧ g2.IsEmpty = false := by
  unfold hasIntersection at h
  by_cases he2 : g2.IsEmpty = true
  · rw [if_pos he2] at h
    exact absurd h Bool.false_ne_true
  · rw [if_neg he2] at h
    by_cases he1 : g1.IsEmpty = true
    · rw [if_pos he1] at h
      exact absurd h Bool.false_ne_true
    · exact ⟨Bool.not_eq_true _ ▸ he1, Bool.not_eq_true _ ▸ he2⟩

theorem rank_le_8 (g : Geometry) : rank g ≤ 8 := by
  cases g <;> simp [rank]

theorem any_any_flip {α β : Type} (l1 : List α) (l2 : List β)
    (f : α → β → Bool) (g : β → α → Bool)
    (hfg : ∀ x ∈ l1, ∀ y ∈ l2, f x y = g y x) :
    (l1.any fun x => l2.any fun y => f x y) =
      (l2.any fun y => l1.any fun x => g y x) := by
  apply bool_eq_of_iff
  simp only [List.any_eq_true]
  constructor
  · rintro ⟨x, hx, y, hy, hf⟩
    refine ⟨y, hy, x, hx, ?_⟩
    rw [← hfg x hx y hy]
    exact hf
  · rintro ⟨y, hy, x, hx, hg⟩
    refine ⟨x, hx, y, hy, ?_⟩
    rw [hfg x hx y hy]
    exact hg

theorem EqualsExact_comm (p q : Point) : p.EqualsExact q = q.EqualsExact p := by
  unfold Point.EqualsExact
  by_cases h : p.coords = q.coords
  · rw [decide_eq_true h, decide_eq_true h.symm]
  · rw [decide_eq_false h, decide_eq_false (fun hc => h hc.symm)]

theorem sweep_symm {m1 m2 : MultiLineString} (h1 : m1.valid) (h2 : m2.valid) :
    hasIntersectionMultiLineStringWithMultiLineString m1 m2 =
      hasIntersectionMultiLineStringWithMultiLineString m2 m1 := by
  rw [sweep_eq_naive m1 m2 h1 h2, sweep_eq_naive m2 m1 h2 h1]
  exact any_any_flip _ _ _ _ (fun x hx y hy =>
    hasIntersectionLineWithLine_symm (mem_allLines_nd h1 x hx) (mem_allLines_nd h2 y hy))

theorem polygon_boundary_validB {p : Polygon} (hv : p.validB = true) :
    (Polygon.BoundaryG p).validB = true := by
  obtain ⟨hext, hints⟩ := polygon_valid_parts hv
  rcases hint : p.interiors with _ | ⟨r, rs⟩
  · rw [boundary_eq_nil hint]
    simp only [Geometry.validB, decide_eq_true_eq]
    exact hext
  · rw [boundary_eq_cons hint]
    simp only [Geometry.validB, decide_eq_true_eq]
    intro l hl
    rcases List.mem_cons.mp hl with rfl | hl2
    · exact hext
    · exact hints l hl2

theorem gc_nonempty_of_mem {g : Geometry} {gs : List Geometry} (hmem : g ∈ gs)
    (hne : g.IsEmpty = false) :
    (Geometry.geometryCollection gs).IsEmpty = false := by
  rw [gcIsEmpty_eq_all]
  cases hall : gs.all Geometry.IsEmpty
  · rfl
  · have := List.all_eq_true.mp hall _ hmem
    rw [hne] at this
    exact absurd this Bool.false_ne_true

/-- `hasIntersection` is symmetric on valid geometries. -/
theorem hasIntersection_symm : ∀ (n : ℕ) (g1 g2 : Geometry),
    g1.msize + g2.msize ≤ n → g1.validB = true → g2.validB = true →
    hasIntersection g1 g2 = hasIntersection g2 g1 := by
  intro n
  induction n with
  | zero =>
    intro g1 g2 hle _ _
    exact absurd hle (by have := msize_pos g1; have := msize_pos g2; omega)
  | succ n ih =>
    intro g1 g2 hle hv1 hv2
    by_cases he2 : g2.IsEmpty = true
    · unfold hasIntersection
      rw [if_pos he2]
      by_cases he1 : g1.IsEmpty = true
      · rw [if_pos he1]
      · rw [if_neg he1, if_pos he2]
    · by_cases he1 : g1.IsEmpty = true
      · unfold hasIntersection
        rw [if_neg he2, if_pos he1, if_pos he1]
      · unfold hasIntersection
        rw [if_neg he2, if_neg he1, if_neg he1, if_neg he2]
        rcases lt_trichotomy (rank g1) (rank g2) with hr | hr | hr
        · rw [if_neg (by omega), if_pos hr]
        · rw [if_neg (by omega), if_neg (by omega)]
          -- equal ranks: same variant
          have hgc : ∀ (A B : List Geometry),
              (Geometry.geometryCollection A).validB = true →
              (Geometry.geometryCollection B).validB = true →
              (Geometry.geometryCollection A).msize +
                (Geometry.geometryCollection B).msize ≤ n + 1 →
              hasIntersectionOrdered (.geometryCollection A) (.geometryCollection B) = true →
              hasIntersectionOrdered (.geometryCollection B) (.geometryCollection A) = true := by
            intro A B hvA hvB hsum hord
            rw [hasIntersectionOrdered_gc, List.any_eq_true] at hord
            obtain ⟨⟨b, hbB⟩, _, hAb0⟩ := hord
            have hAb : hasIntersection (Geometry.geometryCollection A) b = true := hAb0
            have hvb : b.validB = true := by
              rw [gcValidB_eq_all, List.all_eq_true] at hvB
              exact hvB _ hbB
            have hlt_b := msize_lt_of_mem hbB
            have hbA : hasIntersection b (.geometryCollection A) = true := by
              rw [ih b (.geometryCollection A) (by omega) hvb hvA]
              exact hAb
            obtain ⟨hgAne, hbne⟩ := hasIntersection_true_nonempty hAb
            unfold hasIntersection at hbA
            rw [if_neg (by rw [hgAne]; exact Bool.false_ne_true),
              if_neg (by rw [hbne]; exact Bool.false_ne_true),
              if_neg (by
                have h8 := rank_le_8 b
                rw [show rank (Geometry.geometryCollection A) = 8 from rfl]
                omega)] at hbA
            rw [hasIntersectionOrdered_gc, List.any_eq_true] at hbA
            obtain ⟨⟨a, haA⟩, _, hba0⟩ := hbA
            have hba : hasIntersection b a = true := hba0
            have hva : a.validB = true := by
              rw [gcValidB_eq_all, List.all_eq_true] at hvA
              exact hvA _ haA
            have hlt_a := msize_lt_of_mem haA
            obtain ⟨_, hane⟩ := hasIntersection_true_nonempty hba
            have hab : hasIntersection a b = true := by
              rw [← ih b a (by omega) hvb hva]
              exact hba
            have haB : hasIntersection a (.geometryCollection B) = true := by
              unfold hasIntersection
              rw [if_neg (by
                  rw [gc_nonempty_of_mem hbB hbne]
                  exact Bool.false_ne_true),
                if_neg (by rw [hane]; exact Bool.false_ne_true),
                if_neg (by
                  have h8 := rank_le_8 a
                  rw [show rank (Geometry.geometryCollection B) = 8 from rfl]
                  omega)]
              rw [hasIntersectionOrdered_gc, List.any_eq_true]
              exact ⟨⟨b, hbB⟩, List.mem_attach _ _, hab⟩
            have hBa : hasIntersection (.geometryCollection B) a = true := by
              rw [ih (.geometryCollection B) a (by omega) hvB hva]
              exact haB
            rw [hasIntersectionOrdered_gc, List.any_eq_true]
            exact ⟨⟨a, haA⟩, List.mem_attach _ _, hBa⟩
          cases g1 with
          | point p1 =>
            cases g2 with
            | point p2 =>
              simp only [hasIntersectionOrdered, hasIntersectionPointWithPoint]
              rw [EqualsExact_comm]
            | line l2 => simp [rank] at hr
            | lineString ls2 => simp [rank] at hr
            | polygon pol2 => simp [rank] at hr
            | multiPoint mp2 => simp [rank] at hr
            | multiLineString mls2 => simp [rank] at hr
            | multiPolygon mp2 => simp [rank] at hr
            | geometryCollection gs2 => simp [rank] at hr
          | line l1 =>
            cases g2 with
            | line l2 =>
              simp only [Geometry.validB, decide_eq_true_eq] at hv1 hv2
              simp only [hasIntersectionOrdered]
              exact hasIntersectionLineWithLine_symm hv1 hv2
            | point p2 => simp [rank] at hr
            | lineString ls2 => simp [rank] at hr
            | polygon pol2 => simp [rank] at hr
            | multiPoint mp2 => simp [rank] at hr
            | multiLineString mls2 => simp [rank] at hr
            | multiPolygon mp2 => simp [rank] at hr
            | geometryCollection gs2 => simp [rank] at hr
          | lineString ls1 =>
            cases g2 with
            | lineString ls2 =>
              simp only [Geometry.validB, decide_eq_true_eq] at hv1 hv2
              simp only [hasIntersectionOrdered]
              exact sweep_symm (as_mls_valid hv1) (as_mls_valid hv2)
            | point p2 => simp [rank] at hr
            | line l2 => simp [rank] at hr
            | polygon pol2 => simp [rank] at hr
            | multiPoint mp2 => simp [rank] at hr
            | multiLineString mls2 => simp [rank] at hr
            | multiPolygon mp2 => simp [rank] at hr
            | geometryCollection gs2 => simp [rank] at hr
          | polygon p1 =>
            cases g2 with
            | polygon p2 =>
              simp only [Geometry.validB] at hv1 hv2
              simp only [hasIntersectionOrdered, hasIntersectionPolygonWithPolygon]
              have hb := ih p1.BoundaryG p2.BoundaryG
                (by
                  have h1 := msize_polygon_BoundaryG p1
                  have h2 := msize_polygon_BoundaryG p2
                  have hm1 : (Geometry.polygon p1).msize = 3 := by simp [Geometry.msize]
                  have hm2 : (Geometry.polygon p2).msize = 3 := by simp [Geometry.msize]
                  omega)
                (polygon_boundary_validB hv1) (polygon_boundary_validB hv2)
              rw [hb, Bool.or_comm (hasIntersection (.point ⟨p1.exterior.pts.headI⟩) (.polygon p2))]
            | point p2 => simp [rank] at hr
            | line l2 => simp [rank] at hr
            | lineString ls2 => simp [rank] at hr
            | multiPoint mp2 => simp [rank] at hr
            | multiLineString mls2 => simp [rank] at hr
            | multiPolygon mp2 => simp [rank] at hr
            | geometryCollection gs2 => simp [rank] at hr
          | multiPoint mp1 =>
            cases g2 with
            | multiPoint mp2 =>
              simp only [hasIntersectionOrdered,
                hasIntersectionMultiPointWithMultiPoint,
                hasIntersectionPointWithMultiPoint]
              exact any_any_flip _ _ _ _ (fun x hx y hy => EqualsExact_comm y x)
            | point p2 => simp [rank] at hr
            | line l2 => simp [rank] at hr
            | lineString ls2 => simp [rank] at hr
            | polygon pol2 => simp [rank] at hr
            | multiLineString mls2 => simp [rank] at hr
            | multiPolygon mp2 => simp [rank] at hr
            | geometryCollection gs2 => simp [rank] at hr
          | multiLineString mls1 =>
            cases g2 with
            | multiLineString mls2 =>
              simp only [Geometry.validB, decide_eq_true_eq] at hv1 hv2
              simp only [hasIntersectionOrdered]
              exact sweep_symm hv1 hv2
            | point p2 => simp [rank] at hr
            | line l2 => simp [rank] at hr
            | lineString ls2 => simp [rank] at hr
            | polygon pol2 => simp [rank] at hr
            | multiPoint mp2 => simp [rank] at hr
            | multiPolygon mp2 => simp [rank] at hr
            | geometryCollection gs2 => simp [rank] at hr
          | multiPolygon mp1 =>
            cases g2 with
            | multiPolygon mp2 =>
              simp only [Geometry.validB, List.all_eq_true] at hv1 hv2
              simp only [hasIntersectionOrdered]
              rw [hasIntersectionMultiPolygonWithMultiPolygon,
                hasIntersectionMultiPolygonWithMultiPolygon]
              refine any_any_flip _ _ _ _ ?_
              intro x hx y hy
              have hlx : 1 ≤ mp1.polys.length := List.length_pos_of_mem x.2
              have hly : 1 ≤ mp2.polys.length := List.length_pos_of_mem y.2
              exact ih (.polygon x.1) (.polygon y.1)
                (by simp only [Geometry.msize] at hle ⊢; omega)
                (by simp only [Geometry.validB]; exact hv1 _ x.2)
                (by simp only [Geometry.validB]; exact hv2 _ y.2)
            | point p2 => simp [rank] at hr
            | line l2 => simp [rank] at hr
            | lineString ls2 => simp [rank] at hr
            | polygon pol2 => simp [rank] at hr
            | multiPoint mp2 => simp [rank] at hr
            | multiLineString mls2 => simp [rank] at hr
            | geometryCollection gs2 => simp [rank] at hr
          | geometryCollection gs1 =>
            cases g2 with
            | geometryCollection gs2 =>
              apply bool_eq_of_iff
              constructor
              · intro hord
                exact hgc gs1 gs2 hv1 hv2 hle hord
              · intro hord
                exact hgc gs2 gs1 hv2 hv1 (by omega) hord
            | point p2 => simp [rank] at hr
            | line l2 => simp [rank] at hr
            | lineString ls2 => simp [rank] at hr
            | polygon pol2 => simp [rank] at hr
            | multiPoint mp2 => simp [rank] at hr
            | multiLineString mls2 => simp [rank] at hr
            | multiPolygon mp2 => simp [rank] at hr
        · rw [if_pos hr, if_neg (by omega)]

/-- A point of the real plane: the distance engine computes in floating
point, modelled exactly over ℝ. -/
structure RXY where
  x : ℝ
  y : ℝ

def XY.toR (p : XY) : RXY := ⟨(p.x : ℝ), (p.y : ℝ)⟩

def RXY.sub (a b : RXY) : RXY := ⟨a.x - b.x, a.y - b.y⟩

def RXY.add (a b : RXY) : RXY := ⟨a.x + b.x, a.y + b.y⟩

def RXY.dot (a b : RXY) : ℝ := a.x * b.x + a.y * b.y

def RXY.scale (a : RXY) (s : ℝ) : RXY := ⟨a.x * s, a.y * s⟩

/-- `XY.Length`: the Euclidean norm. -/
noncomputable def RXY.len (v : RXY) : ℝ := Real.sqrt (v.x ^ 2 + v.y ^ 2)

/-- `distBetweenXYs`. -/
noncomputable def distBetweenXYs (xy1 xy2 : XY) : ℝ := (xy1.toR.sub xy2.toR).len

/-- The `closest` point computed inside `distBetweenXYAndLine`: one of the
endpoints when the projection falls outside the segment, otherwise the
projection onto it.  (For a degenerate segment Go divides by zero producing
NaNs and lands in the default branch; here the zero-division convention
lands the same branch at the `a` endpoint.) -/
noncomputable def closestOn (xy : XY) (ln : Line) : RXY :=
  let ab := ln.b.toR.sub ln.a.toR
  let abLen := ab.len
  let proj := (xy.toR.sub ln.a.toR).dot ab / abLen
  if proj < 0 then ln.a.toR
  else if abLen < proj then ln.b.toR
  else (ab.scale (proj / abLen)).add ln.a.toR

/-- `distBetweenXYAndLine`. -/
noncomputable def distBetweenXYAndLine (xy : XY) (ln : Line) : ℝ :=
  (xy.toR.sub (closestOn xy ln)).len

/-- `distBetweenLineAndLine`: the min-fold over the four endpoint-to-segment
distances (`math.Min` starting from +Inf). -/
noncomputable def distBetweenLineAndLine (ln1 ln2 : Line) : ℝ :=
  min (min (min (distBetweenXYAndLine ln1.a ln2) (distBetweenXYAndLine ln1.b ln2))
    (distBetweenXYAndLine ln2.a ln1)) (distBetweenXYAndLine ln2.b ln1)

/-- `extractXYsAndLines`: the per-variant decomposition into points and
segments; `none` models the panic on a variant the switch does not handle
(the standalone two-point Line is not among its cases). -/
def extractXYsAndLines : Geometry → Option (List XY × List Line)
  | .point p => some ([p.coords], [])
  | .line _ => none
  | .lineString ls => some ([], ls.lines)
  | .polygon p => some ([], (p.rings.map LineString.lines).join)
  | .multiPoint mp => some (mp.pts.map Point.coords, [])
  | .multiLineString m => some ([], m.allLines)
  | .multiPolygon mp =>
    some ([], ((mp.polys.map Polygon.rings).join.map LineString.lines).join)
  | .geometryCollection [] => some ([], [])
  | .geometryCollection (g :: gs) =>
    match extractXYsAndLines g, extractXYsAndLines (.geometryCollection gs) with
    | some (xs, ls), some (xs2, ls2) => some (xs ++ xs2, ls ++ ls2)
    | _, _ => none

/-- A record of the distance search: one part (point or segment) of the
indexed geometry.  (`loadTree` keys parts by signed record ids; the two
sign classes are modelled by the two constructors.) -/
inductive DistRecord where
  | xyRec : XY → DistRecord
  | lnRec : Line → DistRecord
deriving DecidableEq, Repr

/-- `NewEnvelope` of a single point. -/
def NewEnvelopeXY (xy : XY) : Envelope := ⟨xy, xy⟩

/-- The envelope the search associates with a record (`NewEnvelope(xys2[i])`
or `lns2[i].envelope()`); the same function gives each outer part's query
envelope. -/
def recordEnvOf : DistRecord → Envelope
  | .xyRec xy => NewEnvelopeXY xy
  | .lnRec ln => mustEnvelope ln

/-- Modelled from the spec: `Envelope.Distance`, the separation distance of
two axis-aligned boxes (zero when they overlap on an axis). -/
noncomputable def Envelope.RDistance (e1 e2 : Envelope) : ℝ :=
  Real.sqrt
    ((max 0 (max ((e1.emin.x : ℝ) - (e2.emax.x : ℝ)) ((e2.emin.x : ℝ) - (e1.emax.x : ℝ)))) ^ 2 +
      (max 0 (max ((e1.emin.y : ℝ) - (e2.emax.y : ℝ)) ((e2.emin.y : ℝ) - (e1.emax.y : ℝ)))) ^ 2)

/-- The distance `searchBody` computes between the current outer part (first
argument) and a record of the indexed geometry, matching the four
`xyDist`/`lnDist` closures of the two outer loops. -/
noncomputable def primDist : DistRecord → DistRecord → ℝ
  | .xyRec xy, .xyRec xy2 => distBetweenXYs xy xy2
  | .xyRec xy, .lnRec ln2 => distBetweenXYAndLine xy ln2
  | .lnRec ln, .xyRec xy2 => distBetweenXYAndLine xy2 ln
  | .lnRec ln, .lnRec ln2 => distBetweenLineAndLine ln2 ln

/-- `math.Min` folded into the running best distance, with `+Inf` as
`none`. -/
noncomputable def updateMin : Option ℝ → ℝ → Option ℝ
  | none, d => some d
  | some m, d => some (min m d)

/-- One `PrioritySearch` run: visit the records in the given order, abort
(`rtree.Stop`) as soon as a record's envelope distance exceeds the running
best, otherwise fold the record's distance into the best. -/
noncomputable def searchFold (queryEnv : Envelope) (q1 : DistRecord) :
    List DistRecord → Option ℝ → Option ℝ
  | [], m => m
  | r :: rest, m =>
    match m with
    | none => searchFold queryEnv q1 rest (updateMin none (primDist q1 r))
    | some md =>
      if md < Envelope.RDistance (recordEnvOf r) queryEnv then some md
      else searchFold queryEnv q1 rest (updateMin (some md) (primDist q1 r))

/-- Modelled from the spec: `PrioritySearch` visits records in ascending
order of envelope distance to the query box. -/
noncomputable def sortRecords (queryEnv : Envelope) (rs : List DistRecord) :
    List DistRecord :=
  @List.insertionSort DistRecord
    (fun r s => Envelope.RDistance (recordEnvOf r) queryEnv ≤
      Envelope.RDistance (recordEnvOf s) queryEnv)
    (fun r s => Real.decidableLE _ _) rs

/-- `distance` from `alg_distance.go`: zero for intersecting inputs,
otherwise the search over all parts; `(0, false)` when the best distance is
still +Inf; `none` models the panic on an unhandled variant. -/
noncomputable def distance (g1 g2 : Geometry) : Option (ℝ × Bool) :=
  if g1.Intersects g2 then some (0, true)
  else
    match extractXYsAndLines g1, extractXYsAndLines g2 with
    | some (xys1, lns1), some (xys2, lns2) =>
      let records := xys2.map DistRecord.xyRec ++ lns2.map DistRecord.lnRec
      let parts1 := xys1.map DistRecord.xyRec ++ lns1.map DistRecord.lnRec
      match parts1.foldl (fun m p1 =>
          searchFold (recordEnvOf p1) p1 (sortRecords (recordEnvOf p1) records) m) none with
      | none => some (0, false)
      | some v => some (v, true)
    | _, _ => none

theorem updateMin_none (d : ℝ) : updateMin none d = some d := rfl

theorem updateMin_some (m d : ℝ) : updateMin (some m) d = some (min m d) := rfl

theorem searchFold_nil (env : Envelope) (q1 : DistRecord) (m : Option ℝ) :
    searchFold env q1 [] m = m := rfl

theorem searchFold_some : ∀ (rs : List DistRecord) (env : Envelope)
    (q1 : DistRecord) (md : ℝ), ∃ v, searchFold env q1 rs (some md) = some v := by
  intro rs
  induction rs with
  | nil => intro env q1 md; exact ⟨md, rfl⟩
  | cons r rest ih =>
    intro env q1 md
    simp only [searchFold, updateMin]
    by_cases hc : md < Envelope.RDistance (recordEnvOf r) env
    · rw [if_pos hc]; exact ⟨md, rfl⟩
    · rw [if_neg hc]
      exact ih env q1 (min md (primDist q1 r))

theorem searchFold_cons_none (env : Envelope) (q1 r : DistRecord)
    (rest : List DistRecord) : ∃ v, searchFold env q1 (r :: rest) none = some v := by
  simp only [searchFold, updateMin]
  exact searchFold_some rest env q1 (primDist q1 r)

theorem sortRecords_perm (env : Envelope) (rs : List DistRecord) :
    (sortRecords env rs).Perm rs :=
  @List.perm_insertionSort DistRecord
    (fun r s => Envelope.RDistance (recordEnvOf r) env ≤
      Envelope.RDistance (recordEnvOf s) env)
    (fun r s => Real.decidableLE _ _) rs

theorem sortRecords_nil (env : Envelope) : sortRecords env [] = [] := rfl

theorem sortRecords_eq_nil_iff (env : Envelope) (rs : List DistRecord) :
    sortRecords env rs = [] ↔ rs = [] := by
  constructor
  · intro h
    have hp := sortRecords_perm env rs
    rw [h] at hp
    exact hp.symm.eq_nil
  · intro h; rw [h]; exact sortRecords_nil env

theorem distFold_some (parts : List DistRecord) : ∀ (records : List DistRecord) (md : ℝ),
    ∃ v, parts.foldl (fun m p1 =>
      searchFold (recordEnvOf p1) p1 (sortRecords (recordEnvOf p1) records) m)
      (some md) = some v := by
  induction parts with
  | nil => intro records md; exact ⟨md, rfl⟩
  | cons p ps ih =>
    intro records md
    rw [List.foldl_cons]
    obtain ⟨v1, hv1⟩ :=
      searchFold_some (sortRecords (recordEnvOf p) records) (recordEnvOf p) p md
    rw [hv1]
    exact ih records v1

theorem distFold_nil_records (parts : List DistRecord) :
    parts.foldl (fun m p1 =>
      searchFold (recordEnvOf p1) p1 (sortRecords (recordEnvOf p1) ([] : List DistRecord)) m)
      none = none := by
  induction parts with
  | nil => rfl
  | cons p ps ih =>
    rw [List.foldl_cons, sortRecords_nil, searchFold_nil]
    exact ih

theorem distFold_none_iff (parts records : List DistRecord) :
    parts.foldl (fun m p1 =>
      searchFold (recordEnvOf p1) p1 (sortRecords (recordEnvOf p1) records) m) none = none
      ↔ (parts = [] ∨ records = []) := by
  constructor
  · intro h
    by_contra hcon
    push_neg at hcon
    obtain ⟨hp, hr⟩ := hcon
    obtain ⟨p, ps, rfl⟩ := List.exists_cons_of_ne_nil hp
    obtain ⟨r0, rest0, hsr⟩ : ∃ r0 rest0,
        sortRecords (recordEnvOf p) records = r0 :: rest0 := by
      cases hsort : sortRecords (recordEnvOf p) records with
      | nil => exact absurd ((sortRecords_eq_nil_iff _ _).mp hsort) hr
      | cons a b => exact ⟨a, b, rfl⟩
    rw [List.foldl_cons, hsr] at h
    obtain ⟨v1, hv1⟩ := searchFold_cons_none (recordEnvOf p) p r0 rest0
    rw [hv1] at h
    obtain ⟨v, hv⟩ := distFold_some ps records v1
    rw [hv] at h
    exact Option.some_ne_none v h
  · intro h
    rcases h with rfl | rfl
    · rfl
    · exact distFold_nil_records parts

theorem lines_ne_nil_of_two (ls : LineString) (h2 : 2 ≤ ls.pts.length) :
    ls.lines ≠ [] := by
  obtain ⟨pts⟩ := ls
  rcases pts with _ | ⟨a, _ | ⟨b, rest⟩⟩
  · simp at h2
  · simp at h2
  · simp [LineString.lines]

/-- A valid geometry contributes no points and no line segments exactly when
it is empty. -/
theorem extract_empty_iff : ∀ (n : ℕ) (g : Geometry) (xys : List XY) (lns : List Line),
    g.msize ≤ n → g.validB = true → extractXYsAndLines g = some (xys, lns) →
    ((xys = [] ∧ lns = []) ↔ g.IsEmpty = true) := by
  intro n
  induction n with
  | zero =>
    intro g xys lns hsz _ _
    have := msize_pos g
    omega
  | succ n ih =>
    intro g xys lns hsz hv hex
    cases g with
    | point p =>
      simp only [extractXYsAndLines, Option.some_inj, Prod.mk.injEq] at hex
      obtain ⟨hx, hl⟩ := hex
      simp [← hx, Geometry.IsEmpty]
    | line l => simp [extractXYsAndLines] at hex
    | lineString ls =>
      simp only [extractXYsAndLines, Option.some_inj, Prod.mk.injEq] at hex
      obtain ⟨hx, hl⟩ := hex
      simp only [Geometry.validB, decide_eq_true_eq] at hv
      have hne := lines_ne_nil_of_two ls hv.1
      simp [← hx, ← hl, Geometry.IsEmpty, hne]
    | polygon p =>
      simp only [extractXYsAndLines, Option.some_inj, Prod.mk.injEq] at hex
      obtain ⟨hx, hl⟩ := hex
      simp only [Geometry.validB, Polygon.validB, Bool.and_eq_true,
        decide_eq_true_eq] at hv
      have hne := lines_ne_nil_of_two p.exterior hv.1.1
      have hjoin : (p.rings.map LineString.lines).join ≠ [] := by
        intro hj
        rw [List.join_eq_nil] at hj
        exact hne (hj p.exterior.lines (List.mem_map_of_mem _ (by
          simp [Polygon.rings])))
      simp [← hx, ← hl, Geometry.IsEmpty, hjoin]
    | multiPoint mp =>
      simp only [extractXYsAndLines, Option.some_inj, Prod.mk.injEq] at hex
      obtain ⟨hx, hl⟩ := hex
      constructor
      · intro h
        obtain ⟨h1, _⟩ := h
        rw [← hx, List.map_eq_nil] at h1
        simp [Geometry.IsEmpty, h1]
      · intro h
        simp only [Geometry.IsEmpty, List.isEmpty_iff] at h
        refine ⟨?_, hl.symm⟩
        rw [← hx, h]
        rfl
    | multiLineString m =>
      simp only [extractXYsAndLines, Option.some_inj, Prod.mk.injEq] at hex
      obtain ⟨hx, hl⟩ := hex
      simp only [Geometry.validB, decide_eq_true_eq] at hv
      constructor
      · intro h
        obtain ⟨_, h2⟩ := h
        rw [← hl] at h2
        unfold MultiLineString.allLines at h2
        rw [List.join_eq_nil] at h2
        simp only [Geometry.IsEmpty, List.isEmpty_iff]
        cases hls : m.lines with
        | nil => rfl
        | cons l0 ls0 =>
          have hmem : l0.lines ∈ m.lines.map LineString.lines := by
            rw [hls]; exact List.mem_map_of_mem _ (List.mem_cons_self l0 ls0)
          have hvl0 : l0.valid := hv l0 (by rw [hls]; exact List.mem_cons_self l0 ls0)
          exact absurd (h2 _ hmem) (lines_ne_nil_of_two l0 hvl0.1)
      · intro h
        simp only [Geometry.IsEmpty, List.isEmpty_iff] at h
        refine ⟨hx.symm, ?_⟩
        rw [← hl]
        unfold MultiLineString.allLines
        rw [h]
        rfl
    | multiPolygon mp =>
      simp only [extractXYsAndLines, Option.some_inj, Prod.mk.injEq] at hex
      obtain ⟨hx, hl⟩ := hex
      simp only [Geometry.validB, List.all_eq_true] at hv
      constructor
      · intro h
        obtain ⟨_, h2⟩ := h
        rw [← hl] at h2
        rw [List.join_eq_nil] at h2
        simp only [Geometry.IsEmpty, List.isEmpty_iff]
        cases hps : mp.polys with
        | nil => rfl
        | cons p0 ps0 =>
          have hp0mem : p0 ∈ mp.polys := by rw [hps]; exact List.mem_cons_self p0 ps0
          have hvp0 := hv p0 hp0mem
          simp only [Polygon.validB, Bool.and_eq_true, decide_eq_true_eq] at hvp0
          have hne := lines_ne_nil_of_two p0.exterior hvp0.1.1
          have hmem : p0.exterior.lines ∈
              ((mp.polys.map Polygon.rings).join.map LineString.lines) := by
            apply List.mem_map_of_mem
            rw [List.mem_join]
            exact ⟨p0.rings, List.mem_map_of_mem _ hp0mem, by simp [Polygon.rings]⟩
          exact absurd (h2 _ hmem) hne
      · intro h
        simp only [Geometry.IsEmpty, List.isEmpty_iff] at h
        refine ⟨hx.symm, ?_⟩
        rw [← hl, h]
        rfl
    | geometryCollection gs =>
      cases gs with
      | nil =>
        simp only [extractXYsAndLines, Option.some_inj, Prod.mk.injEq] at hex
        obtain ⟨hx, hl⟩ := hex
        simp [← hx, ← hl, Geometry.IsEmpty]
      | cons g0 gs0 =>
        have hsz0 : (Geometry.geometryCollection (g0 :: gs0)).msize =
            g0.msize + (Geometry.geometryCollection gs0).msize := by
          simp [Geometry.msize]
        have hszg : g0.msize ≤ n := by
          have h1 := msize_pos (Geometry.geometryCollection gs0)
          omega
        have hszgs : (Geometry.geometryCollection gs0).msize ≤ n := by
          have h1 := msize_pos g0
          omega
        have hvsplit : g0.validB = true ∧
            (Geometry.geometryCollection gs0).validB = true := by
          simp only [Geometry.validB, Bool.and_eq_true] at hv
          exact hv
        rw [show extractXYsAndLines (Geometry.geometryCollection (g0 :: gs0)) =
            (match extractXYsAndLines g0,
              extractXYsAndLines (Geometry.geometryCollection gs0) with
            | some (xs, ls), some (xs2, ls2) => some (xs ++ xs2, ls ++ ls2)
            | _, _ => none) from by rw [extractXYsAndLines]] at hex
        cases he0 : extractXYsAndLines g0 with
        | none =>
          rw [he0] at hex
          cases hes : extractXYsAndLines (Geometry.geometryCollection gs0) with
          | none => rw [hes] at hex; simp at hex
          | some prs => rw [hes] at hex; simp at hex
        | some pr0 =>
          cases hes : extractXYsAndLines (Geometry.geometryCollection gs0) with
          | none => rw [he0, hes] at hex; simp at hex
          | some prs =>
            obtain ⟨xs0, ls0⟩ := pr0
            obtain ⟨xss, lss⟩ := prs
            rw [he0, hes] at hex
            simp only [Option.some_inj, Prod.mk.injEq] at hex
            obtain ⟨hx, hl⟩ := hex
            have ih0 := ih g0 xs0 ls0 hszg hvsplit.1 he0
            have ihs := ih (Geometry.geometryCollection gs0) xss lss hszgs
              hvsplit.2 hes
            have hemp : (Geometry.geometryCollection (g0 :: gs0)).IsEmpty =
                (g0.IsEmpty && (Geometry.geometryCollection gs0).IsEmpty) := by
              simp [Geometry.IsEmpty]
            rw [hemp, Bool.and_eq_true, ← ih0, ← ihs, ← hx, ← hl]
            constructor
            · intro h
              obtain ⟨h1, h2⟩ := h
              rw [List.append_eq_nil] at h1 h2
              exact ⟨⟨h1.1, h2.1⟩, h1.2, h2.2⟩
            · intro h
              obtain ⟨⟨h1, h2⟩, h3, h4⟩ := h
              rw [h1, h2, h3, h4]
              exact ⟨rfl, rfl⟩

theorem distance_eq_of_extract (g1 g2 : Geometry) (xys1 xys2 : List XY)
    (lns1 lns2 : List Line) (hint : g1.Intersects g2 = false)
    (h1 : extractXYsAndLines g1 = some (xys1, lns1))
    (h2 : extractXYsAndLines g2 = some (xys2, lns2)) :
    distance g1 g2 =
      (match (xys1.map DistRecord.xyRec ++ lns1.map DistRecord.lnRec).foldl
          (fun m p1 => searchFold (recordEnvOf p1) p1
            (sortRecords (recordEnvOf p1)
              (xys2.map DistRecord.xyRec ++ lns2.map DistRecord.lnRec)) m) none with
        | none => some ((0 : ℝ), false)
        | some v => some (v, true)) := by
  unfold distance
  rw [if_neg (by simp [hint]), h1, h2]

/-- C9: for geometries the extraction handles, `distance` returns
`ok = false` exactly when the inputs do not intersect and at least one of
them is empty, and the value returned alongside `ok = false` is 0. -/
theorem claim_C9 (g1 g2 : Geometry) (xys1 xys2 : List XY) (lns1 lns2 : List Line)
    (hv1 : g1.validB = true) (hv2 : g2.validB = true)
    (h1 : extractXYsAndLines g1 = some (xys1, lns1))
    (h2 : extractXYsAndLines g2 = some (xys2, lns2)) :
    ∃ v ok, distance g1 g2 = some (v, ok) ∧
      (ok = false ↔ g1.Intersects g2 = false ∧
        (g1.IsEmpty = true ∨ g2.IsEmpty = true)) ∧
      (ok = false → v = 0) := by
  by_cases hint : g1.Intersects g2 = true
  · refine ⟨0, true, ?_, by simp [hint], by simp⟩
    unfold distance
    rw [if_pos hint]
  · have hintf : g1.Intersects g2 = false := by
      cases hI : g1.Intersects g2
      · rfl
      · exact absurd hI hint
    have hd := distance_eq_of_extract g1 g2 xys1 xys2 lns1 lns2 hintf h1 h2
    cases hfold : (xys1.map DistRecord.xyRec ++ lns1.map DistRecord.lnRec).foldl
        (fun m p1 => searchFold (recordEnvOf p1) p1
          (sortRecords (recordEnvOf p1)
            (xys2.map DistRecord.xyRec ++ lns2.map DistRecord.lnRec)) m) none with
    | none =>
      rw [hfold] at hd
      refine ⟨0, false, hd, ?_, fun _ => rfl⟩
      constructor
      · intro _
        refine ⟨hintf, ?_⟩
        have hempty := (distFold_none_iff _ _).mp hfold
        rcases hempty with hp | hr
        · left
          simp only [List.append_eq_nil, List.map_eq_nil] at hp
          exact (extract_empty_iff g1.msize g1 xys1 lns1 le_rfl hv1 h1).mp hp
        · right
          simp only [List.append_eq_nil, List.map_eq_nil] at hr
          exact (extract_empty_iff g2.msize g2 xys2 lns2 le_rfl hv2 h2).mp hr
      · intro _; rfl
    | some v =>
      rw [hfold] at hd
      refine ⟨v, true, hd, ?_, by simp⟩
      constructor
      · intro h; exact absurd h (by simp)
      · intro h
        obtain ⟨_, hemp⟩ := h
        exfalso
        rcases hemp with he1 | he2
        · have hxl := (extract_empty_iff g1.msize g1 xys1 lns1 le_rfl hv1 h1).mpr he1
          have hpnil : (xys1.map DistRecord.xyRec ++ lns1.map DistRecord.lnRec) = [] := by
            rw [hxl.1, hxl.2]; rfl
          rw [hpnil] at hfold
          simp at hfold
        · have hxl := (extract_empty_iff g2.msize g2 xys2 lns2 le_rfl hv2 h2).mpr he2
          have hrecnil : (xys2.map DistRecord.xyRec ++ lns2.map DistRecord.lnRec) = [] := by
            rw [hxl.1, hxl.2]; rfl
          have hnone := (distFold_none_iff
            (xys1.map DistRecord.xyRec ++ lns1.map DistRecord.lnRec)
            (xys2.map DistRecord.xyRec ++ lns2.map DistRecord.lnRec)).mpr
            (Or.inr hrecnil)
          rw [hfold] at hnone
          simp at hnone

/-- Witness for C9 at a concrete pair: a point against an empty MultiPoint. -/
theorem claim_C9_witness :
    ∃ v ok, distance (Geometry.point ⟨⟨0, 0⟩⟩) (Geometry.multiPoint ⟨[]⟩) = some (v, ok) ∧
      (ok = false ↔
        (Geometry.point ⟨⟨0, 0⟩⟩).Intersects (Geometry.multiPoint ⟨[]⟩) = false ∧
        ((Geometry.point ⟨⟨0, 0⟩⟩).IsEmpty = true ∨
          (Geometry.multiPoint ⟨[]⟩).IsEmpty = true)) ∧
      (ok = false → v = 0) :=
  claim_C9 (Geometry.point ⟨⟨0, 0⟩⟩) (Geometry.multiPoint ⟨[]⟩) [⟨0, 0⟩] [] [] []
    (by simp [Geometry.validB]) (by simp [Geometry.validB])
    (by simp [extractXYsAndLines]) (by simp [extractXYsAndLines])

theorem rsub_len_comm (u w : RXY) : (u.sub w).len = (w.sub u).len := by
  unfold RXY.len RXY.sub
  ring_nf

theorem distBetweenXYs_comm (a b : XY) : distBetweenXYs a b = distBetweenXYs b a := by
  unfold distBetweenXYs
  exact rsub_len_comm _ _

theorem min4_swap (d1 d2 d3 d4 : ℝ) :
    min (min (min d1 d2) d3) d4 = min (min (min d3 d4) d1) d2 := by
  rw [min_assoc (min d1 d2) d3 d4, min_assoc (min d3 d4) d1 d2]
  exact min_comm _ _

theorem distBetweenLineAndLine_comm (l1 l2 : Line) :
    distBetweenLineAndLine l1 l2 = distBetweenLineAndLine l2 l1 := by
  unfold distBetweenLineAndLine
  exact min4_swap _ _ _ _

theorem primDist_symm (p q : DistRecord) : primDist p q = primDist q p := by
  cases p with
  | xyRec xy =>
    cases q with
    | xyRec xy2 => exact distBetweenXYs_comm xy xy2
    | lnRec ln2 => rfl
  | lnRec ln =>
    cases q with
    | xyRec xy2 => rfl
    | lnRec ln2 => exact distBetweenLineAndLine_comm ln2 ln

/-- Real-plane membership in an envelope. -/
def inEnvR (u : RXY) (e : Envelope) : Prop :=
  (e.emin.x : ℝ) ≤ u.x ∧ u.x ≤ (e.emax.x : ℝ) ∧
    (e.emin.y : ℝ) ≤ u.y ∧ u.y ≤ (e.emax.y : ℝ)

theorem inEnvR_pointEnv (xy : XY) : inEnvR xy.toR (NewEnvelopeXY xy) := by
  unfold inEnvR NewEnvelopeXY XY.toR
  exact ⟨le_refl _, le_refl _, le_refl _, le_refl _⟩

theorem inEnvR_lineEnv_a (ln : Line) : inEnvR ln.a.toR (mustEnvelope ln) := by
  unfold inEnvR mustEnvelope XY.toR
  dsimp only
  refine ⟨?_, ?_, ?_, ?_⟩
  · exact_mod_cast min_le_left ln.a.x ln.b.x
  · exact_mod_cast le_max_left ln.a.x ln.b.x
  · exact_mod_cast min_le_left ln.a.y ln.b.y
  · exact_mod_cast le_max_left ln.a.y ln.b.y

theorem inEnvR_lineEnv_b (ln : Line) : inEnvR ln.b.toR (mustEnvelope ln) := by
  unfold inEnvR mustEnvelope XY.toR
  dsimp only
  refine ⟨?_, ?_, ?_, ?_⟩
  · exact_mod_cast min_le_right ln.a.x ln.b.x
  · exact_mod_cast le_max_right ln.a.x ln.b.x
  · exact_mod_cast min_le_right ln.a.y ln.b.y
  · exact_mod_cast le_max_right ln.a.y ln.b.y

theorem between_bounds {a b t : ℝ} (h0 : 0 ≤ t) (h1 : t ≤ 1) :
    min a b ≤ (b - a) * t + a ∧ (b - a) * t + a ≤ max a b := by
  rcases le_total a b with hab | hab
  · rw [min_eq_left hab, max_eq_right hab]
    constructor <;> nlinarith
  · rw [min_eq_right hab, max_eq_left hab]
    constructor <;> nlinarith

theorem segPoint_inEnv (ln : Line) (t : ℝ) (h0 : 0 ≤ t) (h1 : t ≤ 1) :
    inEnvR (((ln.b.toR.sub ln.a.toR).scale t).add ln.a.toR) (mustEnvelope ln) := by
  unfold inEnvR mustEnvelope XY.toR RXY.sub RXY.scale RXY.add
  dsimp only
  have hx := @between_bounds ((ln.a.x : ℝ)) ((ln.b.x : ℝ)) t h0 h1
  have hy := @between_bounds ((ln.a.y : ℝ)) ((ln.b.y : ℝ)) t h0 h1
  refine ⟨?_, ?_, ?_, ?_⟩
  · push_cast
    exact hx.1
  · push_cast
    exact hx.2
  · push_cast
    exact hy.1
  · push_cast
    exact hy.2

theorem closestOn_inEnv (xy : XY) (ln : Line) :
    inEnvR (closestOn xy ln) (mustEnvelope ln) := by
  have hlen0 : (0 : ℝ) ≤ (ln.b.toR.sub ln.a.toR).len := Real.sqrt_nonneg _
  unfold closestOn
  dsimp only
  split_ifs with h1 h2
  · exact inEnvR_lineEnv_a ln
  · exact inEnvR_lineEnv_b ln
  · push_neg at h1 h2
    apply segPoint_inEnv
    · rcases eq_or_lt_of_le hlen0 with hz | hpos
      · rw [← hz, div_zero]
      · exact div_nonneg h1 (le_of_lt hpos)
    · rcases eq_or_lt_of_le hlen0 with hz | hpos
      · rw [← hz, div_zero]
        norm_num
      · exact (div_le_one hpos).mpr h2

theorem env_dist_le {u w : RXY} {e1 e2 : Envelope} (hu : inEnvR u e1)
    (hw : inEnvR w e2) : Envelope.RDistance e1 e2 ≤ (u.sub w).len := by
  obtain ⟨hux1, hux2, huy1, huy2⟩ := hu
  obtain ⟨hwx1, hwx2, hwy1, hwy2⟩ := hw
  unfold Envelope.RDistance RXY.len RXY.sub
  dsimp only
  apply Real.sqrt_le_sqrt
  have hxabs : max 0 (max ((e1.emin.x : ℝ) - (e2.emax.x : ℝ))
      ((e2.emin.x : ℝ) - (e1.emax.x : ℝ))) ≤ |u.x - w.x| := by
    apply max_le (abs_nonneg _)
    apply max_le
    · calc (e1.emin.x : ℝ) - (e2.emax.x : ℝ) ≤ u.x - w.x := by linarith
        _ ≤ |u.x - w.x| := le_abs_self _
    · calc (e2.emin.x : ℝ) - (e1.emax.x : ℝ) ≤ w.x - u.x := by linarith
        _ ≤ |u.x - w.x| := by rw [abs_sub_comm]; exact le_abs_self _
  have hyabs : max 0 (max ((e1.emin.y : ℝ) - (e2.emax.y : ℝ))
      ((e2.emin.y : ℝ) - (e1.emax.y : ℝ))) ≤ |u.y - w.y| := by
    apply max_le (abs_nonneg _)
    apply max_le
    · calc (e1.emin.y : ℝ) - (e2.emax.y : ℝ) ≤ u.y - w.y := by linarith
        _ ≤ |u.y - w.y| := le_abs_self _
    · calc (e2.emin.y : ℝ) - (e1.emax.y : ℝ) ≤ w.y - u.y := by linarith
        _ ≤ |u.y - w.y| := by rw [abs_sub_comm]; exact le_abs_self _
  have hx2 : (max 0 (max ((e1.emin.x : ℝ) - (e2.emax.x : ℝ))
      ((e2.emin.x : ℝ) - (e1.emax.x : ℝ)))) ^ 2 ≤ (u.x - w.x) ^ 2 := by
    calc _ ≤ |u.x - w.x| ^ 2 := pow_le_pow_left (le_max_left 0 _) hxabs 2
      _ = (u.x - w.x) ^ 2 := sq_abs _
  have hy2 : (max 0 (max ((e1.emin.y : ℝ) - (e2.emax.y : ℝ))
      ((e2.emin.y : ℝ) - (e1.emax.y : ℝ)))) ^ 2 ≤ (u.y - w.y) ^ 2 := by
    calc _ ≤ |u.y - w.y| ^ 2 := pow_le_pow_left (le_max_left 0 _) hyabs 2
      _ = (u.y - w.y) ^ 2 := sq_abs _
  linarith

/-- The stop condition is sound: the envelope distance between a record and
the query part never exceeds the exact distance between them. -/
theorem primDist_ge_RDist (q1 r : DistRecord) :
    Envelope.RDistance (recordEnvOf r) (recordEnvOf q1) ≤ primDist q1 r := by
  cases q1 with
  | xyRec xy =>
    cases r with
    | xyRec xy2 =>
      simp only [recordEnvOf, primDist]
      unfold distBetweenXYs
      rw [rsub_len_comm]
      exact env_dist_le (inEnvR_pointEnv xy2) (inEnvR_pointEnv xy)
    | lnRec ln2 =>
      simp only [recordEnvOf, primDist]
      unfold distBetweenXYAndLine
      rw [rsub_len_comm]
      exact env_dist_le (closestOn_inEnv xy ln2) (inEnvR_pointEnv xy)
  | lnRec ln =>
    cases r with
    | xyRec xy2 =>
      simp only [recordEnvOf, primDist]
      unfold distBetweenXYAndLine
      exact env_dist_le (inEnvR_pointEnv xy2) (closestOn_inEnv xy2 ln)
    | lnRec ln2 =>
      simp only [recordEnvOf, primDist]
      unfold distBetweenLineAndLine
      refine le_min (le_min (le_min ?_ ?_) ?_) ?_
      · unfold distBetweenXYAndLine
        exact env_dist_le (inEnvR_lineEnv_a ln2) (closestOn_inEnv ln2.a ln)
      · unfold distBetweenXYAndLine
        exact env_dist_le (inEnvR_lineEnv_b ln2) (closestOn_inEnv ln2.b ln)
      · unfold distBetweenXYAndLine
        rw [rsub_len_comm]
        exact env_dist_le (closestOn_inEnv ln.a ln2) (inEnvR_lineEnv_a ln)
      · unfold distBetweenXYAndLine
        rw [rsub_len_comm]
        exact env_dist_le (closestOn_inEnv ln.b ln2) (inEnvR_lineEnv_b ln)

/-- The running minimum over a plain list of distances (`math.Min` fold with
+Inf as `none`). -/
noncomputable def optFoldMin (m : Option ℝ) (ds : List ℝ) : Option ℝ :=
  ds.foldl updateMin m

theorem optFoldMin_nil (m : Option ℝ) : optFoldMin m [] = m := rfl

theorem optFoldMin_cons (m : Option ℝ) (d : ℝ) (ds : List ℝ) :
    optFoldMin m (d :: ds) = optFoldMin (updateMin m d) ds := rfl

theorem optFoldMin_append (m : Option ℝ) (l1 l2 : List ℝ) :
    optFoldMin m (l1 ++ l2) = optFoldMin (optFoldMin m l1) l2 := by
  unfold optFoldMin
  rw [List.foldl_append]

theorem optFoldMin_const (md : ℝ) : ∀ (ds : List ℝ), (∀ d ∈ ds, md ≤ d) →
    optFoldMin (some md) ds = some md := by
  intro ds
  induction ds with
  | nil => intro _; rfl
  | cons d rest ih =>
    intro h
    rw [optFoldMin_cons, updateMin_some,
      min_eq_left (h d (List.mem_cons_self d rest))]
    exact ih (fun x hx => h x (List.mem_cons_of_mem d hx))

theorem optFoldMin_some_spec : ∀ (ds : List ℝ) (m0 v : ℝ),
    optFoldMin (some m0) ds = some v →
    (v = m0 ∨ v ∈ ds) ∧ v ≤ m0 ∧ ∀ d ∈ ds, v ≤ d := by
  intro ds
  induction ds with
  | nil =>
    intro m0 v h
    rw [optFoldMin_nil] at h
    obtain rfl : m0 = v := Option.some_inj.mp h
    exact ⟨Or.inl rfl, le_refl _, fun d hd => absurd hd (List.not_mem_nil d)⟩
  | cons d rest ih =>
    intro m0 v h
    rw [optFoldMin_cons, updateMin_some] at h
    obtain ⟨hmem, hle, hall⟩ := ih (min m0 d) v h
    refine ⟨?_, le_trans hle (min_le_left _ _), ?_⟩
    · rcases hmem with hv | hv
      · rcases le_total m0 d with hmd | hmd
        · left
          rw [hv]
          exact min_eq_left hmd
        · right
          rw [hv, min_eq_right hmd]
          exact List.mem_cons_self d rest
      · right
        exact List.mem_cons_of_mem d hv
    · intro x hx
      rcases List.mem_cons.mp hx with rfl | hx2
      · exact le_trans hle (min_le_right _ _)
      · exact hall x hx2

theorem optFoldMin_none_spec (ds : List ℝ) (v : ℝ)
    (h : optFoldMin none ds = some v) : v ∈ ds ∧ ∀ d ∈ ds, v ≤ d := by
  cases ds with
  | nil =>
    rw [optFoldMin_nil] at h
    exact absurd h (by simp)
  | cons d rest =>
    rw [optFoldMin_cons, updateMin_none] at h
    obtain ⟨hmem, hle, hall⟩ := optFoldMin_some_spec rest d v h
    constructor
    · rcases hmem with hv | hv
      · rw [hv]
        exact List.mem_cons_self d rest
      · exact List.mem_cons_of_mem d hv
    · intro x hx
      rcases List.mem_cons.mp hx with rfl | hx2
      · exact hle
      · exact hall x hx2

theorem optFoldMin_some_exists : ∀ (ds : List ℝ) (m0 : ℝ),
    ∃ v, optFoldMin (some m0) ds = some v := by
  intro ds
  induction ds with
  | nil => intro m0; exact ⟨m0, rfl⟩
  | cons d rest ih =>
    intro m0
    rw [optFoldMin_cons, updateMin_some]
    exact ih (min m0 d)

theorem optFoldMin_none_eq_none_iff (ds : List ℝ) :
    optFoldMin none ds = none ↔ ds = [] := by
  cases ds with
  | nil => simp [optFoldMin_nil]
  | cons d rest =>
    rw [optFoldMin_cons, updateMin_none]
    obtain ⟨v, hv⟩ := optFoldMin_some_exists rest d
    rw [hv]
    simp

theorem optFoldMin_perm {ds1 ds2 : List ℝ} (hp : ds1.Perm ds2) :
    ∀ (m : Option ℝ), optFoldMin m ds1 = optFoldMin m ds2 := by
  induction hp with
  | nil => intro m; rfl
  | cons x _ ih =>
    intro m
    rw [optFoldMin_cons, optFoldMin_cons]
    exact ih _
  | swap x y l =>
    intro m
    rw [optFoldMin_cons, optFoldMin_cons, optFoldMin_cons, optFoldMin_cons]
    have hupd : updateMin (updateMin m y) x = updateMin (updateMin m x) y := by
      cases m with
      | none =>
        show updateMin (some y) x = updateMin (some x) y
        rw [updateMin_some, updateMin_some, min_comm]
      | some m0 =>
        show updateMin (some (min m0 y)) x = updateMin (some (min m0 x)) y
        rw [updateMin_some, updateMin_some, min_assoc, min_assoc, min_comm y x]
    rw [hupd]
  | trans _ _ ih1 ih2 =>
    intro m
    exact (ih1 m).trans (ih2 m)

instance sortRelTotal (env : Envelope) : IsTotal DistRecord
    (fun r s => Envelope.RDistance (recordEnvOf r) env ≤
      Envelope.RDistance (recordEnvOf s) env) :=
  ⟨fun _ _ => le_total _ _⟩

instance sortRelTrans (env : Envelope) : IsTrans DistRecord
    (fun r s => Envelope.RDistance (recordEnvOf r) env ≤
      Envelope.RDistance (recordEnvOf s) env) :=
  ⟨fun _ _ _ h1 h2 => le_trans h1 h2⟩

theorem sortRecords_sorted (env : Envelope) (rs : List DistRecord) :
    List.Sorted (fun r s => Envelope.RDistance (recordEnvOf r) env ≤
      Envelope.RDistance (recordEnvOf s) env) (sortRecords env rs) :=
  @List.sorted_insertionSort DistRecord
    (fun r s => Envelope.RDistance (recordEnvOf r) env ≤
      Envelope.RDistance (recordEnvOf s) env)
    (fun r s => Real.decidableLE _ _)
    (sortRelTotal env) (sortRelTrans env) rs

/-- A stopped `PrioritySearch` over records sorted by envelope distance
computes the same running minimum as the plain fold over all records. -/
theorem searchFold_eq_optFoldMin (env : Envelope) (q1 : DistRecord) :
    ∀ (rs : List DistRecord) (m : Option ℝ),
    List.Pairwise (fun r s => Envelope.RDistance (recordEnvOf r) env ≤
      Envelope.RDistance (recordEnvOf s) env) rs →
    (∀ r ∈ rs, Envelope.RDistance (recordEnvOf r) env ≤ primDist q1 r) →
    searchFold env q1 rs m = optFoldMin m (rs.map (primDist q1)) := by
  intro rs
  induction rs with
  | nil => intro m _ _; rfl
  | cons r rest ih =>
    intro m hpw hbd
    have hr' := (List.pairwise_cons.mp hpw).1
    have hpw' := (List.pairwise_cons.mp hpw).2
    have hbd' : ∀ x ∈ rest,
        Envelope.RDistance (recordEnvOf x) env ≤ primDist q1 x :=
      fun x hx => hbd x (List.mem_cons_of_mem r hx)
    cases m with
    | none =>
      simp only [searchFold, List.map_cons, optFoldMin_cons]
      exact ih (updateMin none (primDist q1 r)) hpw' hbd'
    | some md =>
      simp only [searchFold, List.map_cons, optFoldMin_cons]
      by_cases hc : md < Envelope.RDistance (recordEnvOf r) env
      · rw [if_pos hc, updateMin_some,
          min_eq_left (le_of_lt (lt_of_lt_of_le hc (hbd r (List.mem_cons_self r rest))))]
        symm
        apply optFoldMin_const
        intro d hd
        rw [List.mem_map] at hd
        obtain ⟨x, hxmem, rfl⟩ := hd
        exact le_of_lt (lt_of_lt_of_le (lt_of_lt_of_le hc (hr' x hxmem)) (hbd' x hxmem))
      · rw [if_neg hc]
        exact ih (updateMin (some md) (primDist q1 r)) hpw' hbd'

/-- The whole nested search equals the minimum over the full part-by-record
product of distances. -/
theorem distFold_eq_prodMin (parts : List DistRecord) :
    ∀ (records : List DistRecord) (m : Option ℝ),
    parts.foldl (fun m p1 =>
      searchFold (recordEnvOf p1) p1 (sortRecords (recordEnvOf p1) records) m) m
      = optFoldMin m (parts.bind (fun p => records.map (primDist p))) := by
  induction parts with
  | nil => intro records m; rfl
  | cons p ps ih =>
    intro records m
    simp only [List.foldl_cons, List.cons_bind]
    rw [optFoldMin_append, ih records _]
    congr 1
    rw [searchFold_eq_optFoldMin (recordEnvOf p) p
      (sortRecords (recordEnvOf p) records) m
      (sortRecords_sorted (recordEnvOf p) records)
      (fun r _ => primDist_ge_RDist p r)]
    exact optFoldMin_perm
      (List.Perm.map (primDist p) (sortRecords_perm (recordEnvOf p) records)) m

theorem mem_prodL {A B : List DistRecord} {d : ℝ} :
    d ∈ A.bind (fun p => B.map (primDist p)) ↔
      ∃ p ∈ A, ∃ q ∈ B, primDist p q = d := by
  simp [List.mem_bind, List.mem_map]

/-- Transposing the product does not change the minimum distance. -/
theorem prodMin_eq (A B : List DistRecord) :
    optFoldMin none (A.bind (fun p => B.map (primDist p)))
      = optFoldMin none (B.bind (fun q => A.map (primDist q))) := by
  by_cases hA : A = []
  · subst hA
    have h2 : B.bind (fun q => ([] : List DistRecord).map (primDist q)) = [] := by
      simp
    rw [h2]
    rfl
  · by_cases hB : B = []
    · subst hB
      have h1 : A.bind (fun p => ([] : List DistRecord).map (primDist p)) = [] := by
        simp
      rw [h1]
      rfl
    · have hL12ne : A.bind (fun p => B.map (primDist p)) ≠ [] := by
        intro h
        rw [List.bind_eq_nil] at h
        obtain ⟨a0, ha0⟩ := List.exists_mem_of_ne_nil A hA
        have hmap := h _ ha0
        rw [List.map_eq_nil] at hmap
        exact hB hmap
      have hL21ne : B.bind (fun q => A.map (primDist q)) ≠ [] := by
        intro h
        rw [List.bind_eq_nil] at h
        obtain ⟨b0, hb0⟩ := List.exists_mem_of_ne_nil B hB
        have hmap := h _ hb0
        rw [List.map_eq_nil] at hmap
        exact hA hmap
      cases h12 : optFoldMin none (A.bind (fun p => B.map (primDist p))) with
      | none => exact absurd ((optFoldMin_none_eq_none_iff _).mp h12) hL12ne
      | some v1 =>
        cases h21 : optFoldMin none (B.bind (fun q => A.map (primDist q))) with
        | none => exact absurd ((optFoldMin_none_eq_none_iff _).mp h21) hL21ne
        | some v2 =>
          obtain ⟨hm1, hb1⟩ := optFoldMin_none_spec _ _ h12
          obtain ⟨hm2, hb2⟩ := optFoldMin_none_spec _ _ h21
          congr 1
          apply le_antisymm
          · obtain ⟨q, hq, p, hp, hpq⟩ := mem_prodL.mp hm2
            have hv2 : primDist p q = v2 := by
              rw [primDist_symm]
              exact hpq
            exact hv2 ▸ hb1 _ (mem_prodL.mpr ⟨p, hp, q, hq, rfl⟩)
          · obtain ⟨p, hp, q, hq, hpq⟩ := mem_prodL.mp hm1
            have hv1 : primDist q p = v1 := by
              rw [primDist_symm]
              exact hpq
            exact hv1 ▸ hb2 _ (mem_prodL.mpr ⟨q, hq, p, hp, rfl⟩)

/-- C6: for every pair of valid geometries of variants handled by the
distance engine (the extraction succeeds on both), `distance` is symmetric:
both the value and the ok flag agree in the two argument orders. -/
theorem claim_C6 (g1 g2 : Geometry) (xys1 xys2 : List XY) (lns1 lns2 : List Line)
    (hv1 : g1.validB = true) (hv2 : g2.validB = true)
    (h1 : extractXYsAndLines g1 = some (xys1, lns1))
    (h2 : extractXYsAndLines g2 = some (xys2, lns2)) :
    distance g1 g2 = distance g2 g1 := by
  have hsym : g1.Intersects g2 = g2.Intersects g1 := by
    unfold Geometry.Intersects
    exact hasIntersection_symm (g1.msize + g2.msize) g1 g2 le_rfl hv1 hv2
  by_cases hint : g1.Intersects g2 = true
  · unfold distance
    rw [if_pos hint, if_pos (hsym ▸ hint)]
  · have hintf : g1.Intersects g2 = false := by
      cases hI : g1.Intersects g2
      · rfl
      · exact absurd hI hint
    have hintf2 : g2.Intersects g1 = false := hsym ▸ hintf
    rw [distance_eq_of_extract g1 g2 xys1 xys2 lns1 lns2 hintf h1 h2,
      distance_eq_of_extract g2 g1 xys2 xys1 lns2 lns1 hintf2 h2 h1]
    rw [distFold_eq_prodMin (xys1.map DistRecord.xyRec ++ lns1.map DistRecord.lnRec)
      (xys2.map DistRecord.xyRec ++ lns2.map DistRecord.lnRec) none]
    rw [distFold_eq_prodMin (xys2.map DistRecord.xyRec ++ lns2.map DistRecord.lnRec)
      (xys1.map DistRecord.xyRec ++ lns1.map DistRecord.lnRec) none]
    rw [prodMin_eq (xys1.map DistRecord.xyRec ++ lns1.map DistRecord.lnRec)
      (xys2.map DistRecord.xyRec ++ lns2.map DistRecord.lnRec)]

/-- Witness for C6 at a concrete pair of distinct points. -/
theorem claim_C6_witness :
    distance (Geometry.point ⟨⟨0, 0⟩⟩) (Geometry.point ⟨⟨1, 1⟩⟩)
      = distance (Geometry.point ⟨⟨1, 1⟩⟩) (Geometry.point ⟨⟨0, 0⟩⟩) :=
  claim_C6 (Geometry.point ⟨⟨0, 0⟩⟩) (Geometry.point ⟨⟨1, 1⟩⟩) [⟨0, 0⟩] [⟨1, 1⟩] [] []
    (by simp [Geometry.validB]) (by simp [Geometry.validB])
    (by simp [extractXYsAndLines]) (by simp [extractXYsAndLines])

end SF
